import Mathlib

/-!
Verification of the fn_graph library (function-graph composer and executor).

This file gives a shallow embedding of the core of `fn_graph`
(`fn_graph/__init__.py`, `fn_graph/calculation.py`, `fn_graph/caches.py`)
and proves or refutes the specification claims about it.

Modelling conventions:
* Python strings are modelled as `List Char` (a sequence of code points);
  `nm` converts a Lean string literal to that representation.
* Python dicts are modelled as insertion-ordered association lists with
  unique keys (`dget?`, `dinsert`, `dupdate` mirror `d[k]`, assignment and
  `{**d1, **d2}`).
* Python sets have an unspecified iteration order; where the source iterates
  over a set we iterate in sorted order (noted at each use site).
* `collections.Counter` is modelled as an insertion-ordered association list
  with `Int` counts (`counterSub` mirrors `Counter.subtract`, which creates
  missing entries and can drive counts negative).
* Exceptions are modelled with `Except`; an uncaught Python exception is an
  `Except.error` result.
* CPython object identity (`id(...)`), which `SimpleCache` uses for hashing
  by default, is modelled by an explicit `ident : Nat` field carried by
  registered functions and parameter values.
-/

/-! ### Strings as character lists -/

abbrev Name := List Char

/-- Convert a literal to the character-list model of Python strings. -/
def nm (s : String) : Name := s.data

/-- Python `a < b` on strings: lexicographic order on code points. -/
def charLt (a b : Char) : Bool := a.toNat < b.toNat

/-- Lexicographic strict order on names (Python string `<`). -/
def nameLt : Name → Name → Bool
  | [], [] => false
  | [], _ :: _ => true
  | _ :: _, [] => false
  | a :: as, b :: bs => if a = b then nameLt as bs else charLt a b

/-- Python `s.startswith(p)`. -/
def startsWith (s p : Name) : Bool := p.isPrefixOf s

/-- Fuel-driven worker for `splitOnSep` (structural recursion so that the
kernel can evaluate it). -/
def splitGo (sep : Name) : Nat → List Char → List Char → List Name
  | _, acc, [] => [acc.reverse]
  | 0, acc, rest => [acc.reverse ++ rest]
  | fuel + 1, acc, c :: rest =>
    if sep.isPrefixOf (c :: rest) then
      acc.reverse :: splitGo sep fuel [] (List.drop (sep.length - 1) rest)
    else
      splitGo sep fuel (c :: acc) rest

/-- Python `s.split(sep)` for a non-empty separator: leftmost,
non-overlapping matches. -/
def splitOnSep (sep s : Name) : List Name := splitGo sep s.length [] s

/-- Python `sep.join(parts)`. -/
def joinSep (sep : Name) : List Name → Name
  | [] => []
  | [p] => p
  | p :: rest => p ++ sep ++ joinSep sep rest

/-- The namespace separator `"__"`. -/
def dunder : Name := nm "__"

/-- Stable insertion of one element into a sorted list (helper for
`pySorted`). -/
def sortedInsert (le : α → α → Bool) (x : α) : List α → List α
  | [] => [x]
  | y :: ys => if le y x then y :: sortedInsert le x ys else x :: y :: ys

/-- Python `sorted`: a stable sort by the given `≤` test (insertion sort,
which is stable, matching Python's stability guarantee). -/
def pySorted (le : α → α → Bool) : List α → List α
  | [] => []
  | x :: xs => sortedInsert le x (pySorted le xs)

/-! ### Python dicts as insertion-ordered association lists -/

/-- Python `d.get(k)` / `d[k]`: the value stored at a key (keys are unique,
so the first match is the only match). -/
def dget? (d : List (Name × α)) (k : Name) : Option α :=
  match d with
  | [] => none
  | (k', v) :: rest => if k' = k then some v else dget? rest k

/-- Python `k in d`. -/
def dcontains (d : List (Name × α)) (k : Name) : Bool := (dget? d k).isSome

/-- Python `d[k] = v`: overwrite in place if the key exists (keeping its
position, as CPython dicts do), otherwise append. -/
def dinsert (d : List (Name × α)) (k : Name) (v : α) : List (Name × α) :=
  match d with
  | [] => [(k, v)]
  | (k', v') :: rest =>
    if k' = k then (k', v) :: rest else (k', v') :: dinsert rest k v

/-- Python `{**d, **e}`. -/
def dupdate (d e : List (Name × α)) : List (Name × α) :=
  e.foldl (fun acc kv => dinsert acc kv.1 kv.2) d

/-- Python `list(d.keys())`. -/
def dkeys (d : List (Name × α)) : List Name := d.map (·.1)

/-- Python `d.pop(k)` both removes the entry and returns its value;
this returns the dict with the entry removed. -/
def dremove (d : List (Name × α)) (k : Name) : List (Name × α) :=
  match d with
  | [] => []
  | (k', v') :: rest =>
    if k' = k then rest else (k', v') :: dremove rest k

/-! ### Values, parameter descriptors and registered functions -/

/-- Run-time values flowing through the graph.  The claims only need
integers; `vnone` models Python `None` (e.g. the return value of
`NullCache.get`). -/
inductive Value where
  | vnone : Value
  | vint : Int → Value
  deriving DecidableEq

/-- The five Python parameter kinds (`inspect.Parameter.kind`). -/
inductive ParamKind where
  | positionalOnly
  | positionalOrKeyword
  | keywordOnly
  | varPositional
  | varKeyword
  deriving DecidableEq

/-- One formal parameter of a registered function, as obtained from
`inspect.signature`: its name, kind, and whether it has a default. -/
structure ParamSpec where
  pname : Name
  kind : ParamKind
  hasDefault : Bool
  deriving DecidableEq

/-- A registered callable.  `impl` receives the four argument groups the
executor assembles (`function(*positional, *args, **keywords, **kwargs)`)
and returns a value or raises (`Except.error`).  `isLink` models the
`_is_fn_graph_link` attribute, `ident` models `id(fn)` (CPython object
identity) and `src` models `inspect.getsource(fn)`. -/
structure FuncDef where
  params : List ParamSpec
  impl : List Value → List Value → List (Name × Value) → List (Name × Value) → Except String Value
  isLink : Bool
  ident : Nat
  src : Name

/-- A parameter registry entry: the stored value plus the `id()` of the
stored value object (the declared type from the `(type, value)` pair is not
tracked: no claim depends on it). -/
structure ParamEntry where
  value : Value
  ident : Nat

/-! ### The cache backends (`fn_graph/caches.py`) -/

/-- A content signature as computed by `hash_fn`: either an object identity
(`use_id=True`) or a digest.  Digests of distinct byte strings are modelled
as distinct (`sha256` collisions are ignored, as the source does):
`ofSrc` stands for `sha256(source_text)`, `ofVal` for
`sha256(pickle.dumps(value))`. -/
inductive HashVal where
  | ofId : Nat → HashVal
  | ofSrc : Name → HashVal
  | ofVal : Value → HashVal
  deriving DecidableEq

/-- The state of the cache backend attached to a composer.  `null` is
`NullCache` (also the default), `simple` is `SimpleCache` with its
`hash_parameters` flag and its two dicts `self.cache` and `self.hashes`.
In the source the backend is a mutable object shared by reference between
composers; execution functions therefore take the state explicitly and
return the updated state. -/
inductive CacheState where
  | null : CacheState
  | simple (hashParameters : Bool) (cache : List (Name × Value))
      (hashes : List (Name × HashVal)) : CacheState

/-! ### The composer registries (`fn_graph/__init__.py`) -/

/-- The immutable snapshot held by a `Composer`: functions, parameters,
tests and the source map, plus the attached cache backend (registries are
namespaced; tests are modelled by opaque tokens since only their registry
identity matters to the claims). -/
structure Composer where
  functions : List (Name × FuncDef)
  parameters : List (Name × ParamEntry)
  tests : List (Name × Nat)
  sourceMap : List (Name × Name)
  cacheInit : CacheState

/-- `Composer()` with no arguments: empty registries and a `NullCache`. -/
def Composer.new : Composer :=
  { functions := [], parameters := [], tests := [], sourceMap := [],
    cacheInit := CacheState.null }

/-- Inhabitants for typeclass search (not part of the model). -/
instance : Inhabited Value := ⟨Value.vnone⟩

instance {ε α : Type} [DecidableEq ε] [DecidableEq α] :
    DecidableEq (Except ε α) := fun a b =>
  match a, b with
  | Except.error e1, Except.error e2 =>
    if h : e1 = e2 then isTrue (congrArg Except.error h)
    else isFalse (fun hc => h (Except.error.inj hc))
  | Except.error _, Except.ok _ => isFalse (fun hc => Except.noConfusion hc)
  | Except.ok _, Except.error _ => isFalse (fun hc => Except.noConfusion hc)
  | Except.ok v1, Except.ok v2 =>
    if h : v1 = v2 then isTrue (congrArg Except.ok h)
    else isFalse (fun hc => h (Except.ok.inj hc))

instance : Inhabited FuncDef :=
  ⟨{ params := [], impl := fun _ _ _ _ => Except.ok Value.vnone,
     isLink := false, ident := 0, src := [] }⟩

instance : Inhabited ParamEntry := ⟨{ value := Value.vnone, ident := 0 }⟩

instance : Inhabited ParamSpec :=
  ⟨{ pname := [], kind := ParamKind.positionalOrKeyword, hasDefault := false }⟩

instance : Inhabited CacheState := ⟨CacheState.null⟩

instance : Inhabited Composer := ⟨Composer.new⟩

/-! ### Name resolution (`Composer._resolve_predecessor` and friends) -/

/-- The candidate list of `_resolve_predecessor` / `_resolve_var_predecessors`
after the `reverse()`: `["__".join(fparts[:i] + [pname]) for i in
range(0, len(fparts))]` reversed, i.e. most-specific namespace prefix
first, the bare parameter name last. -/
def possiblePreds (fname pname : Name) : List Name :=
  let fparts := splitOnSep dunder fname
  ((List.range fparts.length).map
    (fun i => joinSep dunder (fparts.take i ++ [pname]))).reverse

/-- First element of a list of candidates that is a registered function
(helper for `resolvePredecessor`). -/
def firstRegistered (functions : List (Name × FuncDef)) (fallback : Name) :
    List Name → Name
  | [] => fallback
  | c :: rest =>
    if dcontains functions c then c else firstRegistered functions fallback rest

/-- `Composer._resolve_predecessor`: walk the candidate list, return the
first candidate registered in `functions`; if none is registered the
`for`/`else` returns `possible_preds[0]`, the head of the reversed list. -/
def Composer.resolvePredecessor (c : Composer) (fname pname : Name) : Name :=
  let preds := possiblePreds fname pname
  firstRegistered c.functions (preds.headD pname) preds

/-- `Composer._resolve_var_predecessors`: for each candidate prefix (most
specific first), every registered function whose name starts with the
prefix is yielded as `(pname + suffix, function)`, in registry order. -/
def Composer.resolveVarPredecessors (c : Composer) (fname pname : Name) :
    List (Name × Name) :=
  (possiblePreds fname pname).flatMap
    (fun possiblePrefix =>
      (dkeys c.functions).filterMap
        (fun function =>
          if startsWith function possiblePrefix then
            some (pname ++ function.drop possiblePrefix.length, function)
          else none))

/-- `Composer._resolve_predecessors`: resolve every formal parameter of a
registered function; positional/keyword parameters resolve through
`_resolve_predecessor` (a parameter with a default contributes no edge when
its resolution is not registered), variadic parameters expand through
`_resolve_var_predecessors`.  Returns `[]` for an unregistered name. -/
def Composer.resolvePredecessors (c : Composer) (fname : Name) :
    List (Name × Name) :=
  match dget? c.functions fname with
  | none => []
  | some fn =>
    fn.params.flatMap
      (fun p =>
        match p.kind with
        | ParamKind.varPositional => c.resolveVarPredecessors fname p.pname
        | ParamKind.varKeyword => c.resolveVarPredecessors fname p.pname
        | _ =>
          let resolvedName := c.resolvePredecessor fname p.pname
          if p.hasDefault then
            if dcontains c.functions resolvedName then
              [(p.pname, resolvedName)]
            else []
          else [(p.pname, resolvedName)])

/-! ### Builders for concrete composers used in the theorems -/

/-- A nullary registered function returning a constant. -/
def constFn (n : Int) (ident : Nat) (src : String) : FuncDef :=
  { params := [],
    impl := fun _ _ _ _ => Except.ok (Value.vint n),
    isLink := false, ident := ident, src := nm src }

/-- A positional-or-keyword parameter without default. -/
def reqParam (s : String) : ParamSpec :=
  { pname := nm s, kind := ParamKind.positionalOrKeyword, hasDefault := false }

/-- A registered function with given parameters and implementation. -/
def mkFn (ps : List ParamSpec)
    (impl : List Value → List Value → List (Name × Value) → List (Name × Value) →
      Except String Value)
    (ident : Nat) (src : String) : FuncDef :=
  { params := ps, impl := impl, isLink := false, ident := ident, src := nm src }

/-- A composer with the given function registry, no parameters, no tests,
no source map and the default `NullCache`. -/
def mkComposer (fns : List (Name × FuncDef)) : Composer :=
  { functions := fns, parameters := [], tests := [], sourceMap := [],
    cacheInit := CacheState.null }

/-- Concrete composer for the C2 counterexample: one registered function
`ns__f(p)` and nothing that any candidate for `p` could resolve to. -/
def cexC2 : Composer :=
  mkComposer [(nm "ns__f", mkFn [reqParam "p"]
    (fun _ _ _ _ => Except.ok (Value.vint 0)) 1 "def f(p): return p")]

/-! ### Directed graphs (the fragment of `networkx.DiGraph` the source uses)

Nodes and edges are kept in insertion order without duplicates, matching
`DiGraph.add_node` / `add_edges_from` semantics. -/

structure NxDiGraph where
  nodes : List Name
  edges : List (Name × Name)

def NxDiGraph.empty : NxDiGraph := { nodes := [], edges := [] }

/-- `G.add_node(n)`. -/
def NxDiGraph.addNode (g : NxDiGraph) (n : Name) : NxDiGraph :=
  if n ∈ g.nodes then g else { g with nodes := g.nodes ++ [n] }

/-- Adding one edge: `add_edges_from` adds missing endpoints as nodes and
ignores duplicate edges. -/
def NxDiGraph.addEdge (g : NxDiGraph) (e : Name × Name) : NxDiGraph :=
  let g' := (g.addNode e.1).addNode e.2
  if e ∈ g'.edges then g' else { g' with edges := g'.edges ++ [e] }

/-- `G.add_edges_from(es)`. -/
def NxDiGraph.addEdgesFrom (g : NxDiGraph) (es : List (Name × Name)) : NxDiGraph :=
  es.foldl NxDiGraph.addEdge g

/-- `G.subgraph(keep)`: the induced subgraph; iteration order of its nodes
and edges follows the parent graph, as it does for `networkx` subgraph
views. -/
def NxDiGraph.subgraphOf (g : NxDiGraph) (keep : List Name) : NxDiGraph :=
  { nodes := g.nodes.filter (fun n => decide (n ∈ keep)),
    edges := g.edges.filter (fun e => decide (e.1 ∈ keep) && decide (e.2 ∈ keep)) }

/-- Out-neighbours of a node, in edge insertion order
(`G.successors(n)` / `G.edges(n)` targets). -/
def NxDiGraph.succOf (g : NxDiGraph) (n : Name) : List Name :=
  (g.edges.filter (fun e => decide (e.1 = n))).map (·.2)

/-- In-degree of a node (`G.in_degree()`). -/
def NxDiGraph.inDegreeOf (g : NxDiGraph) (n : Name) : Nat :=
  (g.edges.filter (fun e => decide (e.2 = n))).length

/-- Out-degree of a node. -/
def NxDiGraph.outDegreeOf (g : NxDiGraph) (n : Name) : Nat :=
  (g.edges.filter (fun e => decide (e.1 = n))).length

/-! ### Reachability (`nx.ancestors` / `nx.descendants`)

`nx` returns sets; only membership in them matters to the source, and where
it iterates over them the operations commute, so a list representation with
a deterministic order is a faithful model. -/

/-- Append an element to a set-as-list if it is new. -/
def addNew (S : List Name) (n : Name) : List Name :=
  if n ∈ S then S else S ++ [n]

/-- One saturation pass: add the target of every edge whose source is
already in the set. -/
def reachStepFwd (edges : List (Name × Name)) (S : List Name) : List Name :=
  edges.foldl (fun T e => if e.1 ∈ T then addNew T e.2 else T) S

/-- Iterate saturation passes to a fixpoint (the fuel
`edges.length + 1` always suffices, see `reachClosure_closed`). -/
def reachClosure (edges : List (Name × Name)) : Nat → List Name → List Name
  | 0, S => S
  | fuel + 1, S =>
    let S' := reachStepFwd edges S
    if S' = S then S else reachClosure edges fuel S'

/-- All nodes reachable from `n` along edges, including `n` itself. -/
def reachFwd (g : NxDiGraph) (n : Name) : List Name :=
  reachClosure g.edges (g.edges.length + 1) [n]

/-- `nx.descendants(g, n)`: nodes reachable from `n`, excluding `n`. -/
def descendantsOf (g : NxDiGraph) (n : Name) : List Name :=
  (reachFwd g n).filter (fun x => decide (x ≠ n))

/-- All nodes with a path to `n`, including `n` itself (reachability along
reversed edges). -/
def reachBwd (g : NxDiGraph) (n : Name) : List Name :=
  reachClosure (g.edges.map Prod.swap) (g.edges.length + 1) [n]

/-- `nx.ancestors(g, n)`: nodes with a path to `n`, excluding `n`. -/
def ancestorsOf (g : NxDiGraph) (n : Name) : List Name :=
  (reachBwd g n).filter (fun x => decide (x ≠ n))

/-! ### Topological sort (`nx.topological_sort`)

Kahn's algorithm as `networkx` implements it: an in-degree map holding only
nodes of positive in-degree, and a worklist of zero-in-degree nodes from
which `pop()` takes the most recently appended element.  The worklist is
modelled with its Python end at the head (`push` is cons, `pop` is head),
so the initial node-order list is reversed. -/

/-- Decrement the in-degree of one child; on reaching zero the entry is
deleted and the child pushed on the worklist.  (A missing entry would be a
`RuntimeError` in the source and cannot occur for graphs built by
`NxDiGraph`.) -/
def kahnStep (st : List (Name × Nat) × List Name) (child : Name) :
    List (Name × Nat) × List Name :=
  match dget? st.1 child with
  | none => st
  | some d =>
    if d - 1 = 0 then (dremove st.1 child, child :: st.2)
    else (dinsert st.1 child (d - 1), st.2)

/-- The main loop: pop a node, process its out-edges, yield it. -/
def kahnLoop (g : NxDiGraph) : Nat → List (Name × Nat) → List Name → List Name
  | 0, _, _ => []
  | fuel + 1, indeg, zstack =>
    match zstack with
    | [] => []
    | node :: rest =>
      let st := (g.succOf node).foldl kahnStep (indeg, rest)
      node :: kahnLoop g fuel st.1 st.2

/-- `list(nx.topological_sort(g))`. -/
def kahnList (g : NxDiGraph) : List Name :=
  let indeg := g.nodes.filterMap
    (fun n => if g.inDegreeOf n = 0 then none else some (n, g.inDegreeOf n))
  let zstack := (g.nodes.filter (fun n => decide (g.inDegreeOf n = 0))).reverse
  kahnLoop g g.nodes.length indeg zstack

/-- Whether the sort emitted every node; on a graph this is acyclicity
(`nx.topological_sort` raises `NetworkXUnfeasible` — i.e. the graph is
cyclic — exactly when nodes remain in the in-degree map). -/
def isAcyclicB (g : NxDiGraph) : Bool :=
  decide ((kahnList g).length = g.nodes.length)

/-! ### The composer's graphs (`Composer.dag`, `Composer.ancestor_dag`) -/

/-- `Composer.dag()`: one node per registered function, and an edge
`(resolved, key)` for every resolved predecessor of every function (an
unresolved name also becomes a node through its edge, as in the source). -/
def Composer.dag (c : Composer) : NxDiGraph :=
  let g0 := (dkeys c.functions).foldl NxDiGraph.addNode NxDiGraph.empty
  c.functions.foldl
    (fun g kv =>
      g.addEdgesFrom ((c.resolvePredecessors kv.1).map (fun pr => (pr.2, kv.1))))
    g0

/-- The Python set `set(outputs) | {pred for output in outputs for pred in
nx.ancestors(full_dag, output)}`; only membership in it is consumed. -/
def Composer.ancestorSet (c : Composer) (outputs : List Name) : List Name :=
  outputs ++ outputs.flatMap (fun o => ancestorsOf c.dag o)

/-- `Composer.ancestor_dag(outputs)`. -/
def Composer.ancestorDag (c : Composer) (outputs : List Name) : NxDiGraph :=
  c.dag.subgraphOf (c.ancestorSet outputs)

/-! ### Content hashing (`hash_fn`) and the cache operations -/

/-- `fn_value(fn)`: Python source for ordinary functions, the comma-joined
parameter names for links. -/
def fnValue (fn : FuncDef) : Name :=
  if fn.isLink then joinSep (nm ",") (fn.params.map (fun p => p.pname))
  else fn.src

/-- `hash_fn(composer, key, use_id)`.  The hashed object is the parameter
value when `key` is a parameter, else the registered function; `use_id`
substitutes CPython object identity.  A key registered nowhere would raise
`KeyError` in the source; that path is unreachable in every use below and
is given an arbitrary result. -/
def hashFn (c : Composer) (key : Name) (useId : Bool) : HashVal :=
  match dget? c.parameters key with
  | some pe => if useId then HashVal.ofId pe.ident else HashVal.ofVal pe.value
  | none =>
    match dget? c.functions key with
    | some fn => if useId then HashVal.ofId fn.ident else HashVal.ofSrc (fnValue fn)
    | none => HashVal.ofId 0

/-- `valid` of the attached backend: `NullCache.valid` is constantly false;
`SimpleCache.valid` compares the stored signature when one exists and
otherwise only checks presence of a cached value. -/
def cacheValid (c : Composer) (s : CacheState) (key : Name) : Bool :=
  match s with
  | CacheState.null => false
  | CacheState.simple hp cache hashes =>
    match dget? hashes key with
    | some stored => decide (hashFn c key (!hp) = stored)
    | none => dcontains cache key

/-- `get` of the attached backend: `NullCache.get` is `pass` (returns
`None`); `SimpleCache.get` is `self.cache[key]`, a `KeyError` when the key
is absent. -/
def cacheGet (c : Composer) (s : CacheState) (key : Name) : Except String Value :=
  match s with
  | CacheState.null => Except.ok Value.vnone
  | CacheState.simple _ cache _ =>
    match dget? cache key with
    | some v => Except.ok v
    | none => Except.error "KeyError"

/-- `set` of the attached backend: `SimpleCache.set` stores the value and —
only for parameter keys — the current signature. -/
def cacheSet (c : Composer) (s : CacheState) (key : Name) (v : Value) :
    CacheState :=
  match s with
  | CacheState.null => CacheState.null
  | CacheState.simple hp cache hashes =>
    CacheState.simple hp (dinsert cache key v)
      (if dcontains c.parameters key then
        dinsert hashes key (hashFn c key (!hp))
      else hashes)

/-- `invalidate` of the attached backend. -/
def cacheInvalidate (c : Composer) (s : CacheState) (key : Name) : CacheState :=
  match s with
  | CacheState.null => CacheState.null
  | CacheState.simple hp cache hashes =>
    CacheState.simple hp (dremove cache key) (dremove hashes key)

/-! ### Composer update operations -/

/-- `Composer.update(*args, **kwargs)`: the caller's positional functions
(named by their `__name__`) and keyword functions arrive merged into one
ordered list, as in `{**args_with_names, **kwargs}`.  The source's
callable check always passes here because the entries are `FuncDef`s by
type. -/
def Composer.update (c : Composer) (args : List (Name × FuncDef)) : Composer :=
  { c with functions := dupdate c.functions args }

/-- `littleutils.strip_required_prefix`: strips the prefix or raises. -/
def stripRequiredPrefixOf (s pre : Name) : Except String Name :=
  if startsWith s pre then Except.ok (s.drop pre.length)
  else Except.error "prefix missing"

/-- `littleutils.strip_required_suffix`. -/
def stripRequiredSuffixOf (s suf : Name) : Except String Name :=
  if suf.isSuffixOf s then Except.ok (s.take (s.length - suf.length))
  else Except.error "suffix missing"

/-- `Composer.update_without_prefix(prefix, *functions, **kwargs)`. -/
def Composer.updateWithoutPrefixOf (c : Composer) (pre : Name)
    (functions : List (Name × FuncDef)) (kwargs : List (Name × FuncDef)) :
    Except String Composer :=
  match functions.mapM
    (fun kv => (stripRequiredPrefixOf kv.1 pre).map (fun n => (n, kv.2))) with
  | Except.error e => Except.error e
  | Except.ok stripped => Except.ok (c.update (stripped ++ kwargs))

/-- `Composer.update_without_suffix(suffix, *functions, **kwargs)`. -/
def Composer.updateWithoutSuffixOf (c : Composer) (suf : Name)
    (functions : List (Name × FuncDef)) (kwargs : List (Name × FuncDef)) :
    Except String Composer :=
  match functions.mapM
    (fun kv => (stripRequiredSuffixOf kv.1 suf).map (fun n => (n, kv.2))) with
  | Except.error e => Except.error e
  | Except.ok stripped => Except.ok (c.update (stripped ++ kwargs))

/-- The nullary closure `update_parameters` installs for one parameter
(`serve_parameter`); the declared-type check and the int-to-float widening
are not modelled (no claim exercises them), so the call always succeeds
with the captured value. -/
def serveParameter (pe : ParamEntry) : FuncDef :=
  { params := [],
    impl := fun _ _ _ _ => Except.ok pe.value,
    isLink := false, ident := pe.ident, src := [] }

/-- `Composer.update_parameters(**parameters)`: installs both the
parameter entry and the value-serving nullary function node. -/
def Composer.updateParameters (c : Composer)
    (params : List (Name × ParamEntry)) : Composer :=
  Composer.update { c with parameters := dupdate c.parameters params }
    (params.map (fun kv => (kv.1, serveParameter kv.2)))

/-- `Composer.update_tests(**tests)` (test functions are opaque tokens). -/
def Composer.updateTests (c : Composer) (tests : List (Name × Nat)) : Composer :=
  { c with tests := dupdate c.tests tests }

/-- The identity lambda `eval(f"lambda {source}: {source}")` installed by
`Composer.link`, carrying the `_is_fn_graph_link` marker; `ident` models
the freshly created object's `id()`. -/
def makeLinkFn (source : Name) (ident : Nat) : FuncDef :=
  { params := [⟨source, ParamKind.positionalOrKeyword, false⟩],
    impl := fun pos varargs kw kwargs =>
      (match pos, varargs, kw, kwargs with
        | [v], [], [], [] => Except.ok v
        | _, _, _, _ => Except.error "TypeError"),
    isLink := true, ident := ident, src := [] }

/-- `Composer.link(**kwargs)`.  Each eval'd lambda is a fresh object; the
claims below never hash a link function, so they share one `ident`. -/
def Composer.link (c : Composer) (kwargs : List (Name × Name))
    (ident : Nat) : Composer :=
  c.update (kwargs.map (fun kv => (kv.1, makeLinkFn kv.2 ident)))

/-- `Composer.update_namespaces(**namespaces)`: every function and
parameter of each supplied composer is re-keyed under
`namespace + "__"`. -/
def Composer.updateNamespaces (c : Composer)
    (namespaces : List (Name × Composer)) : Composer :=
  { c with
    functions := dupdate c.functions
      (namespaces.flatMap (fun nsc =>
        nsc.2.functions.map (fun kv => (nsc.1 ++ dunder ++ kv.1, kv.2)))),
    parameters := dupdate c.parameters
      (namespaces.flatMap (fun nsc =>
        nsc.2.parameters.map (fun kv => (nsc.1 ++ dunder ++ kv.1, kv.2)))) }

/-- `Composer.update_from(*composers)`. -/
def Composer.updateFrom (c : Composer) (composers : List Composer) : Composer :=
  composers.foldl
    (fun x y => ((x.update y.functions).updateParameters y.parameters).updateTests
      y.tests) c

/-- `Composer.subgraph(function_names)`: restrict functions and parameters
to the given names (tests, source map and the cache reference carry over,
as in `_copy`). -/
def Composer.subgraph (c : Composer) (functionNames : List Name) : Composer :=
  { c with
    functions := functionNames.filterMap
      (fun k => (dget? c.functions k).map (fun fd => (k, fd))),
    parameters := c.parameters.filter (fun kv => decide (kv.1 ∈ functionNames)) }

/-- `Composer.cache(backend=None)`: attach a backend, `SimpleCache()` by
default. -/
def Composer.cache (c : Composer) (backend : Option CacheState) : Composer :=
  { c with cacheInit := backend.getD (CacheState.simple false [] []) }

/-- `Composer.set_source_map(source_map)`: replaces the source map. -/
def Composer.setSourceMap (c : Composer) (sourceMap : List (Name × Name)) :
    Composer :=
  { c with sourceMap := sourceMap }

/-! ### Diagnostics (`Composer._unbound`, `Composer.check`) -/

/-- Ordering on `(unbound_name, consumer)` pairs used by
`sorted` in `_unbound` (lexicographic tuple comparison). -/
def pairLe (a b : Name × Name) : Bool :=
  if a.1 = b.1 then !(nameLt b.2 a.2) else nameLt a.1 b.1

/-- `itertools.groupby` on sorted pairs: group consecutive runs sharing the
first component. -/
def groupPairs : List (Name × Name) → List (Name × List Name)
  | [] => []
  | (a, k) :: rest =>
    match groupPairs rest with
    | [] => [(a, [k])]
    | (a', ks) :: grest =>
      if a = a' then (a, k :: ks) :: grest else (a, [k]) :: (a', ks) :: grest

/-- `Composer._unbound()`: for each resolved predecessor name that is not a
registered function, the sorted list of consumers requiring it. -/
def Composer.unbound (c : Composer) : List (Name × List Name) :=
  groupPairs (pySorted pairLe
    (c.functions.flatMap (fun kv =>
      (c.resolvePredecessors kv.1).filterMap (fun pr =>
        if dcontains c.functions pr.2 then none else some (pr.2, kv.1)))))

/-- One record yielded by `Composer.check`.  Message strings are not
modelled (§6 of the spec: wording is not contractual, the record type
is). -/
inductive CheckRecord where
  | cycle : CheckRecord
  | unbound (fn : Name) (referers : List Name) : CheckRecord
  deriving DecidableEq

/-- `Composer.check(outputs)`: a cycle record when the (ancestor) dag is
cyclic — `nx.simple_cycles` returns a non-empty list exactly then — plus
one unbound record per unresolved name of the restricted composer. -/
def Composer.check (c : Composer) (outputs : Option (List Name)) :
    List CheckRecord :=
  let dag := match outputs with
    | none => c.dag
    | some os => c.ancestorDag os
  (if isAcyclicB dag then [] else [CheckRecord.cycle]) ++
    ((c.subgraph dag.nodes).unbound.map
      (fun pr => CheckRecord.unbound pr.1 pr.2))

/-! ### The instruction planner (`fn_graph/calculation.py`) -/

inductive NodeInstruction where
  | CALCULATE
  | RETRIEVE
  | IGNORE
  deriving DecidableEq

/-- Membership in `invalid_nodes`: directly invalid (cache `valid` is
false) or a descendant of a directly invalid node. -/
def invalidPred (c : Composer) (s : CacheState) (g : NxDiGraph) (n : Name) :
    Bool :=
  let direct := g.nodes.filter (fun m => !(cacheValid c s m))
  decide (n ∈ direct) || decide (∃ d ∈ direct, n ∈ descendantsOf g d)

/-- `get_execution_instructions(composer, dag, outputs)`: classify every
node of the topological order as CALCULATE / RETRIEVE / IGNORE. -/
def getExecutionInstructions (c : Composer) (s : CacheState) (g : NxDiGraph)
    (outputs : List Name) : List (Name × NodeInstruction) :=
  let isInvalid := fun n => invalidPred c s g n
  let mustRetrieve : Name → Bool := fun n =>
    (decide (∃ e ∈ g.edges, e.1 = n ∧ isInvalid e.2 = true) ||
      decide (n ∈ outputs)) && !(isInvalid n)
  (kahnList g).map (fun node =>
    (node,
      if isInvalid node then NodeInstruction.CALCULATE
      else if mustRetrieve node then NodeInstruction.RETRIEVE
      else NodeInstruction.IGNORE))

/-- `maintain_cache_consistency(composer)`: invalidate every indirectly
invalid node (a descendant of a directly invalid one that is not itself
directly invalid).  The source iterates a Python set; the invalidations
commute, so node order is used. -/
def maintainCacheConsistency (c : Composer) (s : CacheState) : CacheState :=
  let dag := c.dag
  let direct := dag.nodes.filter (fun n => !(cacheValid c s n))
  let indirect := dag.nodes.filter (fun n =>
    decide (n ∉ direct) && decide (∃ d ∈ direct, n ∈ descendantsOf dag d))
  indirect.foldl (fun s n => cacheInvalidate c s n) s

/-! ### Argument assembly (`coalesce_argument_names`, `coalesce_arguments`) -/

structure CoalescedNames where
  positionalNames : List Name
  argsName : Option Name
  keywordNames : List Name
  kwargsName : Option Name

/-- `coalesce_argument_names(function, predecessor_results)`. -/
def coalesceArgumentNames (fn : FuncDef)
    (predResults : List (Name × Value)) : CoalescedNames :=
  fn.params.foldl
    (fun acc p =>
      match p.kind with
      | ParamKind.varPositional => { acc with argsName := some p.pname }
      | ParamKind.varKeyword => { acc with kwargsName := some p.pname }
      | _ =>
        if p.hasDefault && !(dcontains predResults p.pname) then acc
        else if acc.argsName.isNone then
          { acc with positionalNames := acc.positionalNames ++ [p.pname] }
        else
          { acc with keywordNames := acc.keywordNames ++ [p.pname] })
    { positionalNames := [], argsName := none, keywordNames := [],
      kwargsName := none }

/-- `[predecessor_results.pop(name) for name in names]`: a `KeyError`
when a name is absent. -/
def popAll (pr : List (Name × Value)) (names : List Name) :
    Except String (List Value × List (Name × Value)) :=
  names.foldl
    (fun acc name =>
      match acc with
      | Except.error e => Except.error e
      | Except.ok (vals, pr) =>
        match dget? pr name with
        | some v => Except.ok (vals ++ [v], dremove pr name)
        | none => Except.error "KeyError")
    (Except.ok ([], pr))

/-- The `args` comprehension: pop every remaining key starting with
`args_name`.  When `args_name` is `None` the comprehension evaluates
`name.startswith(None)` on the first remaining key — a `TypeError` — and
succeeds vacuously only when nothing remains. -/
def popStarting (pr : List (Name × Value)) (aname : Option Name) :
    Except String (List Value × List (Name × Value)) :=
  match aname with
  | none =>
    if pr.isEmpty then Except.ok ([], pr) else Except.error "TypeError"
  | some a =>
    Except.ok ((pr.filter (fun kv => startsWith kv.1 a)).map (fun kv => kv.2),
      pr.filter (fun kv => !(startsWith kv.1 a)))

/-- The `keywords` dict comprehension over `keyword_names`. -/
def popAllKw (pr : List (Name × Value)) (names : List Name) :
    Except String (List (Name × Value) × List (Name × Value)) :=
  names.foldl
    (fun acc name =>
      match acc with
      | Except.error e => Except.error e
      | Except.ok (pairs, pr) =>
        match dget? pr name with
        | some v => Except.ok (pairs ++ [(name, v)], dremove pr name)
        | none => Except.error "KeyError")
    (Except.ok ([], pr))

/-- The `kwargs` comprehension (same `startswith(None)` behaviour as
`popStarting`). -/
def popStartingKw (pr : List (Name × Value)) (aname : Option Name) :
    Except String (List (Name × Value) × List (Name × Value)) :=
  match aname with
  | none =>
    if pr.isEmpty then Except.ok ([], pr) else Except.error "TypeError"
  | some a =>
    Except.ok (pr.filter (fun kv => startsWith kv.1 a),
      pr.filter (fun kv => !(startsWith kv.1 a)))

/-- `coalesce_arguments(function, predecessor_results)`, ending with the
source's `assert len(predecessor_results) == 0`. -/
def coalesceArguments (fn : FuncDef) (predResults : List (Name × Value)) :
    Except String
      (List Value × List Value × List (Name × Value) × List (Name × Value)) :=
  let cn := coalesceArgumentNames fn predResults
  match popAll predResults cn.positionalNames with
  | Except.error e => Except.error e
  | Except.ok (positional, pr1) =>
    match popStarting pr1 cn.argsName with
    | Except.error e => Except.error e
    | Except.ok (args, pr2) =>
      match popAllKw pr2 cn.keywordNames with
      | Except.error e => Except.error e
      | Except.ok (keywords, pr3) =>
        match popStartingKw pr3 cn.kwargsName with
        | Except.error e => Except.error e
        | Except.ok (kwargs, pr4) =>
          if pr4.isEmpty then Except.ok (positional, args, keywords, kwargs)
          else Except.error "AssertionError"

/-! ### The executor (`calculate_collect_exceptions`) -/

/-- The information the source returns as `(etype, evalue, etraceback,
node)`; the message stands for the exception value, the traceback is not
modelled. -/
structure ErrInfo where
  msg : String
  node : Option Name
  deriving DecidableEq

/-- How a step ends early: `collected` is the captured user-function
failure (`return results, (etype, evalue, etraceback, node)`), `raised` an
exception that propagates out of `calculate_collect_exceptions`. -/
inductive StepExit where
  | collected (results : List (Name × Value)) (cache : CacheState)
      (err : ErrInfo) : StepExit
  | raised (err : ErrInfo) : StepExit

/-- The executor's mutable state: the live results dict, the
remaining-usage `Counter`, and the cache backend's state. -/
structure ExecState where
  results : List (Name × Value)
  counts : List (Name × Int)
  cache : CacheState

/-- `Counter(pred for pred, _ in dag.edges())`. -/
def counterInit (edges : List (Name × Name)) : List (Name × Int) :=
  edges.foldl
    (fun cnt e =>
      match dget? cnt e.1 with
      | some v => dinsert cnt e.1 (v + 1)
      | none => cnt ++ [(e.1, 1)])
    []

/-- `Counter.subtract(items)`: decrements, creating `-1` entries for
missing keys. -/
def counterSub (cnt : List (Name × Int)) (items : List Name) :
    List (Name × Int) :=
  items.foldl
    (fun cnt k =>
      match dget? cnt k with
      | some v => dinsert cnt k (v - 1)
      | none => cnt ++ [(k, -1)])
    cnt

/-- The dict comprehension `{parameter: results[pred] for parameter, pred
in predecessors}`: a `KeyError` when a predecessor's result is absent. -/
def buildPredResults (results : List (Name × Value))
    (predecessors : List (Name × Name)) : Except String (List (Name × Value)) :=
  predecessors.foldl
    (fun acc pr =>
      match acc with
      | Except.error e => Except.error e
      | Except.ok d =>
        match dget? results pr.2 with
        | some v => Except.ok (dinsert d pr.1 v)
        | none => Except.error "KeyError")
    (Except.ok [])

/-- One iteration of the executor loop for `(node, instruction)`: the
instruction body, then the eviction block (`remaining_usage_counts`
subtraction and ejection of dead intermediates).  A user-function
exception becomes `StepExit.collected`; every other exception (cache
`get`, missing function, missing predecessor result, argument coalescing)
is outside the `except` clause and becomes `StepExit.raised`. -/
def execStep (c : Composer) (outputs : List Name) (st : ExecState)
    (ni : Name × NodeInstruction) : Except StepExit ExecState :=
  let node := ni.1
  let predecessors := c.resolvePredecessors node
  let afterBody : Except StepExit ExecState :=
    match ni.2 with
    | NodeInstruction.IGNORE => Except.ok st
    | NodeInstruction.RETRIEVE =>
      match cacheGet c st.cache node with
      | Except.error e => Except.error (StepExit.raised { msg := e, node := some node })
      | Except.ok v =>
        Except.ok { st with results := dinsert st.results node v }
    | NodeInstruction.CALCULATE =>
      match dget? c.functions node with
      | none => Except.error (StepExit.raised { msg := "KeyError", node := some node })
      | some fn =>
        match buildPredResults st.results predecessors with
        | Except.error e => Except.error (StepExit.raised { msg := e, node := some node })
        | Except.ok predResults =>
          match coalesceArguments fn predResults with
          | Except.error e =>
            Except.error (StepExit.raised { msg := e, node := some node })
          | Except.ok (pos, args, kw, kwargs) =>
            match fn.impl pos args kw kwargs with
            | Except.error e =>
              Except.error (StepExit.collected st.results st.cache
                { msg := e, node := some node })
            | Except.ok result =>
              Except.ok { st with
                results := dinsert st.results node result,
                cache := cacheSet c st.cache node result }
  match afterBody with
  | Except.error e => Except.error e
  | Except.ok st' =>
    let counts1 := counterSub st'.counts (predecessors.map (fun pr => pr.2))
    let ready := (counts1.filter (fun kv =>
      decide (kv.2 = 0) && decide (kv.1 ∉ outputs))).map (fun kv => kv.1)
    Except.ok
      { results := ready.foldl (fun r k => dremove r k) st'.results,
        counts := ready.foldl (fun cnt k => dremove cnt k) counts1,
        cache := st'.cache }

/-- The executor loop over the instruction list. -/
def execLoop (c : Composer) (outputs : List Name) :
    ExecState → List (Name × NodeInstruction) → Except StepExit ExecState
  | st, [] => Except.ok st
  | st, ni :: rest =>
    match execStep c outputs st ni with
    | Except.error e => Except.error e
    | Except.ok st' => execLoop c outputs st' rest

/-- The state after each completed step (the boundaries between
instruction steps), for stating memory-liveness invariants. -/
def execTraceStates (c : Composer) (outputs : List Name) :
    ExecState → List (Name × NodeInstruction) → List ExecState
  | _, [] => []
  | st, ni :: rest =>
    match execStep c outputs st ni with
    | Except.error _ => []
    | Except.ok st' => st' :: execTraceStates c outputs st' rest

/-- The outcome of the check phase of `calculate_collect_exceptions`:
the first unknown output or the first `check` record raises. -/
def checksError (c : Composer) (outputs : List Name) : Option ErrInfo :=
  match outputs.find? (fun name => !(dcontains c.functions name)) with
  | some _ => some { msg := "not a composed function", node := none }
  | none =>
    match c.check (some outputs) with
    | [] => none
    | _ :: _ => some { msg := "check failed", node := none }

/-- `calculate_collect_exceptions(composer, outputs, ...)`.  Returns
`(results, exception_info)` plus the final backend state; `Except.error`
is an exception propagating out of the call.  Progress callbacks are
pure no-ops and are omitted. -/
def calculateCollectExceptions (c : Composer) (s : CacheState)
    (outputs : List Name) (performChecks intermediates raiseImmediately : Bool) :
    Except ErrInfo (List (Name × Value) × Option ErrInfo × CacheState) :=
  match (if performChecks then checksError c outputs else none) with
  | some e =>
    if raiseImmediately then Except.error e else Except.ok ([], some e, s)
  | none =>
    let s1 := maintainCacheConsistency c s
    let dag := c.ancestorDag outputs
    let outputs2 := if intermediates then dag.nodes else outputs
    let instructions := getExecutionInstructions c s1 dag outputs2
    let initState : ExecState :=
      { results := [], counts := counterInit dag.edges, cache := s1 }
    match execLoop c outputs2 initState instructions with
    | Except.ok st => Except.ok (st.results, none, st.cache)
    | Except.error (StepExit.collected results cache err) =>
      if raiseImmediately then Except.error err
      else Except.ok (results, some err, cache)
    | Except.error (StepExit.raised err) => Except.error err

/-- `calculate(...)`: `calculate_collect_exceptions` with
`raise_immediately=True`, returning only the results (and the backend
state the source mutates in place). -/
def calculate (c : Composer) (s : CacheState) (outputs : List Name)
    (performChecks intermediates : Bool) :
    Except ErrInfo (List (Name × Value) × CacheState) :=
  match calculateCollectExceptions c s outputs performChecks intermediates true with
  | Except.ok (r, _, s2) => Except.ok (r, s2)
  | Except.error e => Except.error e

/-- `Composer.calculate(outputs)` with the source's default arguments. -/
def Composer.calculateD (c : Composer) (s : CacheState) (outputs : List Name) :
    Except ErrInfo (List (Name × Value) × CacheState) :=
  calculate c s outputs true false

/-- The per-boundary executor states of one `calculate` call with default
flags (empty when the check phase fails). -/
def calculateTrace (c : Composer) (s : CacheState) (outputs : List Name) :
    List ExecState :=
  match checksError c outputs with
  | some _ => []
  | none =>
    let s1 := maintainCacheConsistency c s
    let dag := c.ancestorDag outputs
    let instructions := getExecutionInstructions c s1 dag outputs
    execTraceStates c outputs
      { results := [], counts := counterInit dag.edges, cache := s1 }
      instructions

/-! ### Specification apparatus for the topological sort -/

/-- Well-formedness of a graph: node and edge lists have no duplicates and
edge endpoints are nodes (every graph the source builds satisfies this). -/
structure NxDiGraph.WF (g : NxDiGraph) : Prop where
  nodesNodup : g.nodes.Nodup
  edgesNodup : g.edges.Nodup
  srcMem : ∀ e ∈ g.edges, e.1 ∈ g.nodes
  tgtMem : ∀ e ∈ g.edges, e.2 ∈ g.nodes

/-- Number of edges into `n` whose source is not yet in `processed`. -/
def remIn (edges : List (Name × Name)) (processed : List Name) (n : Name) : Nat :=
  (edges.filter (fun e => decide (e.2 = n) && decide (e.1 ∉ processed))).length

/-- Invariant of the Kahn loop: `out` is what has been yielded, `indeg` the
in-degree map (positive remaining in-degrees of unseen nodes), `zstack` the
worklist. -/
structure KahnInv (g : NxDiGraph) (out : List Name) (indeg : List (Name × Nat))
    (zstack : List Name) : Prop where
  outSub : ∀ n ∈ out, n ∈ g.nodes
  zSub : ∀ n ∈ zstack, n ∈ g.nodes
  outNodup : out.Nodup
  zNodup : zstack.Nodup
  disj : ∀ n ∈ zstack, n ∉ out
  keys : ∀ n, dcontains indeg n = true ↔ (n ∈ g.nodes ∧ n ∉ out ∧ n ∉ zstack)
  indegNodup : (dkeys indeg).Nodup
  val : ∀ n d, dget? indeg n = some d → d = remIn g.edges out n
  pos : ∀ n d, dget? indeg n = some d → 0 < d
  zRem : ∀ n ∈ zstack, remIn g.edges out n = 0
  sound : ∀ e ∈ g.edges, ∀ o1 x o2, out = o1 ++ x :: o2 → e.2 = x → e.1 ∈ o1

/-- Invariant while folding `kahnStep` over the children of the node that
was just yielded: `out'` already ends with that node, `todo` is the suffix
of children whose in-degree is still undecremented. -/
structure KahnMid (g : NxDiGraph) (out' : List Name) (todo : List Name)
    (indeg : List (Name × Nat)) (zstack : List Name) : Prop where
  zSub : ∀ n ∈ zstack, n ∈ g.nodes
  zNodup : zstack.Nodup
  disj : ∀ n ∈ zstack, n ∉ out'
  keys : ∀ n, dcontains indeg n = true ↔ (n ∈ g.nodes ∧ n ∉ out' ∧ n ∉ zstack)
  indegNodup : (dkeys indeg).Nodup
  val : ∀ n d, dget? indeg n = some d →
    d = remIn g.edges out' n + (if n ∈ todo then 1 else 0)
  pos : ∀ n d, dget? indeg n = some d → 0 < d
  zRem : ∀ n ∈ zstack, remIn g.edges out' n = 0
  sound : ∀ e ∈ g.edges, ∀ o1 x o2, out' = o1 ++ x :: o2 → e.2 = x → e.1 ∈ o1

/-! ### Specification apparatus for the executor loop -/

/-- The remaining-use count the `Counter` should hold for `k` after the
prefix `P` of the topological order has been processed: the out-degree
minus the number of already-processed successors. -/
def specCount (g : NxDiGraph) (P : List Name) (k : Name) : Int :=
  (g.outDegreeOf k : Int) -
    (((g.succOf k).filter (fun w => decide (w ∈ P))).length : Int)

/-- Invariant of the executor loop after processing the prefix `P` of the
topological order of `g`: the counter holds `specCount` for exactly the
keys with a successor outside `P` (or in the output set), both dicts have
unique keys, and every live result has a pending consumer or is an
output. -/
structure WInv (g : NxDiGraph) (os : List Name) (P : List Name)
    (st : ExecState) : Prop where
  counts_char : ∀ k, dget? st.counts k =
    if 0 < g.outDegreeOf k ∧ (k ∈ os ∨ ∃ w ∈ g.succOf k, w ∉ P)
    then some (specCount g P k) else none
  counts_nodup : (dkeys st.counts).Nodup
  results_nodup : (dkeys st.results).Nodup
  results_live : ∀ k, (dget? st.results k).isSome = true →
    k ∈ os ∨ ∃ w ∈ g.succOf k, w ∉ P

/-- The one-node computation of the executor, denotationally: look the
function up, assemble its predecessor results from an environment, and
run argument coalescing and the implementation. -/
def nodeCall (c : Composer) (env : Name → Value) (n : Name) :
    Except String Value :=
  match dget? c.functions n with
  | none => Except.error "KeyError"
  | some fn =>
    match coalesceArguments fn
        ((c.resolvePredecessors n).foldl
          (fun d pr => dinsert d pr.1 (env pr.2)) []) with
    | Except.error e => Except.error e
    | Except.ok (pos, args, kw, kwargs) => fn.impl pos args kw kwargs

/-- The value stored in the cache for `key` (an arbitrary default when
`get` would raise). -/
def cacheVal (c : Composer) (s : CacheState) (key : Name) : Value :=
  match cacheGet c s key with
  | Except.ok v => v
  | Except.error _ => Value.vnone

/-- The per-node denotational value, by fuel recursion: an invalid node
computes from its predecessors' values, a valid node is read from the
cache. -/
def Vfuel (c : Composer) (isInv : Name → Bool) (cval : Name → Value) :
    Nat → Name → Value
  | 0, _ => Value.vnone
  | fuel + 1, n =>
    if isInv n then
      match nodeCall c (Vfuel c isInv cval fuel) n with
      | Except.ok v => v
      | Except.error _ => Value.vnone
    else cval n

/-- The denotational value of node `n` in the execution pipeline with
initial (consistency-maintained) backend state `s1` and plan dag `g`:
enough fuel for any node of an acyclic `g`. -/
def Vnode (c : Composer) (s1 : CacheState) (g : NxDiGraph) (n : Name) :
    Value :=
  Vfuel c (fun m => invalidPred c s1 g m) (cacheVal c s1)
    (g.nodes.length + 1) n

/-- The planner's classification of one node
(`get_execution_instructions` as a per-node function). -/
def planInstr (c : Composer) (s : CacheState) (g : NxDiGraph)
    (os : List Name) (node : Name) : NodeInstruction :=
  if invalidPred c s g node then NodeInstruction.CALCULATE
  else if ((decide (∃ e ∈ g.edges, e.1 = node ∧ invalidPred c s g e.2 = true) ||
      decide (node ∈ os)) && !(invalidPred c s g node)) then
    NodeInstruction.RETRIEVE
  else NodeInstruction.IGNORE

/-- The state produced by the eviction block of one executor step, given
the results dict left by the instruction body (`rmid`) and the body's
cache state. -/
def evictState (c : Composer) (os : List Name) (n : Name)
    (rmid : List (Name × Value)) (counts : List (Name × Int))
    (cache1 : CacheState) : ExecState :=
  { results := (((counterSub counts ((c.resolvePredecessors n).map (fun pr => pr.2))).filter
      (fun kv => decide (kv.2 = 0) && decide (kv.1 ∉ os))).map (fun kv => kv.1)).foldl
        (fun r k => dremove r k) rmid,
    counts := (((counterSub counts ((c.resolvePredecessors n).map (fun pr => pr.2))).filter
      (fun kv => decide (kv.2 = 0) && decide (kv.1 ∉ os))).map (fun kv => kv.1)).foldl
        (fun cnt k => dremove cnt k)
      (counterSub counts ((c.resolvePredecessors n).map (fun pr => pr.2))),
    cache := cache1 }

/-- Full correctness invariant of the executor loop: the weak invariant,
plus: every live result holds the denotational value; every processed
non-IGNOREd node that is still needed is live with its denotational
value; the cache still answers `get` as at the start for every node the
run does not recompute. -/
structure RichInv (c : Composer) (os : List Name) (g : NxDiGraph)
    (s1 : CacheState) (P : List Name) (st : ExecState) : Prop where
  w : WInv g os P st
  rvals : ∀ k v, dget? st.results k = some v → v = Vnode c s1 g k
  rdom : ∀ k ∈ P,
    (invalidPred c s1 g k = true ∨
      (∃ e ∈ g.edges, e.1 = k ∧ invalidPred c s1 g e.2 = true) ∨ k ∈ os) →
    (k ∈ os ∨ ∃ w ∈ g.succOf k, w ∉ P) →
    dget? st.results k = some (Vnode c s1 g k)
  cpres : ∀ k, invalidPred c s1 g k = false →
    cacheGet c st.cache k = cacheGet c s1 k

/-! ### Concrete composers for the end-to-end scenarios -/

def s1fnA : FuncDef := constFn 5 10 "a"

def s1fnB : FuncDef := mkFn [reqParam "a"]
  (fun pos _ _ _ =>
    match pos with
    | [Value.vint a] => Except.ok (Value.vint (a * 5))
    | _ => Except.error "TypeError") 11 "b"

def s1fnC : FuncDef := mkFn [reqParam "a", reqParam "b"]
  (fun pos _ _ _ =>
    match pos with
    | [Value.vint a, Value.vint b] => Except.ok (Value.vint (a * b))
    | _ => Except.error "TypeError") 12 "c"

def s1 : Composer :=
  mkComposer [(nm "a", s1fnA), (nm "b", s1fnB), (nm "c", s1fnC)]

def s5fnA : FuncDef := constFn 5 21 "def a(): return 5"

def s5fnB1 : FuncDef := mkFn [reqParam "a"]
  (fun pos _ _ _ =>
    match pos with
    | [Value.vint a] => Except.ok (Value.vint (a * 2))
    | _ => Except.error "TypeError") 22 "def b(a): return a * 2"

def s5fnB2 : FuncDef := mkFn [reqParam "a"]
  (fun pos _ _ _ =>
    match pos with
    | [Value.vint a] => Except.ok (Value.vint (a * 3))
    | _ => Except.error "TypeError") 23 "def b(a): return a * 3"

def s5c1 : Composer := mkComposer [(nm "a", s5fnA), (nm "b", s5fnB1)]

def s5c2 : Composer := s5c1.update [(nm "b", s5fnB2)]

def s5cache0 : CacheState := CacheState.simple false [] []

def s5state1 : CacheState :=
  match calculate s5c1 s5cache0 [nm "b"] true false with
  | Except.ok (_, s2) => s2
  | Except.error _ => CacheState.null

/-- Concrete composer for the C3 counterexample: three independent
constants registered in the order `a`, `c`, `b`. -/
def cexC3 : Composer :=
  mkComposer [(nm "a", constFn 1 31 "a"), (nm "c", constFn 3 32 "c"),
    (nm "b", constFn 2 33 "b")]

/-- Order-sensitive variadic consumer for the C6 counterexample. -/
def cexC6g : FuncDef :=
  mkFn [⟨nm "args_", ParamKind.varPositional, false⟩]
    (fun _ args _ _ =>
      match args with
      | [Value.vint x, Value.vint y] => Except.ok (Value.vint (x - y))
      | _ => Except.error "TypeError") 43 "g"

/-- Concrete composer for the C6 counterexample: `args_2` registered
before `args_1`, consumed by a variadic-positional function. -/
def cexC6 : Composer :=
  mkComposer [(nm "args_2", constFn 2 41 "args_2"),
    (nm "args_1", constFn 1 42 "args_1"), (nm "g", cexC6g)]

/-- C4 counterexample composer: one cached node `k`. -/
def cexC4 : Composer := mkComposer [(nm "k", constFn 7 51 "k")]

/-- A perturbed `SimpleCache` state: a stored (and matching) signature for
`k` but no stored value, so `valid` answers true and `get` raises
`KeyError`. -/
def cexC4state : CacheState :=
  CacheState.simple false [] [(nm "k", HashVal.ofId 51)]

/-- C4 witness composer: a single function whose body raises. -/
def cexC4fail : Composer :=
  mkComposer [(nm "f", mkFn [] (fun _ _ _ _ => Except.error "boom") 61 "f")]

/-- C5 counterexample consumer: its parameters `b` and `a__b` both resolve
to the registered function `a__b` (namespace resolution maps `b` to
`a__b`), so the resolved predecessor list names `a__b` twice. -/
def cexC5f : FuncDef :=
  mkFn [reqParam "b", reqParam "a__b"]
    (fun pos _ _ _ =>
      match pos with
      | [Value.vint x, Value.vint y] => Except.ok (Value.vint (x + y))
      | _ => Except.error "TypeError") 72 "a__f"

/-- C5 counterexample consumer of `a__f`. -/
def cexC5e : FuncDef :=
  mkFn [reqParam "a__f"]
    (fun pos _ _ _ =>
      match pos with
      | [Value.vint x] => Except.ok (Value.vint (x + 1))
      | _ => Except.error "TypeError") 74 "e"

/-- C5 counterexample composer. -/
def cexC5 : Composer :=
  mkComposer [(nm "a__b", constFn 1 71 "a__b"), (nm "a__f", cexC5f),
    (nm "d", constFn 0 73 "d"), (nm "e", cexC5e)]

/-- The executor state after the first step of `calculate(s1, ["c"])`
(only `a` computed), used to witness the C5 liveness theorem. -/
def stC5w : ExecState :=
  { results := [(nm "a", Value.vint 5)],
    counts := [(nm "a", 2), (nm "b", 1)],
    cache := CacheState.null }

/-- C8 counterexample: order-sensitive variadic consumer `g(*b_)`. -/
def cexC8g : FuncDef :=
  mkFn [⟨nm "b_", ParamKind.varPositional, false⟩]
    (fun _ args _ _ =>
      match args with
      | [Value.vint x, Value.vint y] => Except.ok (Value.vint (x - y))
      | _ => Except.error "TypeError") 82 "g"

/-- C8 counterexample composer: `b_2` registered before `b_1`. -/
def cexC8 : Composer :=
  mkComposer [(nm "b_2", constFn 2 80 "b2"), (nm "b_1", constFn 1 81 "b1"),
    (nm "g", cexC8g)]

/-- C7 counterexample base composer: a single node `b = 5`. -/
def cexC7 : Composer := mkComposer [(nm "b", constFn 5 91 "b")]

/-- C7 counterexample linked composer: `link(a="b")`. -/
def cexC7L : Composer := cexC7.link [(nm "a", nm "b")] 92

/-- Scenario S3 base: `a = () → 5`, `c(b) = b * 2`. -/
def s3base : Composer :=
  mkComposer [(nm "a", constFn 5 95 "a"),
    (nm "c", mkFn [reqParam "b"]
      (fun pos _ _ _ =>
        match pos with
        | [Value.vint x] => Except.ok (Value.vint (x * 2))
        | _ => Except.error "TypeError") 96 "c")]

/-- Scenario S3: `link(b="a")`. -/
def s3 : Composer := s3base.link [(nm "b", nm "a")] 97

/-! ### Sanity checks of the resolution model on concrete inputs -/

example : possiblePreds (nm "ns__f") (nm "p") = [nm "ns__p", nm "p"] := by decide

example : possiblePreds (nm "f") (nm "p") = [nm "p"] := by decide

example :
    possiblePreds (nm "a__b__f") (nm "p") =
      [nm "a__b__p", nm "a__p", nm "p"] := by decide

/-! ### Association-list (dict) lemmas -/

theorem dget?_eq_none_of_not_mem {α : Type} (d : List (Name × α)) (k : Name)
    (h : k ∉ dkeys d) : dget? d k = none := by
  induction d with
  | nil => rfl
  | cons kv rest ih =>
    obtain ⟨k1, v1⟩ := kv
    simp only [dkeys, List.map_cons, List.mem_cons, not_or] at h
    have h1 : k1 ≠ k := fun e => h.1 e.symm
    simp only [dget?, if_neg h1]
    exact ih h.2

theorem mem_dkeys_of_dget?_some {α : Type} {d : List (Name × α)} {k : Name}
    {v : α} (h : dget? d k = some v) : k ∈ dkeys d := by
  by_contra hk
  rw [dget?_eq_none_of_not_mem d k hk] at h
  exact Option.noConfusion h

theorem dget?_isSome_iff_mem {α : Type} (d : List (Name × α)) (k : Name) :
    (dget? d k).isSome = true ↔ k ∈ dkeys d := by
  induction d with
  | nil =>
    simp only [dget?, dkeys, List.map_nil, Option.isSome_none]
    simp
  | cons kv rest ih =>
    obtain ⟨k1, v1⟩ := kv
    simp only [dget?, dkeys, List.map_cons, List.mem_cons]
    by_cases hk : k1 = k
    · rw [if_pos hk]
      constructor
      · intro _
        exact Or.inl hk.symm
      · intro _
        rfl
    · have h1 : ¬ (k = k1) := fun e => hk e.symm
      rw [if_neg hk, ih]
      constructor
      · intro h
        exact Or.inr h
      · rintro (h | h)
        · exact absurd h h1
        · exact h

theorem dcontains_iff_mem {α : Type} (d : List (Name × α)) (k : Name) :
    dcontains d k = true ↔ k ∈ dkeys d := dget?_isSome_iff_mem d k

theorem dget?_dinsert_self {α : Type} (d : List (Name × α)) (k : Name) (v : α) :
    dget? (dinsert d k v) k = some v := by
  induction d with
  | nil => simp [dinsert, dget?]
  | cons kv rest ih =>
    obtain ⟨k1, v1⟩ := kv
    by_cases hk : k1 = k
    · simp [dinsert, hk, dget?]
    · simp [dinsert, hk, dget?, ih]

theorem dget?_dinsert_other {α : Type} (d : List (Name × α)) (k k' : Name)
    (v : α) (h : k ≠ k') : dget? (dinsert d k v) k' = dget? d k' := by
  induction d with
  | nil => simp [dinsert, dget?, h]
  | cons kv rest ih =>
    obtain ⟨k1, v1⟩ := kv
    by_cases hk : k1 = k
    · subst hk
      simp only [dinsert, if_pos rfl, dget?, if_neg h]
    · simp only [dinsert, if_neg hk, dget?]
      by_cases hk' : k1 = k'
      · simp [hk']
      · simp [hk', ih]

theorem dget?_dremove_self {α : Type} (d : List (Name × α)) (k : Name)
    (hd : (dkeys d).Nodup) : dget? (dremove d k) k = none := by
  induction d with
  | nil => rfl
  | cons kv rest ih =>
    obtain ⟨k1, v1⟩ := kv
    simp only [dkeys, List.map_cons, List.nodup_cons] at hd
    by_cases hk : k1 = k
    · simp only [dremove, if_pos hk]
      exact dget?_eq_none_of_not_mem rest k (hk ▸ hd.1)
    · simp only [dremove, if_neg hk, dget?, if_neg hk]
      exact ih hd.2

theorem dget?_dremove_other {α : Type} (d : List (Name × α)) (k k' : Name)
    (h : k ≠ k') : dget? (dremove d k) k' = dget? d k' := by
  induction d with
  | nil => rfl
  | cons kv rest ih =>
    obtain ⟨k1, v1⟩ := kv
    by_cases hk : k1 = k
    · have h1 : ¬ (k1 = k') := hk ▸ h
      simp only [dremove, if_pos hk, dget?, if_neg h1]
    · simp only [dremove, if_neg hk, dget?]
      by_cases hk' : k1 = k'
      · simp [hk']
      · simp [hk', ih]

theorem mem_dkeys_dinsert {α : Type} (d : List (Name × α)) (k : Name)
    (v : α) (x : Name) : x ∈ dkeys (dinsert d k v) ↔ x ∈ dkeys d ∨ x = k := by
  induction d with
  | nil => simp [dinsert, dkeys]
  | cons kv rest ih =>
    obtain ⟨k1, v1⟩ := kv
    by_cases hk : k1 = k
    · simp only [dinsert, if_pos hk, dkeys, List.map_cons, List.mem_cons]
      constructor
      · intro h
        exact Or.inl h
      · rintro (h | h)
        · exact h
        · exact Or.inl (h.trans hk.symm)
    · simp only [dinsert, if_neg hk, dkeys, List.map_cons, List.mem_cons]
      constructor
      · rintro (h | h)
        · exact Or.inl (Or.inl h)
        · rcases (ih).mp h with h2 | h2
          · exact Or.inl (Or.inr h2)
          · exact Or.inr h2
      · rintro ((h | h) | h)
        · exact Or.inl h
        · exact Or.inr (ih.mpr (Or.inl h))
        · exact Or.inr (ih.mpr (Or.inr h))

theorem dkeys_dinsert_nodup {α : Type} (d : List (Name × α)) (k : Name) (v : α)
    (hd : (dkeys d).Nodup) : (dkeys (dinsert d k v)).Nodup := by
  induction d with
  | nil => simp [dinsert, dkeys]
  | cons kv rest ih =>
    obtain ⟨k1, v1⟩ := kv
    simp only [dkeys, List.map_cons, List.nodup_cons] at hd
    by_cases hk : k1 = k
    · simp only [dinsert, if_pos hk, dkeys, List.map_cons, List.nodup_cons]
      exact ⟨hd.1, hd.2⟩
    · simp only [dinsert, if_neg hk, dkeys, List.map_cons, List.nodup_cons]
      refine ⟨?_, ih hd.2⟩
      intro hmem
      rcases (mem_dkeys_dinsert rest k v k1).mp hmem with h | h
      · exact hd.1 h
      · exact hk h

/-! ### Helper lemmas on lists, names and resolution -/

theorem splitGo_ne_nil (sep : Name) (fuel : Nat) (acc s : List Char) :
    splitGo sep fuel acc s ≠ [] := by
  induction fuel generalizing acc s with
  | zero => cases s <;> simp [splitGo]
  | succ n ih =>
    cases s with
    | nil => simp [splitGo]
    | cons c rest =>
      simp only [splitGo]
      split
      · simp
      · exact ih _ _

theorem splitOnSep_ne_nil (sep s : Name) : splitOnSep sep s ≠ [] :=
  splitGo_ne_nil sep s.length [] s

theorem firstRegistered_of_none (functions : List (Name × FuncDef))
    (fallback : Name) (l : List Name)
    (h : ∀ c ∈ l, dcontains functions c = false) :
    firstRegistered functions fallback l = fallback := by
  induction l with
  | nil => rfl
  | cons c rest ih =>
    have hc := h c (List.mem_cons_self c rest)
    simp only [firstRegistered, hc]
    simp only [Bool.false_eq_true, if_false]
    exact ih (fun x hx => h x (List.mem_cons_of_mem c hx))

theorem range_map_reverse_headD {α : Type} (f : Nat → α) (n : Nat) (d : α)
    (hn : 0 < n) :
    (((List.range n).map f).reverse).headD d = f (n - 1) := by
  obtain ⟨m, rfl⟩ : ∃ m, n = m + 1 := ⟨n - 1, (Nat.succ_pred_eq_of_pos hn).symm⟩
  simp [List.range_succ]

theorem take_pred_eq_dropLast {α : Type} (l : List α) :
    l.take (l.length - 1) = l.dropLast := by
  induction l with
  | nil => rfl
  | cons a l ih =>
    cases l with
    | nil => rfl
    | cons b t =>
      simp only [List.length_cons, Nat.add_sub_cancel, List.dropLast_cons₂]
      simpa using congrArg (List.cons a) (by simpa using ih)

/-! ### Claim C2: unbound-resolution fallback -/

/-- C2, counterexample.  For consumer `ns__f` and parameter `p`, no
candidate (`ns__p`, `p`) is registered, yet `_resolve_predecessor` returns
`ns__p` — the MOST-specific candidate (`possible_preds[0]` after the
`reverse()`) — not the least-specific bare name `p` the claim states. -/
theorem C2_counterexample :
    (∀ cand ∈ possiblePreds (nm "ns__f") (nm "p"),
        dcontains cexC2.functions cand = false) ∧
    cexC2.resolvePredecessor (nm "ns__f") (nm "p") = nm "ns__p" ∧
    cexC2.resolvePredecessor (nm "ns__f") (nm "p") ≠ nm "p" := by decide

/-- C2, amended.  For every consumer node name and formal parameter name,
when no candidate in the namespace-prefix candidate list is a registered
function, name resolution returns the MOST-specific candidate — the
consumer's full namespace path joined with the parameter name — as the
unbound placeholder. -/
theorem C2_resolution_fallback (c : Composer) (fname pname : Name)
    (h : ∀ cand ∈ possiblePreds fname pname, dcontains c.functions cand = false) :
    c.resolvePredecessor fname pname =
      joinSep dunder ((splitOnSep dunder fname).dropLast ++ [pname]) := by
  have hlen : 0 < (splitOnSep dunder fname).length :=
    List.length_pos.mpr (splitOnSep_ne_nil _ _)
  simp only [Composer.resolvePredecessor]
  rw [firstRegistered_of_none _ _ _ h]
  simp only [possiblePreds]
  rw [range_map_reverse_headD _ _ _ hlen, take_pred_eq_dropLast]

/-- C2, witness for the amended theorem at the concrete composer `cexC2`. -/
theorem C2_resolution_fallback_witness :
    cexC2.resolvePredecessor (nm "ns__f") (nm "p") =
      joinSep dunder ((splitOnSep dunder (nm "ns__f")).dropLast ++ [nm "p"]) :=
  C2_resolution_fallback cexC2 _ _ (by decide)

/-! ### Lemmas about remaining in-degree and graph membership -/

theorem remIn_zero_iff (edges : List (Name × Name)) (P : List Name) (n : Name) :
    remIn edges P n = 0 ↔ ∀ e ∈ edges, e.2 = n → e.1 ∈ P := by
  simp only [remIn, List.length_eq_zero, List.filter_eq_nil_iff,
    Bool.and_eq_true, decide_eq_true_eq, not_and]
  constructor
  · intro h e he hn
    by_contra hp
    exact h e he hn hp
  · intro h e he hn
    intro hp
    exact hp (h e he hn)

theorem remIn_snoc (edges : List (Name × Name)) (P : List Name) (x n : Name)
    (hnd : edges.Nodup) (hx : x ∉ P) :
    remIn edges P n =
      remIn edges (P ++ [x]) n + (if (x, n) ∈ edges then 1 else 0) := by
  induction edges with
  | nil => simp [remIn]
  | cons e rest ih =>
    simp only [List.nodup_cons] at hnd
    have ihr := ih hnd.2
    by_cases hxy : e = (x, n)
    · subst hxy
      have h1 : (remIn (((x, n)) :: rest) P n) = remIn rest P n + 1 := by
        simp [remIn, List.filter_cons, hx]
      have h2 : remIn ((x, n) :: rest) (P ++ [x]) n = remIn rest (P ++ [x]) n := by
        simp [remIn, List.filter_cons]
      have h3 : ((x, n) ∉ rest) := hnd.1
      rw [h1, h2, if_pos (List.mem_cons_self _ _), ihr, if_neg h3]
    · have hsame : ∀ Q : List Name,
          remIn (e :: rest) Q n = remIn rest Q n +
            (if e.2 = n ∧ e.1 ∉ Q then 1 else 0) := by
        intro Q
        by_cases hc : e.2 = n ∧ e.1 ∉ Q
        · simp [remIn, List.filter_cons, hc.1, hc.2, if_pos hc]
        · rw [if_neg hc]
          rcases Classical.em (e.2 = n) with h2 | h2
          · have h1 : ¬ (e.1 ∉ Q) := fun hq => hc ⟨h2, hq⟩
            simp [remIn, List.filter_cons, h2, not_not.mp h1]
          · simp [remIn, List.filter_cons, h2]
      have hcond : (e.2 = n ∧ e.1 ∉ (P ++ [x])) ↔ (e.2 = n ∧ e.1 ∉ P) := by
        constructor
        · rintro ⟨h2, h1⟩
          exact ⟨h2, fun hp => h1 (List.mem_append_left _ hp)⟩
        · rintro ⟨h2, h1⟩
          refine ⟨h2, fun hp => ?_⟩
          rcases List.mem_append.mp hp with h | h
          · exact h1 h
          · have hex : e.1 = x := by simpa using h
            apply hxy
            have hee : e = (e.1, e.2) := rfl
            rw [hee, hex, h2]
      have hifc : (if e.2 = n ∧ e.1 ∉ P ++ [x] then 1 else 0) =
          (if e.2 = n ∧ e.1 ∉ P then (1 : Nat) else 0) := by
        by_cases hc : e.2 = n ∧ e.1 ∉ P
        · rw [if_pos (hcond.mpr hc), if_pos hc]
        · have hc2 : ¬ (e.2 = n ∧ e.1 ∉ P ++ [x]) := fun h => hc (hcond.mp h)
          rw [if_neg hc2, if_neg hc]
      have hift : (if (x, n) ∈ e :: rest then 1 else 0) =
          (if (x, n) ∈ rest then (1 : Nat) else 0) := by
        by_cases hm : (x, n) ∈ rest
        · rw [if_pos hm, if_pos (List.mem_cons_of_mem e hm)]
        · have hm2 : (x, n) ∉ e :: rest := by
            intro hc
            rcases List.mem_cons.mp hc with h | h
            · exact hxy h.symm
            · exact hm h
          rw [if_neg hm, if_neg hm2]
      rw [hsame P, hsame (P ++ [x]), hifc, hift, ihr]
      omega

theorem mem_succOf (g : NxDiGraph) (node n : Name) :
    n ∈ g.succOf node ↔ (node, n) ∈ g.edges := by
  simp only [NxDiGraph.succOf, List.mem_map, List.mem_filter,
    decide_eq_true_eq]
  constructor
  · rintro ⟨e, ⟨he, h1⟩, h2⟩
    have : e = (node, n) := by
      obtain ⟨e1, e2⟩ := e
      simp only at h1 h2
      rw [h1, h2]
    exact this ▸ he
  · intro h
    exact ⟨(node, n), ⟨h, rfl⟩, rfl⟩

theorem succOf_nodup (g : NxDiGraph) (node : Name) (hnd : g.edges.Nodup) :
    (g.succOf node).Nodup := by
  apply List.Nodup.map_on
  · intro x hx y hy hxy
    have hx1 : x.1 = node := by
      simpa using (List.mem_filter.mp hx).2
    have hy1 : y.1 = node := by
      simpa using (List.mem_filter.mp hy).2
    obtain ⟨x1, x2⟩ := x
    obtain ⟨y1, y2⟩ := y
    simp only at hx1 hy1 hxy
    rw [hx1, hy1, hxy]
  · exact hnd.filter _

theorem addNode_edges (g : NxDiGraph) (n : Name) :
    (g.addNode n).edges = g.edges := by
  unfold NxDiGraph.addNode
  split <;> rfl

theorem mem_addNode_nodes (g : NxDiGraph) (n x : Name) :
    x ∈ (g.addNode n).nodes ↔ x ∈ g.nodes ∨ x = n := by
  unfold NxDiGraph.addNode
  split
  · rename_i h
    constructor
    · exact Or.inl
    · rintro (hx | hx)
      · exact hx
      · exact hx ▸ h
  · simp

theorem addNode_nodes_nodup (g : NxDiGraph) (n : Name)
    (h : g.nodes.Nodup) : (g.addNode n).nodes.Nodup := by
  unfold NxDiGraph.addNode
  split
  · exact h
  · rename_i hn
    simpa [List.nodup_append] using ⟨h, hn⟩

theorem addEdge_nodes_nodup (g : NxDiGraph) (e : Name × Name)
    (h : g.nodes.Nodup) : (g.addEdge e).nodes.Nodup := by
  unfold NxDiGraph.addEdge
  dsimp only
  have h2 := addNode_nodes_nodup _ e.2 (addNode_nodes_nodup g e.1 h)
  split <;> exact h2

theorem mem_addEdge_nodes (g : NxDiGraph) (e : Name × Name) (x : Name) :
    x ∈ (g.addEdge e).nodes ↔ x ∈ g.nodes ∨ x = e.1 ∨ x = e.2 := by
  unfold NxDiGraph.addEdge
  dsimp only
  have hm : x ∈ ((g.addNode e.1).addNode e.2).nodes ↔
      x ∈ g.nodes ∨ x = e.1 ∨ x = e.2 := by
    rw [mem_addNode_nodes, mem_addNode_nodes]
    tauto
  split <;> simpa using hm

theorem mem_addEdge_edges (g : NxDiGraph) (e e' : Name × Name) :
    e' ∈ (g.addEdge e).edges ↔ e' ∈ g.edges ∨ e' = e := by
  unfold NxDiGraph.addEdge
  dsimp only
  have hE : ((g.addNode e.1).addNode e.2).edges = g.edges := by
    rw [addNode_edges, addNode_edges]
  split
  · rename_i hmem
    rw [hE] at hmem ⊢
    constructor
    · exact Or.inl
    · rintro (hx | hx)
      · exact hx
      · exact hx ▸ hmem
  · dsimp only
    rw [hE]
    simp only [List.mem_append, List.mem_singleton]

theorem addEdge_edges_nodup (g : NxDiGraph) (e : Name × Name)
    (h : g.edges.Nodup) : (g.addEdge e).edges.Nodup := by
  unfold NxDiGraph.addEdge
  dsimp only
  have hE : ((g.addNode e.1).addNode e.2).edges = g.edges := by
    rw [addNode_edges, addNode_edges]
  split
  · rename_i hmem
    rw [hE]
    exact h
  · rename_i hn
    dsimp only
    rw [hE] at hn ⊢
    simpa [List.nodup_append] using ⟨h, hn⟩

theorem addEdge_wf (g : NxDiGraph) (e : Name × Name) (h : g.WF) :
    (g.addEdge e).WF := by
  refine ⟨addEdge_nodes_nodup g e h.nodesNodup,
    addEdge_edges_nodup g e h.edgesNodup, ?_, ?_⟩
  · intro e' he'
    rcases (mem_addEdge_edges g e e').mp he' with h1 | h1
    · exact (mem_addEdge_nodes g e e'.1).mpr (Or.inl (h.srcMem e' h1))
    · exact (mem_addEdge_nodes g e e'.1).mpr (Or.inr (Or.inl (by rw [h1])))
  · intro e' he'
    rcases (mem_addEdge_edges g e e').mp he' with h1 | h1
    · exact (mem_addEdge_nodes g e e'.2).mpr (Or.inl (h.tgtMem e' h1))
    · exact (mem_addEdge_nodes g e e'.2).mpr (Or.inr (Or.inr (by rw [h1])))

theorem addEdgesFrom_wf (g : NxDiGraph) (es : List (Name × Name)) (h : g.WF) :
    (g.addEdgesFrom es).WF := by
  induction es generalizing g with
  | nil => exact h
  | cons e rest ih => exact ih _ (addEdge_wf g e h)

theorem mem_addEdgesFrom_edges (g : NxDiGraph) (es : List (Name × Name))
    (e' : Name × Name) :
    e' ∈ (g.addEdgesFrom es).edges ↔ e' ∈ g.edges ∨ e' ∈ es := by
  induction es generalizing g with
  | nil => simp [NxDiGraph.addEdgesFrom]
  | cons e rest ih =>
    show e' ∈ ((g.addEdge e).addEdgesFrom rest).edges ↔ _
    rw [ih, mem_addEdge_edges]
    simp only [List.mem_cons]
    tauto

theorem mem_addEdgesFrom_nodes (g : NxDiGraph) (es : List (Name × Name))
    (x : Name) :
    x ∈ (g.addEdgesFrom es).nodes ↔
      x ∈ g.nodes ∨ ∃ e ∈ es, x = e.1 ∨ x = e.2 := by
  induction es generalizing g with
  | nil => simp [NxDiGraph.addEdgesFrom]
  | cons e rest ih =>
    show x ∈ ((g.addEdge e).addEdgesFrom rest).nodes ↔ _
    rw [ih, mem_addEdge_nodes]
    simp only [List.mem_cons]
    constructor
    · rintro ((h | h | h) | ⟨e2, h1, h2⟩)
      · exact Or.inl h
      · exact Or.inr ⟨e, Or.inl rfl, Or.inl h⟩
      · exact Or.inr ⟨e, Or.inl rfl, Or.inr h⟩
      · exact Or.inr ⟨e2, Or.inr h1, h2⟩
    · rintro (h | ⟨e2, (h1 | h1), h2⟩)
      · exact Or.inl (Or.inl h)
      · subst h1
        exact Or.inl (Or.inr h2)
      · exact Or.inr ⟨e2, h1, h2⟩

theorem subgraphOf_wf (g : NxDiGraph) (keep : List Name) (h : g.WF) :
    (g.subgraphOf keep).WF := by
  refine ⟨h.nodesNodup.filter _, h.edgesNodup.filter _, ?_, ?_⟩
  · intro e he
    have hm := List.mem_filter.mp he
    simp only [Bool.and_eq_true, decide_eq_true_eq] at hm
    exact List.mem_filter.mpr ⟨h.srcMem e hm.1, by simpa using hm.2.1⟩
  · intro e he
    have hm := List.mem_filter.mp he
    simp only [Bool.and_eq_true, decide_eq_true_eq] at hm
    exact List.mem_filter.mpr ⟨h.tgtMem e hm.1, by simpa using hm.2.2⟩

theorem mem_subgraphOf_nodes (g : NxDiGraph) (keep : List Name) (x : Name) :
    x ∈ (g.subgraphOf keep).nodes ↔ x ∈ g.nodes ∧ x ∈ keep := by
  simp [NxDiGraph.subgraphOf, List.mem_filter]

theorem mem_subgraphOf_edges (g : NxDiGraph) (keep : List Name)
    (e : Name × Name) :
    e ∈ (g.subgraphOf keep).edges ↔ e ∈ g.edges ∧ e.1 ∈ keep ∧ e.2 ∈ keep := by
  simp [NxDiGraph.subgraphOf, List.mem_filter]

theorem foldl_addNode_nodes (l : List Name) (g : NxDiGraph) (x : Name) :
    x ∈ (l.foldl NxDiGraph.addNode g).nodes ↔ x ∈ g.nodes ∨ x ∈ l := by
  induction l generalizing g with
  | nil => simp
  | cons n rest ih =>
    show x ∈ (rest.foldl NxDiGraph.addNode (g.addNode n)).nodes ↔ _
    rw [ih, mem_addNode_nodes]
    simp only [List.mem_cons]
    tauto

theorem foldl_addNode_nodes_nodup (l : List Name) (g : NxDiGraph)
    (h : g.nodes.Nodup) : (l.foldl NxDiGraph.addNode g).nodes.Nodup := by
  induction l generalizing g with
  | nil => exact h
  | cons n rest ih => exact ih _ (addNode_nodes_nodup g n h)

theorem foldl_addNode_edges (l : List Name) (g : NxDiGraph) :
    (l.foldl NxDiGraph.addNode g).edges = g.edges := by
  induction l generalizing g with
  | nil => rfl
  | cons n rest ih =>
    show (rest.foldl NxDiGraph.addNode (g.addNode n)).edges = _
    rw [ih, addNode_edges]

theorem foldl_addNode_wf (l : List Name) (g : NxDiGraph) (h : g.WF) :
    (l.foldl NxDiGraph.addNode g).WF := by
  refine ⟨foldl_addNode_nodes_nodup l g h.nodesNodup, ?_, ?_, ?_⟩
  · rw [foldl_addNode_edges]
    exact h.edgesNodup
  · intro e he
    rw [foldl_addNode_edges] at he
    exact (foldl_addNode_nodes l g e.1).mpr (Or.inl (h.srcMem e he))
  · intro e he
    rw [foldl_addNode_edges] at he
    exact (foldl_addNode_nodes l g e.2).mpr (Or.inl (h.tgtMem e he))

/-! ### Characterisation of `Composer.dag` -/

theorem dag_foldl_wf (c : Composer) (fns : List (Name × FuncDef))
    (g : NxDiGraph) (h : g.WF) :
    (fns.foldl (fun g kv =>
      g.addEdgesFrom ((c.resolvePredecessors kv.1).map
        (fun pr => (pr.2, kv.1)))) g).WF := by
  induction fns generalizing g with
  | nil => exact h
  | cons kv rest ih => exact ih _ (addEdgesFrom_wf _ _ h)

theorem dag_wf (c : Composer) : c.dag.WF := by
  unfold Composer.dag
  dsimp only
  apply dag_foldl_wf
  apply foldl_addNode_wf
  exact ⟨List.nodup_nil, List.nodup_nil, by simp [NxDiGraph.empty], by
    simp [NxDiGraph.empty]⟩

theorem dag_foldl_edges (c : Composer) (fns : List (Name × FuncDef))
    (g : NxDiGraph) (e : Name × Name) :
    e ∈ (fns.foldl (fun g kv =>
      g.addEdgesFrom ((c.resolvePredecessors kv.1).map
        (fun pr => (pr.2, kv.1)))) g).edges ↔
    e ∈ g.edges ∨ ∃ kv ∈ fns, e.2 = kv.1 ∧
      ∃ pr ∈ c.resolvePredecessors kv.1, pr.2 = e.1 := by
  induction fns generalizing g with
  | nil => simp
  | cons kv rest ih =>
    rw [List.foldl_cons, ih, mem_addEdgesFrom_edges]
    simp only [List.mem_map, List.mem_cons]
    constructor
    · rintro ((h | ⟨pr, hpr, hpre⟩) | ⟨kv2, h1, h2, h3⟩)
      · exact Or.inl h
      · refine Or.inr ⟨kv, Or.inl rfl, ?_, pr, hpr, ?_⟩
        · rw [← hpre]
        · rw [← hpre]
      · exact Or.inr ⟨kv2, Or.inr h1, h2, h3⟩
    · rintro (h | ⟨kv2, (h1 | h1), h2, pr, hpr, hpre⟩)
      · exact Or.inl (Or.inl h)
      · subst h1
        refine Or.inl (Or.inr ⟨pr, hpr, ?_⟩)
        obtain ⟨e1, e2⟩ := e
        simp only at h2 hpre
        rw [hpre, h2]
      · exact Or.inr ⟨kv2, h1, h2, pr, hpr, hpre⟩

theorem mem_dag_edges (c : Composer) (e : Name × Name) :
    e ∈ c.dag.edges ↔ ∃ kv ∈ c.functions, e.2 = kv.1 ∧
      ∃ pr ∈ c.resolvePredecessors kv.1, pr.2 = e.1 := by
  unfold Composer.dag
  dsimp only
  rw [dag_foldl_edges, foldl_addNode_edges]
  simp [NxDiGraph.empty]

theorem dag_foldl_nodes (c : Composer) (fns : List (Name × FuncDef))
    (g : NxDiGraph) (x : Name) :
    x ∈ (fns.foldl (fun g kv =>
      g.addEdgesFrom ((c.resolvePredecessors kv.1).map
        (fun pr => (pr.2, kv.1)))) g).nodes ↔
    x ∈ g.nodes ∨ ∃ kv ∈ fns, ∃ pr ∈ c.resolvePredecessors kv.1,
      pr.2 = x ∨ x = kv.1 := by
  induction fns generalizing g with
  | nil => simp
  | cons kv rest ih =>
    rw [List.foldl_cons, ih, mem_addEdgesFrom_nodes]
    simp only [List.mem_map, List.mem_cons]
    constructor
    · rintro ((h | ⟨e2, ⟨pr, hpr, hpre⟩, h2⟩) | ⟨kv2, h1, pr, hpr, h2⟩)
      · exact Or.inl h
      · refine Or.inr ⟨kv, Or.inl rfl, pr, hpr, ?_⟩
        rw [← hpre] at h2
        simp only at h2
        rcases h2 with h2 | h2
        · exact Or.inl h2.symm
        · exact Or.inr h2
      · exact Or.inr ⟨kv2, Or.inr h1, pr, hpr, h2⟩
    · rintro (h | ⟨kv2, (h1 | h1), pr, hpr, h2⟩)
      · exact Or.inl (Or.inl h)
      · subst h1
        refine Or.inl (Or.inr ⟨(pr.2, kv2.1), ⟨pr, hpr, rfl⟩, ?_⟩)
        simp only
        rcases h2 with h2 | h2
        · exact Or.inl h2.symm
        · exact Or.inr h2
      · exact Or.inr ⟨kv2, h1, pr, hpr, h2⟩

theorem mem_dag_nodes (c : Composer) (x : Name) :
    x ∈ c.dag.nodes ↔ x ∈ dkeys c.functions ∨
      ∃ kv ∈ c.functions, ∃ pr ∈ c.resolvePredecessors kv.1, pr.2 = x := by
  unfold Composer.dag
  dsimp only
  rw [dag_foldl_nodes, foldl_addNode_nodes]
  simp only [NxDiGraph.empty, List.not_mem_nil, false_or]
  constructor
  · rintro (h | ⟨kv, hkv, pr, hpr, (h2 | h2)⟩)
    · exact Or.inl h
    · exact Or.inr ⟨kv, hkv, pr, hpr, h2⟩
    · subst h2
      exact Or.inl (List.mem_map.mpr ⟨kv, hkv, rfl⟩)
  · rintro (h | ⟨kv, hkv, pr, hpr, h2⟩)
    · exact Or.inl h
    · exact Or.inr ⟨kv, hkv, pr, hpr, Or.inl h2⟩

theorem dkeys_sub_dag_nodes (c : Composer) (x : Name)
    (h : x ∈ dkeys c.functions) : x ∈ c.dag.nodes :=
  (mem_dag_nodes c x).mpr (Or.inl h)

/-! ### Reachability closure lemmas -/

theorem addNew_append (S : List Name) (x : Name) :
    ∃ t, addNew S x = S ++ t := by
  unfold addNew
  split
  · exact ⟨[], by simp⟩
  · exact ⟨[x], rfl⟩

theorem reachStepFwd_append (edges : List (Name × Name)) :
    ∀ S, ∃ t, reachStepFwd edges S = S ++ t := by
  induction edges with
  | nil => exact fun S => ⟨[], by simp [reachStepFwd]⟩
  | cons e rest ih =>
    intro S
    show ∃ t, reachStepFwd rest (if e.1 ∈ S then addNew S e.2 else S) = S ++ t
    by_cases h : e.1 ∈ S
    · rw [if_pos h]
      obtain ⟨t1, ht1⟩ := addNew_append S e.2
      obtain ⟨t2, ht2⟩ := ih (addNew S e.2)
      exact ⟨t1 ++ t2, by rw [ht2, ht1, List.append_assoc]⟩
    · rw [if_neg h]
      exact ih S

theorem reachStepFwd_sub (edges : List (Name × Name)) (S : List Name)
    {x : Name} (hx : x ∈ S) : x ∈ reachStepFwd edges S := by
  obtain ⟨t, ht⟩ := reachStepFwd_append edges S
  rw [ht]
  exact List.mem_append_left _ hx

theorem reachStepFwd_eq_of_saturated (edges : List (Name × Name))
    (S : List Name) (hsat : ∀ e ∈ edges, e.1 ∈ S → e.2 ∈ S) :
    reachStepFwd edges S = S := by
  induction edges generalizing S with
  | nil => rfl
  | cons e rest ih =>
    show reachStepFwd rest (if e.1 ∈ S then addNew S e.2 else S) = S
    by_cases h : e.1 ∈ S
    · rw [if_pos h]
      have h2 : e.2 ∈ S := hsat e (List.mem_cons_self _ _) h
      rw [show addNew S e.2 = S from by unfold addNew; rw [if_pos h2]]
      exact ih S (fun e' he' => hsat e' (List.mem_cons_of_mem _ he'))
    · rw [if_neg h]
      exact ih S (fun e' he' => hsat e' (List.mem_cons_of_mem _ he'))

theorem reachStepFwd_saturated_of_eq (edges : List (Name × Name))
    (S : List Name) (heq : reachStepFwd edges S = S) :
    ∀ e ∈ edges, e.1 ∈ S → e.2 ∈ S := by
  induction edges generalizing S with
  | nil => exact fun e he => absurd he (List.not_mem_nil e)
  | cons e rest ih =>
    have hshape : reachStepFwd (e :: rest) S =
        reachStepFwd rest (if e.1 ∈ S then addNew S e.2 else S) := rfl
    by_cases h : e.1 ∈ S
    · rw [hshape, if_pos h] at heq
      obtain ⟨t1, ht1⟩ := addNew_append S e.2
      obtain ⟨t2, ht2⟩ := reachStepFwd_append rest (addNew S e.2)
      rw [ht2, ht1] at heq
      have hnil : t1 = [] ∧ t2 = [] := by
        have hlen := congrArg List.length heq
        simp [List.length_append] at hlen
        exact hlen
      have haddNew : addNew S e.2 = S := by rw [ht1, hnil.1, List.append_nil]
      have he2 : e.2 ∈ S := by
        by_contra hc
        unfold addNew at haddNew
        rw [if_neg hc] at haddNew
        have := congrArg List.length haddNew
        simp at this
      intro e' he' h1
      rcases List.mem_cons.mp he' with h2 | h2
      · rw [h2]
        exact he2
      · have hstep : reachStepFwd rest S = S := by
          calc reachStepFwd rest S = reachStepFwd rest (addNew S e.2) := by
                rw [haddNew]
            _ = S := by rw [ht2, hnil.2, List.append_nil, haddNew]
        exact ih S hstep e' h2 h1
    · rw [hshape, if_neg h] at heq
      intro e' he' h1
      rcases List.mem_cons.mp he' with h2 | h2
      · rw [h2] at h1
        exact absurd h1 h
      · exact ih S heq e' h2 h1

theorem addNew_nodup (S : List Name) (x : Name) (h : S.Nodup) :
    (addNew S x).Nodup := by
  unfold addNew
  split
  · exact h
  · rename_i hx
    simpa [List.nodup_append] using ⟨h, hx⟩

theorem addNew_mem (S : List Name) (x y : Name) :
    y ∈ addNew S x ↔ y ∈ S ∨ y = x := by
  unfold addNew
  split
  · rename_i h
    constructor
    · exact Or.inl
    · rintro (hy | hy)
      · exact hy
      · exact hy ▸ h
  · simp

theorem reachStepFwd_nodup (edges : List (Name × Name)) (S : List Name)
    (h : S.Nodup) : (reachStepFwd edges S).Nodup := by
  induction edges generalizing S with
  | nil => exact h
  | cons e rest ih =>
    show (reachStepFwd rest (if e.1 ∈ S then addNew S e.2 else S)).Nodup
    split
    · exact ih _ (addNew_nodup S e.2 h)
    · exact ih _ h

theorem reachStepFwd_universe (edges : List (Name × Name)) (S U : List Name)
    (hS : ∀ x ∈ S, x ∈ U) (hT : ∀ e ∈ edges, e.2 ∈ U) :
    ∀ x ∈ reachStepFwd edges S, x ∈ U := by
  induction edges generalizing S with
  | nil => exact hS
  | cons e rest ih =>
    show ∀ x ∈ reachStepFwd rest (if e.1 ∈ S then addNew S e.2 else S), x ∈ U
    have hT' : ∀ e' ∈ rest, e'.2 ∈ U :=
      fun e' he' => hT e' (List.mem_cons_of_mem _ he')
    split
    · apply ih _ _ hT'
      intro x hx
      rcases (addNew_mem S e.2 x).mp hx with h | h
      · exact hS x h
      · exact h ▸ hT e (List.mem_cons_self _ _)
    · exact ih _ hS hT'

theorem reachClosure_closed (edges : List (Name × Name)) (fuel : Nat)
    (S U : List Name) (hnd : S.Nodup) (hS : ∀ x ∈ S, x ∈ U)
    (hT : ∀ e ∈ edges, e.2 ∈ U) (hU : U.length ≤ fuel + S.length) :
    ∀ e ∈ edges, e.1 ∈ reachClosure edges fuel S →
      e.2 ∈ reachClosure edges fuel S := by
  induction fuel generalizing S with
  | zero =>
    have hsat : ∀ e ∈ edges, e.1 ∈ S → e.2 ∈ S := by
      intro e he h1
      have hsub : U.length ≤ S.length := by simpa using hU
      have hperm : ∀ y ∈ U, y ∈ S := by
        intro y hy
        have hsp : S.Subperm U := List.subperm_of_subset hnd hS
        have : S.length = U.length :=
          Nat.le_antisymm (List.Subperm.length_le hsp) hsub
        by_contra hc
        have h2 : (y :: S).Subperm U := by
          apply List.subperm_of_subset
          · exact List.nodup_cons.mpr ⟨hc, hnd⟩
          · intro z hz
            rcases List.mem_cons.mp hz with h | h
            · exact h ▸ hy
            · exact hS z h
        have := List.Subperm.length_le h2
        simp [this, List.length_cons] at this
        omega
      exact hperm e.2 (hT e he)
    intro e he h1
    simpa [reachClosure] using
      (by simpa [reachClosure] using h1 : e.1 ∈ S) |> hsat e he
  | succ n ih =>
    intro e he h1
    show e.2 ∈ reachClosure edges (n + 1) S
    have hshape : reachClosure edges (n + 1) S =
        (if reachStepFwd edges S = S then S
         else reachClosure edges n (reachStepFwd edges S)) := rfl
    by_cases heq : reachStepFwd edges S = S
    · rw [hshape, if_pos heq] at h1 ⊢
      exact reachStepFwd_saturated_of_eq edges S heq e he h1
    · rw [hshape, if_neg heq] at h1 ⊢
      obtain ⟨t, ht⟩ := reachStepFwd_append edges S
      have htne : t ≠ [] := by
        intro hc
        rw [hc, List.append_nil] at ht
        exact heq ht
      have hlen : S.length + 1 ≤ (reachStepFwd edges S).length := by
        rw [ht, List.length_append]
        have : 0 < t.length := List.length_pos.mpr htne
        omega
      exact ih (reachStepFwd edges S) (reachStepFwd_nodup edges S hnd)
        (reachStepFwd_universe edges S U hS hT) (by omega) e he h1

theorem reachClosure_append (edges : List (Name × Name)) (fuel : Nat)
    (S : List Name) : ∃ t, reachClosure edges fuel S = S ++ t := by
  induction fuel generalizing S with
  | zero => exact ⟨[], by simp [reachClosure]⟩
  | succ n ih =>
    show ∃ t, (if reachStepFwd edges S = S then S
      else reachClosure edges n (reachStepFwd edges S)) = S ++ t
    by_cases heq : reachStepFwd edges S = S
    · rw [if_pos heq]
      exact ⟨[], by simp⟩
    · rw [if_neg heq]
      obtain ⟨t1, ht1⟩ := reachStepFwd_append edges S
      obtain ⟨t2, ht2⟩ := ih (reachStepFwd edges S)
      exact ⟨t1 ++ t2, by rw [ht2, ht1, List.append_assoc]⟩

theorem reachClosure_sub (edges : List (Name × Name)) (fuel : Nat)
    (S : List Name) {x : Name} (hx : x ∈ S) :
    x ∈ reachClosure edges fuel S := by
  obtain ⟨t, ht⟩ := reachClosure_append edges fuel S
  rw [ht]
  exact List.mem_append_left _ hx

theorem reachClosure_nodup (edges : List (Name × Name)) (fuel : Nat)
    (S : List Name) (h : S.Nodup) : (reachClosure edges fuel S).Nodup := by
  induction fuel generalizing S with
  | zero => exact h
  | succ n ih =>
    show (if reachStepFwd edges S = S then S
      else reachClosure edges n (reachStepFwd edges S)).Nodup
    split
    · exact h
    · exact ih _ (reachStepFwd_nodup edges S h)

theorem reachStepFwd_origin (edges : List (Name × Name)) :
    ∀ S x, x ∈ reachStepFwd edges S →
      x ∈ S ∨ ∃ e ∈ edges, e.1 ∈ reachStepFwd edges S ∧ e.2 = x := by
  induction edges with
  | nil => exact fun S x hx => Or.inl hx
  | cons e rest ih =>
    intro S x hx
    have hshape : reachStepFwd (e :: rest) S =
        reachStepFwd rest (if e.1 ∈ S then addNew S e.2 else S) := rfl
    by_cases h : e.1 ∈ S
    · rw [hshape, if_pos h] at hx
      rcases ih (addNew S e.2) x hx with h1 | ⟨e', he', h2, h3⟩
      · rcases (addNew_mem S e.2 x).mp h1 with h2 | h2
        · exact Or.inl h2
        · refine Or.inr ⟨e, List.mem_cons_self _ _, ?_, h2.symm⟩
          rw [hshape, if_pos h]
          exact reachStepFwd_sub rest _ ((addNew_mem S e.2 e.1).mpr (Or.inl h))
      · refine Or.inr ⟨e', List.mem_cons_of_mem _ he', ?_, h3⟩
        rw [hshape, if_pos h]
        exact h2
    · rw [hshape, if_neg h] at hx
      rcases ih S x hx with h1 | ⟨e', he', h2, h3⟩
      · exact Or.inl h1
      · refine Or.inr ⟨e', List.mem_cons_of_mem _ he', ?_, h3⟩
        rw [hshape, if_neg h]
        exact h2

theorem reachClosure_origin (edges : List (Name × Name)) (fuel : Nat)
    (S : List Name) :
    ∀ x ∈ reachClosure edges fuel S,
      x ∈ S ∨ ∃ e ∈ edges, e.1 ∈ reachClosure edges fuel S ∧ e.2 = x := by
  induction fuel generalizing S with
  | zero => exact fun x hx => Or.inl (by simpa [reachClosure] using hx)
  | succ n ih =>
    intro x hx
    have hshape : reachClosure edges (n + 1) S =
        (if reachStepFwd edges S = S then S
         else reachClosure edges n (reachStepFwd edges S)) := rfl
    by_cases heq : reachStepFwd edges S = S
    · rw [hshape, if_pos heq] at hx
      exact Or.inl hx
    · rw [hshape, if_neg heq] at hx
      rcases ih (reachStepFwd edges S) x hx with h1 | ⟨e, he, h2, h3⟩
      · rcases reachStepFwd_origin edges S x h1 with h2 | ⟨e, he, h3, h4⟩
        · exact Or.inl h2
        · refine Or.inr ⟨e, he, ?_, h4⟩
          rw [hshape, if_neg heq]
          exact reachClosure_sub edges n _ h3
      · refine Or.inr ⟨e, he, ?_, h3⟩
        rw [hshape, if_neg heq]
        exact h2

/-! ### Ancestor- and descendant-set lemmas for graphs -/

theorem reachBwd_self (g : NxDiGraph) (o : Name) : o ∈ reachBwd g o :=
  reachClosure_sub _ _ _ (List.mem_singleton.mpr rfl)

theorem reachBwd_closed (g : NxDiGraph) (o : Name) :
    ∀ e ∈ g.edges, e.2 ∈ reachBwd g o → e.1 ∈ reachBwd g o := by
  intro e he h2
  have := reachClosure_closed (g.edges.map Prod.swap) (g.edges.length + 1)
    [o] (o :: g.edges.map (fun e => e.1))
    (List.nodup_singleton o)
    (by intro x hx
        simp only [List.mem_singleton] at hx
        exact hx ▸ List.mem_cons_self _ _)
    (by intro e' he'
        rcases List.mem_map.mp he' with ⟨e0, he0, hswap⟩
        apply List.mem_cons_of_mem
        refine List.mem_map.mpr ⟨e0, he0, ?_⟩
        rw [← hswap]
        rfl)
    (by simp [List.length_map])
    (Prod.swap e) (List.mem_map.mpr ⟨e, he, rfl⟩)
  exact this h2

theorem reachBwd_origin (g : NxDiGraph) (o : Name) :
    ∀ x ∈ reachBwd g o, x = o ∨
      ∃ e ∈ g.edges, e.1 = x ∧ e.2 ∈ reachBwd g o := by
  intro x hx
  rcases reachClosure_origin (g.edges.map Prod.swap) (g.edges.length + 1)
    [o] x hx with h | ⟨e, he, h2, h3⟩
  · exact Or.inl (List.mem_singleton.mp h)
  · rcases List.mem_map.mp he with ⟨e0, he0, hswap⟩
    refine Or.inr ⟨e0, he0, ?_, ?_⟩
    · rw [← hswap] at h3
      exact h3
    · rw [← hswap] at h2
      exact h2

theorem reachFwd_self (g : NxDiGraph) (o : Name) : o ∈ reachFwd g o :=
  reachClosure_sub _ _ _ (List.mem_singleton.mpr rfl)

theorem reachFwd_closed (g : NxDiGraph) (o : Name) :
    ∀ e ∈ g.edges, e.1 ∈ reachFwd g o → e.2 ∈ reachFwd g o := by
  intro e he h1
  exact reachClosure_closed g.edges (g.edges.length + 1) [o]
    (o :: g.edges.map (fun e => e.2))
    (List.nodup_singleton o)
    (by intro x hx
        simp only [List.mem_singleton] at hx
        exact hx ▸ List.mem_cons_self _ _)
    (by intro e' he'
        exact List.mem_cons_of_mem _ (List.mem_map.mpr ⟨e', he', rfl⟩))
    (by simp [List.length_map])
    e he h1

/-! ### Supporting lemmas for the Kahn proof -/

theorem mem_dkeys_dremove_sub {α : Type} (d : List (Name × α)) (k x : Name)
    (hx : x ∈ dkeys (dremove d k)) : x ∈ dkeys d := by
  induction d with
  | nil => exact hx
  | cons kv rest ih =>
    obtain ⟨k1, v1⟩ := kv
    by_cases hk : k1 = k
    · simp only [dremove, if_pos hk] at hx
      exact List.mem_cons_of_mem _ hx
    · simp only [dremove, if_neg hk, dkeys, List.map_cons, List.mem_cons] at hx ⊢
      rcases hx with h | h
      · exact Or.inl h
      · exact Or.inr (ih h)

theorem dkeys_dremove_nodup {α : Type} (d : List (Name × α)) (k : Name)
    (hd : (dkeys d).Nodup) : (dkeys (dremove d k)).Nodup := by
  induction d with
  | nil => exact hd
  | cons kv rest ih =>
    obtain ⟨k1, v1⟩ := kv
    simp only [dkeys, List.map_cons, List.nodup_cons] at hd
    by_cases hk : k1 = k
    · simp only [dremove, if_pos hk]
      exact hd.2
    · simp only [dremove, if_neg hk, dkeys, List.map_cons, List.nodup_cons]
      exact ⟨fun hmem => hd.1 (mem_dkeys_dremove_sub rest k k1 hmem), ih hd.2⟩

theorem append_singleton_split (l : List Name) (x : Name) (o1 : List Name)
    (y : Name) (o2 : List Name) (h : l ++ [x] = o1 ++ y :: o2) :
    (o1 = l ∧ y = x ∧ o2 = []) ∨
      ∃ o2', l = o1 ++ y :: o2' ∧ o2 = o2' ++ [x] := by
  rcases List.eq_nil_or_concat o2 with ho | ⟨o2', z, ho⟩
  · subst ho
    have hlen : l.length = o1.length := by
      have := congrArg List.length h
      simp at this
      omega
    have := List.append_inj h hlen
    refine Or.inl ⟨this.1.symm, ?_, rfl⟩
    have h2 := this.2
    simp at h2
    exact h2.symm
  · subst ho
    have h2 : l ++ [x] = (o1 ++ y :: o2') ++ [z] := by
      rw [h]
      simp
    have := List.append_inj' h2 (by simp)
    refine Or.inr ⟨o2', this.1, ?_⟩
    have h3 := this.2
    simp at h3
    rw [h3, List.concat_eq_append]

theorem remIn_nil_processed (edges : List (Name × Name)) (n : Name) :
    remIn edges [] n = (edges.filter (fun e => decide (e.2 = n))).length := by
  unfold remIn
  congr 1
  apply List.filter_congr
  intro e _
  simp

theorem dget?_filterMap_nodes (l : List Name) (f : Name → Nat)
    (P : Name → Bool) (k : Name) (hnd : l.Nodup) :
    dget? (l.filterMap (fun n => if P n then some (n, f n) else none)) k =
      if k ∈ l ∧ P k then some (f k) else none := by
  induction l with
  | nil => simp [dget?]
  | cons n rest ih =>
    simp only [List.nodup_cons] at hnd
    simp only [List.filterMap_cons]
    by_cases hP : P n
    · rw [if_pos hP]
      simp only [dget?]
      by_cases hk : n = k
      · subst hk
        rw [if_pos rfl, if_pos ⟨List.mem_cons_self _ _, hP⟩]
      · rw [if_neg hk, ih hnd.2]
        by_cases hmem : k ∈ rest ∧ P k
        · rw [if_pos hmem, if_pos ⟨List.mem_cons_of_mem _ hmem.1, hmem.2⟩]
        · rw [if_neg hmem, if_neg ?_]
          rintro ⟨hm, hPk⟩
          rcases List.mem_cons.mp hm with h | h
          · exact hk h.symm
          · exact hmem ⟨h, hPk⟩
    · rw [if_neg hP, ih hnd.2]
      by_cases hmem : k ∈ rest ∧ P k
      · rw [if_pos hmem, if_pos ⟨List.mem_cons_of_mem _ hmem.1, hmem.2⟩]
      · rw [if_neg hmem, if_neg ?_]
        rintro ⟨hm, hPk⟩
        rcases List.mem_cons.mp hm with h | h
        · subst h
          exact hP (by simpa using hPk)
        · exact hmem ⟨h, hPk⟩

/-! ### The Kahn loop preserves its invariant -/

theorem if_mem_cons_ne (n c : Name) (todo : List Name) (hne : n ≠ c) :
    (if n ∈ c :: todo then (1 : Nat) else 0) = (if n ∈ todo then 1 else 0) := by
  by_cases h : n ∈ todo
  · rw [if_pos h, if_pos (List.mem_cons_of_mem _ h)]
  · have h2 : n ∉ c :: todo := by
      intro hc2
      rcases List.mem_cons.mp hc2 with h3 | h3
      · exact hne h3
      · exact h h3
    rw [if_neg h, if_neg h2]

theorem kahnStep_mid (g : NxDiGraph) (out' : List Name) (c : Name)
    (todo : List Name) (indeg : List (Name × Nat)) (zstack : List Name)
    (hc : c ∉ todo)
    (hmid : KahnMid g out' (c :: todo) indeg zstack) :
    KahnMid g out' todo (kahnStep (indeg, zstack) c).1
      (kahnStep (indeg, zstack) c).2 := by
  unfold kahnStep
  dsimp only
  cases hget : dget? indeg c with
  | none =>
    dsimp only
    refine ⟨hmid.zSub, hmid.zNodup, hmid.disj, hmid.keys, hmid.indegNodup,
      ?_, hmid.pos, hmid.zRem, hmid.sound⟩
    intro n d hnd
    have hne : n ≠ c := by
      intro he
      rw [he, hget] at hnd
      exact Option.noConfusion hnd
    have := hmid.val n d hnd
    rwa [if_mem_cons_ne n c todo hne] at this
  | some d =>
    dsimp only
    have hval := hmid.val c d hget
    rw [if_pos (List.mem_cons_self _ _)] at hval
    have hckey : c ∈ g.nodes ∧ c ∉ out' ∧ c ∉ zstack :=
      (hmid.keys c).mp ((dcontains_iff_mem indeg c).mpr
        (mem_dkeys_of_dget?_some hget))
    by_cases hz : d - 1 = 0
    · rw [if_pos hz]
      dsimp only
      have hrem0 : remIn g.edges out' c = 0 := by omega
      refine ⟨?_, ?_, ?_, ?_, ?_, ?_, ?_, ?_, hmid.sound⟩
      · intro n hn
        rcases List.mem_cons.mp hn with h | h
        · exact h ▸ hckey.1
        · exact hmid.zSub n h
      · exact List.nodup_cons.mpr ⟨hckey.2.2, hmid.zNodup⟩
      · intro n hn
        rcases List.mem_cons.mp hn with h | h
        · exact h ▸ hckey.2.1
        · exact hmid.disj n h
      · intro n
        by_cases hnc : n = c
        · subst hnc
          rw [dcontains, dget?_dremove_self indeg n hmid.indegNodup]
          simp
        · rw [dcontains, dget?_dremove_other indeg c n (fun e => hnc e.symm),
            ← dcontains]
          rw [hmid.keys n]
          simp only [List.mem_cons]
          constructor
          · rintro ⟨h1, h2, h3⟩
            exact ⟨h1, h2, fun hcc => hcc.elim (fun he => hnc he) h3⟩
          · rintro ⟨h1, h2, h3⟩
            exact ⟨h1, h2, fun hcc => h3 (Or.inr hcc)⟩
      · exact dkeys_dremove_nodup indeg c hmid.indegNodup
      · intro n dn hdn
        have hnc : n ≠ c := by
          intro he
          rw [he, dget?_dremove_self indeg c hmid.indegNodup] at hdn
          exact Option.noConfusion hdn
        rw [dget?_dremove_other indeg c n (fun e => hnc e.symm)] at hdn
        have := hmid.val n dn hdn
        rwa [if_mem_cons_ne n c todo hnc] at this
      · intro n dn hdn
        have hnc : n ≠ c := by
          intro he
          rw [he, dget?_dremove_self indeg c hmid.indegNodup] at hdn
          exact Option.noConfusion hdn
        rw [dget?_dremove_other indeg c n (fun e => hnc e.symm)] at hdn
        exact hmid.pos n dn hdn
      · intro n hn
        rcases List.mem_cons.mp hn with h | h
        · exact h ▸ hrem0
        · exact hmid.zRem n h
    · rw [if_neg hz]
      dsimp only
      refine ⟨hmid.zSub, hmid.zNodup, hmid.disj, ?_, ?_, ?_, ?_, hmid.zRem,
        hmid.sound⟩
      · intro n
        rw [dcontains_iff_mem, mem_dkeys_dinsert]
        constructor
        · rintro (h | h)
          · exact (hmid.keys n).mp ((dcontains_iff_mem indeg n).mpr h)
          · exact h ▸ hckey
        · intro h
          exact Or.inl ((dcontains_iff_mem indeg n).mp ((hmid.keys n).mpr h))
      · exact dkeys_dinsert_nodup indeg c (d - 1) hmid.indegNodup
      · intro n dn hdn
        by_cases hnc : n = c
        · subst hnc
          rw [dget?_dinsert_self] at hdn
          have he : dn = d - 1 := by
            injection hdn
            omega
          rw [if_neg hc, he]
          omega
        · rw [dget?_dinsert_other indeg c n (d - 1) (fun e => hnc e.symm)] at hdn
          have := hmid.val n dn hdn
          rwa [if_mem_cons_ne n c todo hnc] at this
      · intro n dn hdn
        by_cases hnc : n = c
        · subst hnc
          rw [dget?_dinsert_self] at hdn
          have he : dn = d - 1 := by
            injection hdn
            omega
          omega
        · rw [dget?_dinsert_other indeg c n (d - 1) (fun e => hnc e.symm)] at hdn
          exact hmid.pos n dn hdn

theorem kahnFold_mid (g : NxDiGraph) (out' : List Name)
    (todo : List Name) (st : List (Name × Nat) × List Name)
    (hnd : todo.Nodup) (hmid : KahnMid g out' todo st.1 st.2) :
    KahnMid g out' [] (todo.foldl kahnStep st).1 (todo.foldl kahnStep st).2 := by
  induction todo generalizing st with
  | nil => exact hmid
  | cons c rest ih =>
    simp only [List.nodup_cons] at hnd
    rw [List.foldl_cons]
    exact ih (kahnStep st c) hnd.2
      (kahnStep_mid g out' c rest st.1 st.2 hnd.1 hmid)

theorem kahnPop_mid (g : NxDiGraph) (hWF : g.WF) (out : List Name)
    (node : Name) (rest : List Name) (indeg : List (Name × Nat))
    (hinv : KahnInv g out indeg (node :: rest)) :
    KahnMid g (out ++ [node]) (g.succOf node) indeg rest := by
  have hnodeZ : node ∈ (node :: rest) := List.mem_cons_self _ _
  have hnodeOut : node ∉ out := hinv.disj node hnodeZ
  have hnodeN : node ∈ g.nodes := hinv.zSub node hnodeZ
  have hrem0 : remIn g.edges out node = 0 := hinv.zRem node hnodeZ
  have hzn := List.nodup_cons.mp hinv.zNodup
  refine ⟨?_, hzn.2, ?_, ?_, hinv.indegNodup, ?_, hinv.pos, ?_, ?_⟩
  · exact fun n hn => hinv.zSub n (List.mem_cons_of_mem _ hn)
  · intro n hn hmem
    rcases List.mem_append.mp hmem with h | h
    · exact hinv.disj n (List.mem_cons_of_mem _ hn) h
    · exact hzn.1 (by rwa [show n = node from by simpa using h] at hn)
  · intro n
    rw [hinv.keys n]
    constructor
    · rintro ⟨h1, h2, h3⟩
      have h4 : n ≠ node := fun he => h3 (he ▸ List.mem_cons_self _ _)
      have h5 : n ∉ rest := fun hr => h3 (List.mem_cons_of_mem _ hr)
      refine ⟨h1, ?_, h5⟩
      intro hmem
      rcases List.mem_append.mp hmem with h | h
      · exact h2 h
      · exact h4 (by simpa using h)
    · rintro ⟨h1, h2, h3⟩
      have h4 : n ∉ out := fun ho => h2 (List.mem_append_left _ ho)
      have h5 : n ≠ node := fun he => h2 (List.mem_append_right _ (by simp [he]))
      refine ⟨h1, h4, ?_⟩
      intro hmem
      rcases List.mem_cons.mp hmem with h | h
      · exact h5 h
      · exact h3 h
  · intro n d hd
    have hv := hinv.val n d hd
    have hsnoc := remIn_snoc g.edges out node n hWF.edgesNodup hnodeOut
    rw [hv, hsnoc]
    congr 1
    by_cases hme : (node, n) ∈ g.edges
    · rw [if_pos hme, if_pos ((mem_succOf g node n).mpr hme)]
    · rw [if_neg hme, if_neg (fun hc => hme ((mem_succOf g node n).mp hc))]
  · intro n hn
    have h0 := hinv.zRem n (List.mem_cons_of_mem _ hn)
    have hsnoc := remIn_snoc g.edges out node n hWF.edgesNodup hnodeOut
    omega
  · intro e he o1 x o2 hsplit hx
    rcases append_singleton_split out node o1 x o2 hsplit with
      ⟨h1, h2, h3⟩ | ⟨o2', h1, h2⟩
    · rw [h1]
      exact (remIn_zero_iff g.edges out node).mp hrem0 e he (by rw [hx, h2])
    · exact hinv.sound e he o1 x o2' h1 hx

theorem kahnMid_nil_inv (g : NxDiGraph) (out' : List Name)
    (indeg : List (Name × Nat)) (zstack : List Name)
    (houtSub : ∀ n ∈ out', n ∈ g.nodes) (houtNodup : out'.Nodup)
    (hmid : KahnMid g out' [] indeg zstack) :
    KahnInv g out' indeg zstack := by
  refine ⟨houtSub, hmid.zSub, houtNodup, hmid.zNodup, hmid.disj, hmid.keys,
    hmid.indegNodup, ?_, hmid.pos, hmid.zRem, hmid.sound⟩
  intro n d hd
  have := hmid.val n d hd
  simpa using this

theorem kahnLoop_spec (g : NxDiGraph) (hWF : g.WF) :
    ∀ (fuel : Nat) (indeg : List (Name × Nat)) (zstack out : List Name),
    KahnInv g out indeg zstack →
    (∀ n ∈ kahnLoop g fuel indeg zstack, n ∈ g.nodes ∧ n ∉ out) ∧
    (out ++ kahnLoop g fuel indeg zstack).Nodup ∧
    (∀ e ∈ g.edges, ∀ o1 x o2,
      out ++ kahnLoop g fuel indeg zstack = o1 ++ x :: o2 →
      e.2 = x → e.1 ∈ o1) := by
  intro fuel
  induction fuel with
  | zero =>
    intro indeg zstack out hinv
    refine ⟨by simp [kahnLoop], by simpa [kahnLoop] using hinv.outNodup, ?_⟩
    intro e he o1 x o2 hsplit hx
    rw [show kahnLoop g 0 indeg zstack = [] from rfl, List.append_nil] at hsplit
    exact hinv.sound e he o1 x o2 hsplit hx
  | succ n ih =>
    intro indeg zstack out hinv
    match zstack with
    | [] =>
      refine ⟨by simp [kahnLoop], by simpa [kahnLoop] using hinv.outNodup, ?_⟩
      intro e he o1 x o2 hsplit hx
      rw [show kahnLoop g (n + 1) indeg [] = [] from rfl,
        List.append_nil] at hsplit
      exact hinv.sound e he o1 x o2 hsplit hx
    | node :: rest =>
      have hshape : kahnLoop g (n + 1) indeg (node :: rest) =
          node :: kahnLoop g n ((g.succOf node).foldl kahnStep (indeg, rest)).1
            ((g.succOf node).foldl kahnStep (indeg, rest)).2 := rfl
      have hmid := kahnFold_mid g (out ++ [node]) (g.succOf node) (indeg, rest)
        (succOf_nodup g node hWF.edgesNodup)
        (kahnPop_mid g hWF out node rest indeg hinv)
      have hinv' := kahnMid_nil_inv g (out ++ [node]) _ _
        (by
          intro m hm
          rcases List.mem_append.mp hm with h | h
          · exact hinv.outSub m h
          · rw [show m = node from by simpa using h]
            exact hinv.zSub node (List.mem_cons_self _ _))
        (by
          have hnodeOut : node ∉ out :=
            hinv.disj node (List.mem_cons_self _ _)
          simpa [List.nodup_append] using ⟨hinv.outNodup, hnodeOut⟩)
        hmid
      obtain ⟨ha, hb, hc⟩ := ih _ _ (out ++ [node]) hinv'
      have hassoc : ∀ t : List Name, out ++ node :: t = (out ++ [node]) ++ t := by
        intro t
        simp
      refine ⟨?_, ?_, ?_⟩
      · intro m hm
        rw [hshape] at hm
        rcases List.mem_cons.mp hm with h | h
        · subst h
          exact ⟨hinv.zSub m (List.mem_cons_self _ _),
            hinv.disj m (List.mem_cons_self _ _)⟩
        · obtain ⟨h1, h2⟩ := ha m h
          exact ⟨h1, fun hc2 => h2 (List.mem_append_left _ hc2)⟩
      · rw [hshape, hassoc]
        exact hb
      · intro e he o1 x o2 hsplit hx
        rw [hshape, hassoc] at hsplit
        exact hc e he o1 x o2 hsplit hx

theorem kahnInit_inv (g : NxDiGraph) (hWF : g.WF) :
    KahnInv g []
      (g.nodes.filterMap
        (fun n => if g.inDegreeOf n = 0 then none else some (n, g.inDegreeOf n)))
      ((g.nodes.filter (fun n => decide (g.inDegreeOf n = 0))).reverse) := by
  have hget : ∀ k, dget? (g.nodes.filterMap
      (fun n => if g.inDegreeOf n = 0 then none else some (n, g.inDegreeOf n))) k =
      if k ∈ g.nodes ∧ ¬ (g.inDegreeOf k = 0) then some (g.inDegreeOf k)
      else none := by
    intro k
    have := dget?_filterMap_nodes g.nodes (fun n => g.inDegreeOf n)
      (fun n => !(decide (g.inDegreeOf n = 0))) k hWF.nodesNodup
    rw [show (fun n => if (!(decide (g.inDegreeOf n = 0))) = true
        then some (n, g.inDegreeOf n) else none) =
        (fun n => if g.inDegreeOf n = 0 then none
        else some (n, g.inDegreeOf n)) from ?_] at this
    · rw [this]
      by_cases hc : k ∈ g.nodes ∧ ¬ (g.inDegreeOf k = 0)
      · rw [if_pos ⟨hc.1, by simpa using hc.2⟩, if_pos hc]
      · rw [if_neg ?_, if_neg hc]
        rintro ⟨h1, h2⟩
        exact hc ⟨h1, by simpa using h2⟩
    · funext n
      by_cases hz : g.inDegreeOf n = 0
      · rw [if_pos hz]
        simp [hz]
      · rw [if_neg hz]
        simp [hz]
  have hzmem : ∀ n, n ∈ (g.nodes.filter
      (fun n => decide (g.inDegreeOf n = 0))).reverse ↔
      (n ∈ g.nodes ∧ g.inDegreeOf n = 0) := by
    intro n
    rw [List.mem_reverse, List.mem_filter]
    simp
  have hrem : ∀ n, remIn g.edges [] n = g.inDegreeOf n := by
    intro n
    rw [remIn_nil_processed]
    rfl
  refine ⟨?_, ?_, List.nodup_nil, ?_, ?_, ?_, ?_, ?_, ?_, ?_, ?_⟩
  · intro n hn
    exact absurd hn (List.not_mem_nil n)
  · intro n hn
    exact ((hzmem n).mp hn).1
  · exact List.nodup_reverse.mpr (hWF.nodesNodup.filter _)
  · intro n _
    exact List.not_mem_nil n
  · intro n
    rw [dcontains, hget n]
    constructor
    · intro h
      by_cases hc : n ∈ g.nodes ∧ ¬ (g.inDegreeOf n = 0)
      · refine ⟨hc.1, List.not_mem_nil n, ?_⟩
        rw [hzmem n]
        rintro ⟨_, h2⟩
        exact hc.2 h2
      · rw [if_neg hc] at h
        simp at h
    · rintro ⟨h1, _, h3⟩
      rw [hzmem n] at h3
      have h4 : ¬ (g.inDegreeOf n = 0) := fun hz => h3 ⟨h1, hz⟩
      rw [if_pos ⟨h1, h4⟩]
      simp
  · have : dkeys (g.nodes.filterMap
        (fun n => if g.inDegreeOf n = 0 then none
          else some (n, g.inDegreeOf n))) =
        g.nodes.filter (fun n => !(decide (g.inDegreeOf n = 0))) := by
      unfold dkeys
      induction g.nodes with
      | nil => rfl
      | cons m rest ih =>
        simp only [List.filterMap_cons, List.filter_cons]
        by_cases hz : g.inDegreeOf m = 0
        · rw [if_pos hz]
          simp only [hz]
          simpa using ih
        · rw [if_neg hz]
          simp only [List.map_cons]
          have hb : (!(decide (g.inDegreeOf m = 0))) = true := by simpa using hz
          rw [hb]
          simp only [if_true]
          rw [ih]
    rw [this]
    exact hWF.nodesNodup.filter _
  · intro n d hd
    rw [hget n] at hd
    by_cases hc : n ∈ g.nodes ∧ ¬ (g.inDegreeOf n = 0)
    · rw [if_pos hc] at hd
      injection hd with hd2
      rw [← hd2, hrem n]
    · rw [if_neg hc] at hd
      exact Option.noConfusion hd
  · intro n d hd
    rw [hget n] at hd
    by_cases hc : n ∈ g.nodes ∧ ¬ (g.inDegreeOf n = 0)
    · rw [if_pos hc] at hd
      injection hd with hd2
      omega
    · rw [if_neg hc] at hd
      exact Option.noConfusion hd
  · intro n hn
    rw [hrem n]
    exact ((hzmem n).mp hn).2
  · intro e _ o1 x o2 hsplit
    exact absurd hsplit (by simp)

theorem kahnList_props (g : NxDiGraph) (hWF : g.WF) :
    (∀ n ∈ kahnList g, n ∈ g.nodes) ∧ (kahnList g).Nodup ∧
    (∀ e ∈ g.edges, ∀ o1 x o2, kahnList g = o1 ++ x :: o2 →
      e.2 = x → e.1 ∈ o1) := by
  have := kahnLoop_spec g hWF g.nodes.length
    (g.nodes.filterMap
      (fun n => if g.inDegreeOf n = 0 then none else some (n, g.inDegreeOf n)))
    ((g.nodes.filter (fun n => decide (g.inDegreeOf n = 0))).reverse) []
    (kahnInit_inv g hWF)
  obtain ⟨ha, hb, hc⟩ := this
  refine ⟨?_, ?_, ?_⟩
  · intro n hn
    exact (ha n hn).1
  · simpa using hb
  · intro e he o1 x o2 hsplit hx
    exact hc e he o1 x o2 (by simpa using hsplit) hx

theorem kahnList_complete (g : NxDiGraph) (hWF : g.WF)
    (hlen : (kahnList g).length = g.nodes.length) :
    ∀ n ∈ g.nodes, n ∈ kahnList g := by
  obtain ⟨ha, hb, _⟩ := kahnList_props g hWF
  have hsp : (kahnList g).Subperm g.nodes := List.subperm_of_subset hb ha
  have hperm := hsp.perm_of_length_le (by omega)
  intro n hn
  exact hperm.mem_iff.mpr hn

/-! ### Sanity checks of the execution pipeline on concrete scenarios -/

example :
    (calculate s1 CacheState.null [nm "c"] true false).toOption.map
      (fun r => dget? r.1 (nm "c")) = some (some (Value.vint 125)) := by decide

example :
    (calculate s1 CacheState.null [nm "c"] true true).toOption.map
      (fun r => r.1) = some
      [(nm "a", Value.vint 5), (nm "b", Value.vint 25), (nm "c", Value.vint 125)] := by decide

example :
    (calculate s5c1 s5cache0 [nm "b"] true false).toOption.map
      (fun r => dget? r.1 (nm "b")) = some (some (Value.vint 10)) := by decide

example :
    (calculate s5c2 s5state1 [nm "b"] true false).toOption.map
      (fun r => dget? r.1 (nm "b")) = some (some (Value.vint 10)) := by decide

example :
    getExecutionInstructions s5c2 (maintainCacheConsistency s5c2 s5state1)
      (s5c2.ancestorDag [nm "b"]) [nm "b"] =
      [(nm "a", NodeInstruction.IGNORE), (nm "b", NodeInstruction.RETRIEVE)] := by decide

/-! ### Well-formedness of the graphs used by the pipeline -/

theorem ancestorDag_wf (c : Composer) (outputs : List Name) :
    (c.ancestorDag outputs).WF :=
  subgraphOf_wf _ _ (dag_wf c)

theorem map_eq_append_cons {α β : Type} (f : α → β) (l : List α)
    (o1 : List β) (x : β) (o2 : List β) (h : l.map f = o1 ++ x :: o2) :
    ∃ l1 a l2, l = l1 ++ a :: l2 ∧ l1.map f = o1 ∧ f a = x ∧ l2.map f = o2 := by
  induction l generalizing o1 with
  | nil => simp at h
  | cons b rest ih =>
    cases o1 with
    | nil =>
      simp only [List.map_cons, List.nil_append] at h
      injection h with h1 h2
      exact ⟨[], b, rest, by simp, rfl, h1, h2⟩
    | cons y o1' =>
      simp only [List.map_cons, List.cons_append] at h
      injection h with h1 h2
      obtain ⟨l1, a, l2, hl, hm1, hfa, hm2⟩ := ih o1' h2
      exact ⟨b :: l1, a, l2, by rw [hl]; rfl, by simp [hm1, h1], hfa, hm2⟩

/-! ### Claim C10: the default cache is `NullCache` and forces CALCULATE -/

/-- C10.  A composer constructed without an explicit cache carries the
`NullCache`, whose `valid` is constantly false, so every instruction the
planner emits for any output set classifies its node as CALCULATE: no
RETRIEVE or IGNORE instruction is ever emitted under the null backend. -/
theorem C10_null_cache_all_calculate (c : Composer) (outputs : List Name) :
    Composer.new.cacheInit = CacheState.null ∧
    ∀ p ∈ getExecutionInstructions c CacheState.null
        (c.ancestorDag outputs) outputs,
      p.2 = NodeInstruction.CALCULATE := by
  refine ⟨rfl, ?_⟩
  intro p hp
  unfold getExecutionInstructions at hp
  dsimp only at hp
  rcases List.mem_map.mp hp with ⟨node, hnode, heq⟩
  have hsub := (kahnList_props _ (ancestorDag_wf c outputs)).1 node hnode
  have hinv : invalidPred c CacheState.null (c.ancestorDag outputs) node = true := by
    unfold invalidPred
    dsimp only
    apply Bool.or_eq_true_iff.mpr
    left
    simp only [decide_eq_true_eq]
    apply List.mem_filter.mpr
    exact ⟨hsub, by simp [cacheValid]⟩
  rw [← heq]
  simp [hinv]

/-- C10, witness at a concrete composer and output set. -/
theorem C10_null_cache_all_calculate_witness :
    (nm "a", NodeInstruction.CALCULATE).2 = NodeInstruction.CALCULATE :=
  (C10_null_cache_all_calculate s1 [nm "c"]).2
    (nm "a", NodeInstruction.CALCULATE) (by decide)

/-! ### Claim C1: SimpleCache validity and scenario S5 -/

/-- C1, counterexample.  In scenario S5 with the in-memory `SimpleCache`,
after calculating `[b]` and replacing `b` by `b(a) = a*3`, the second
`calculate(["b"])` does NOT recompute `b`: `SimpleCache.set` stored no
signature for the function node `b`, so `valid` still holds and `b` is
retrieved from the cache as 10 (and `a` is IGNOREd, not retrieved). -/
theorem C1_counterexample :
    (calculate s5c1 s5cache0 [nm "b"] true false).toOption.map
      (fun r => dget? r.1 (nm "b")) = some (some (Value.vint 10)) ∧
    (calculate s5c2 s5state1 [nm "b"] true false).toOption.map
      (fun r => dget? r.1 (nm "b")) = some (some (Value.vint 10)) ∧
    ¬ ((calculate s5c2 s5state1 [nm "b"] true false).toOption.map
      (fun r => dget? r.1 (nm "b")) = some (some (Value.vint 15))) ∧
    cacheValid s5c2 s5state1 (nm "b") = true ∧
    getExecutionInstructions s5c2 (maintainCacheConsistency s5c2 s5state1)
      (s5c2.ancestorDag [nm "b"]) [nm "b"] =
      [(nm "a", NodeInstruction.IGNORE), (nm "b", NodeInstruction.RETRIEVE)] := by
  refine ⟨by decide, by decide, by decide, by decide, by decide⟩

/-- C1, amended.  `SimpleCache` stores a content signature only for
parameter nodes: once `set` has stored a value for a non-parameter
(function) node that had no stored signature, `valid` returns true under
EVERY composer — a replaced function body is never detected.
Consequently, in S5 the second `calculate(["b"])` retrieves the stale 10
from the cache (with `a` ignored), instead of recomputing 15. -/
theorem C1_simple_cache_validity (c c' : Composer) (hp : Bool)
    (cache : List (Name × Value)) (hashes : List (Name × HashVal))
    (key : Name) (v : Value)
    (hparam : dcontains c.parameters key = false)
    (hhash : dget? hashes key = none) :
    cacheValid c' (cacheSet c (CacheState.simple hp cache hashes) key v) key
      = true ∧
    (calculate s5c2 s5state1 [nm "b"] true false).toOption.map
      (fun r => dget? r.1 (nm "b")) = some (some (Value.vint 10)) := by
  constructor
  · show cacheValid c'
      (CacheState.simple hp (dinsert cache key v)
        (if dcontains c.parameters key then
          dinsert hashes key (hashFn c key (!hp)) else hashes)) key = true
    rw [hparam]
    simp only [Bool.false_eq_true, if_false]
    unfold cacheValid
    simp only [hhash]
    unfold dcontains
    rw [dget?_dinsert_self]
    rfl
  · decide

/-- C1, witness for the amended theorem at concrete inputs. -/
theorem C1_simple_cache_validity_witness :
    cacheValid s5c2 (cacheSet s5c1 (CacheState.simple false [] [])
      (nm "b") (Value.vint 10)) (nm "b") = true ∧
    (calculate s5c2 s5state1 [nm "b"] true false).toOption.map
      (fun r => dget? r.1 (nm "b")) = some (some (Value.vint 10)) :=
  C1_simple_cache_validity s5c1 s5c2 false [] [] (nm "b") (Value.vint 10)
    (by decide) (by decide)

/-! ### Claim C3: instruction order is topological but not lexicographic -/

/-- C3, counterexample.  Three pairwise-incomparable nodes registered in
the order `a`, `c`, `b` are emitted as `b`, `c`, `a` —
`nx.topological_sort`'s worklist order — which is not the lexicographic
order `a`, `b`, `c` the claim requires for ties. -/
theorem C3_counterexample :
    getExecutionInstructions cexC3 CacheState.null
      (cexC3.ancestorDag [nm "a", nm "b", nm "c"]) [nm "a", nm "b", nm "c"] =
      [(nm "b", NodeInstruction.CALCULATE), (nm "c", NodeInstruction.CALCULATE),
        (nm "a", NodeInstruction.CALCULATE)] ∧
    (cexC3.ancestorDag [nm "a", nm "b", nm "c"]).edges = [] ∧
    [nm "b", nm "c", nm "a"] ≠
      pySorted (fun x y => !(nameLt y x)) [nm "b", nm "c", nm "a"] := by
  refine ⟨by decide, by decide, by decide⟩

/-- C3, amended.  The instruction stream emitted by the planner is a
topological order of the ancestor DAG — every edge's source is emitted
before its target — but ties between incomparable nodes follow the node
insertion order of the graph (via `nx.topological_sort`'s worklist), not
lexicographic node-name order.  The stream is still a deterministic
function of the composer and cache state. -/
theorem C3_topological_order (c : Composer) (s : CacheState)
    (outputs : List Name) (e : Name × Name)
    (he : e ∈ (c.ancestorDag outputs).edges)
    (o1 : List (Name × NodeInstruction)) (x : Name × NodeInstruction)
    (o2 : List (Name × NodeInstruction))
    (hsplit : getExecutionInstructions c s (c.ancestorDag outputs) outputs =
      o1 ++ x :: o2)
    (hx : e.2 = x.1) : e.1 ∈ o1.map (fun p => p.1) := by
  unfold getExecutionInstructions at hsplit
  dsimp only at hsplit
  obtain ⟨l1, a, l2, hl, hm1, hfa, _⟩ :=
    map_eq_append_cons _ _ o1 x o2 hsplit
  have hsound := (kahnList_props _ (ancestorDag_wf c outputs)).2.2 e he l1 a l2 hl
  have hxa : x.1 = a := by rw [← hfa]
  have h1 : e.1 ∈ l1 := hsound (by rw [hx, hxa])
  rw [← hm1, List.map_map]
  simpa using h1

/-- C3, witness for the amended theorem: the edge `(a, b)` of scenario S1
precedes its target in the emitted stream. -/
theorem C3_topological_order_witness :
    (nm "a") ∈ ([(nm "a", NodeInstruction.CALCULATE)].map (fun p => p.1)) :=
  C3_topological_order s1 CacheState.null [nm "c"] (nm "a", nm "b")
    (by decide) [(nm "a", NodeInstruction.CALCULATE)]
    (nm "b", NodeInstruction.CALCULATE)
    [(nm "c", NodeInstruction.CALCULATE)] (by decide) (by decide)

/-! ### Claim C6: variadic arguments are not sorted by producer name -/

/-- C6, counterexample.  With `args_2` registered before `args_1` and an
order-sensitive consumer `g(*args_) = args_[0] - args_[1]`, resolution
yields the producers in registry order (`args_2` before `args_1`), the
variadic slot receives `[2, 1]`, and `calculate(["g"])` returns
`2 - 1 = 1`; the sorted-by-name order would have produced `1 - 2 = -1`. -/
theorem C6_counterexample :
    cexC6.resolveVarPredecessors (nm "g") (nm "args_") =
      [(nm "args_2", nm "args_2"), (nm "args_1", nm "args_1")] ∧
    cexC6.resolveVarPredecessors (nm "g") (nm "args_") ≠
      pySorted (fun x y => !(nameLt y.2 x.2))
        (cexC6.resolveVarPredecessors (nm "g") (nm "args_")) ∧
    coalesceArguments cexC6g
      [(nm "args_2", Value.vint 2), (nm "args_1", Value.vint 1)] =
      Except.ok ([], [Value.vint 2, Value.vint 1], [], []) ∧
    (calculate cexC6 CacheState.null [nm "g"] true false).toOption.map
      (fun r => dget? r.1 (nm "g")) = some (some (Value.vint 1)) := by
  refine ⟨by decide, by decide, by rfl, by decide⟩

/-- C6, amended.  The variadic-positional slot receives the resolved
values in resolution order — candidate prefixes from most to least
specific and, within a prefix, function-registry insertion order — not
sorted by producer name: for a purely variadic signature the argument
list is exactly the predecessor-results values in their insertion order,
and for a consumer with a single candidate prefix the resolution order is
the registry order of the matching functions. -/
theorem C6_variadic_order (c : Composer) (fname pname : Name)
    (fn : FuncDef) (aname : Name) (prs : List (Name × Value))
    (hsingle : possiblePreds fname pname = [pname])
    (hparams : fn.params = [⟨aname, ParamKind.varPositional, false⟩])
    (hmatch : ∀ kv ∈ prs, startsWith kv.1 aname = true) :
    c.resolveVarPredecessors fname pname =
      (dkeys c.functions).filterMap (fun f =>
        if startsWith f pname then
          some (pname ++ f.drop pname.length, f) else none) ∧
    coalesceArguments fn prs =
      Except.ok ([], prs.map (fun kv => kv.2), [], []) := by
  constructor
  · unfold Composer.resolveVarPredecessors
    rw [hsingle]
    simp only [List.flatMap_cons, List.flatMap_nil, List.append_nil]
  · have hcn : coalesceArgumentNames fn prs =
        { positionalNames := [], argsName := some aname,
          keywordNames := [], kwargsName := none } := by
      unfold coalesceArgumentNames
      rw [hparams]
      rfl
    unfold coalesceArguments
    rw [hcn]
    dsimp only
    show (match popAll prs [] with
      | Except.error e => Except.error e
      | Except.ok (positional, pr1) => _) = _
    have hpopall : popAll prs [] = Except.ok ([], prs) := rfl
    rw [hpopall]
    dsimp only
    have hfilter1 : prs.filter (fun kv => startsWith kv.1 aname) = prs :=
      List.filter_eq_self.mpr hmatch
    have hfilter2 : prs.filter (fun kv => !(startsWith kv.1 aname)) = [] := by
      apply List.filter_eq_nil_iff.mpr
      intro kv hkv
      simp [hmatch kv hkv]
    show (match popStarting prs (some aname) with
      | Except.error e => Except.error e
      | Except.ok (args, pr2) => _) = _
    unfold popStarting
    rw [hfilter1, hfilter2]
    rfl

/-- C6, witness for the amended theorem at the concrete composer. -/
theorem C6_variadic_order_witness :
    cexC6.resolveVarPredecessors (nm "g") (nm "args_") =
      (dkeys cexC6.functions).filterMap (fun f =>
        if startsWith f (nm "args_") then
          some (nm "args_" ++ f.drop (nm "args_").length, f) else none) ∧
    coalesceArguments cexC6g
      [(nm "args_2", Value.vint 2), (nm "args_1", Value.vint 1)] =
      Except.ok ([],
        [(nm "args_2", Value.vint 2), (nm "args_1", Value.vint 1)].map
          (fun kv => kv.2), [], []) :=
  C6_variadic_order cexC6 (nm "g") (nm "args_") cexC6g (nm "args_")
    [(nm "args_2", Value.vint 2), (nm "args_1", Value.vint 1)]
    (by decide) (by decide) (by decide)

/-! ### Claim C4: what collect mode captures -/

/-- C4, counterexample.  An exception thrown by a cache backend operation
is NOT captured in collect mode: with a backend state whose `valid`
answers true for `k` while `get` raises `KeyError`, the collect-mode
`calculate_collect_exceptions` propagates the exception
(`Except.error`) instead of returning a `(partial_results, error_info)`
pair — `cache.get` sits in a `try`/`finally` with no `except` clause. -/
theorem C4_counterexample :
    calculateCollectExceptions cexC4 cexC4state [nm "k"] true false false =
      Except.error { msg := "KeyError", node := some (nm "k") } := by rfl

/-- C4, amended.  In collect mode an exception thrown by a USER FUNCTION
is captured: the step returns the error info carrying the message and the
offending node together with the pre-step results and cache (so no cache
write is committed for the failing node), and
`calculate_collect_exceptions` returns exactly that `(partial_results,
error_info)` pair with the mutated backend state; cache backend
exceptions, by contrast, propagate (see the counterexample). -/
theorem C4_collect_capture :
    (∀ (c : Composer) (os : List Name) (st : ExecState) (n : Name)
      (fn : FuncDef) (predRes : List (Name × Value)) (pos args : List Value)
      (kw kwargs : List (Name × Value)) (msg : String),
      dget? c.functions n = some fn →
      buildPredResults st.results (c.resolvePredecessors n) =
        Except.ok predRes →
      coalesceArguments fn predRes = Except.ok (pos, args, kw, kwargs) →
      fn.impl pos args kw kwargs = Except.error msg →
      execStep c os st (n, NodeInstruction.CALCULATE) =
        Except.error (StepExit.collected st.results st.cache
          { msg := msg, node := some n })) ∧
    (∀ (c : Composer) (s : CacheState) (os : List Name)
      (r : List (Name × Value)) (cache : CacheState) (e : ErrInfo),
      checksError c os = none →
      execLoop c os
        { results := [], counts := counterInit (c.ancestorDag os).edges,
          cache := maintainCacheConsistency c s }
        (getExecutionInstructions c (maintainCacheConsistency c s)
          (c.ancestorDag os) os) =
        Except.error (StepExit.collected r cache e) →
      calculateCollectExceptions c s os true false false =
        Except.ok (r, some e, cache)) := by
  constructor
  · intro c os st n fn predRes pos args kw kwargs msg h1 h2 h3 h4
    simp only [execStep, h1, h2, h3, h4]
  · intro c s os r cache e hck hloop
    simp only [calculateCollectExceptions, hck]
    simp only [if_true, Bool.false_eq_true, if_false]
    rw [hloop]

/-- C4, witness for both parts of the amended theorem at the concrete
composer whose only function raises. -/
theorem C4_collect_capture_witness :
    execStep cexC4fail [nm "f"]
      { results := [], counts := [], cache := CacheState.null }
      (nm "f", NodeInstruction.CALCULATE) =
      Except.error (StepExit.collected [] CacheState.null
        { msg := "boom", node := some (nm "f") }) ∧
    calculateCollectExceptions cexC4fail CacheState.null [nm "f"]
      true false false =
      Except.ok ([], some { msg := "boom", node := some (nm "f") },
        CacheState.null) := by
  constructor
  · exact C4_collect_capture.1 cexC4fail [nm "f"]
      { results := [], counts := [], cache := CacheState.null }
      (nm "f") (mkFn [] (fun _ _ _ _ => Except.error "boom") 61 "f")
      [] [] [] [] [] "boom" (by rfl) (by rfl) (by rfl) (by rfl)
  · exact C4_collect_capture.2 cexC4fail CacheState.null [nm "f"]
      [] CacheState.null { msg := "boom", node := some (nm "f") }
      (by rfl) (by rfl)

/-! ### Claim C9: update operations are pure and leave the receiver alone -/

/-- C9.  Every update operation (`update`, `update_without_prefix`,
`update_without_suffix`, `update_parameters`, `update_tests`, `link`,
`update_namespaces`, `update_from`, `subgraph`, `cache`,
`set_source_map`) returns a new Composer built by pure dictionary
updates; the registries it does not target are passed through unchanged,
and the receiver's registries are never mutated (in this embedding all
operations are pure functions of the receiver, mirroring the source's
`_copy`/`{**d1, **d2}` style which never mutates `self`'s dicts). -/
theorem C9_update_ops_pure :
    (∀ (c : Composer) (args : List (Name × FuncDef)),
      (c.update args).parameters = c.parameters ∧
      (c.update args).tests = c.tests ∧
      (c.update args).sourceMap = c.sourceMap ∧
      (c.update args).cacheInit = c.cacheInit ∧
      (c.update args).functions = dupdate c.functions args) ∧
    (∀ (c : Composer) (pre : Name) (fns kwargs : List (Name × FuncDef))
      (c' : Composer),
      c.updateWithoutPrefixOf pre fns kwargs = Except.ok c' →
      c'.parameters = c.parameters ∧ c'.tests = c.tests ∧
      c'.sourceMap = c.sourceMap ∧ c'.cacheInit = c.cacheInit) ∧
    (∀ (c : Composer) (suf : Name) (fns kwargs : List (Name × FuncDef))
      (c' : Composer),
      c.updateWithoutSuffixOf suf fns kwargs = Except.ok c' →
      c'.parameters = c.parameters ∧ c'.tests = c.tests ∧
      c'.sourceMap = c.sourceMap ∧ c'.cacheInit = c.cacheInit) ∧
    (∀ (c : Composer) (ps : List (Name × ParamEntry)),
      (c.updateParameters ps).tests = c.tests ∧
      (c.updateParameters ps).sourceMap = c.sourceMap ∧
      (c.updateParameters ps).cacheInit = c.cacheInit ∧
      (c.updateParameters ps).parameters = dupdate c.parameters ps) ∧
    (∀ (c : Composer) (ts : List (Name × Nat)),
      (c.updateTests ts).functions = c.functions ∧
      (c.updateTests ts).parameters = c.parameters ∧
      (c.updateTests ts).sourceMap = c.sourceMap ∧
      (c.updateTests ts).cacheInit = c.cacheInit) ∧
    (∀ (c : Composer) (kw : List (Name × Name)) (i : Nat),
      (c.link kw i).parameters = c.parameters ∧
      (c.link kw i).tests = c.tests ∧
      (c.link kw i).sourceMap = c.sourceMap ∧
      (c.link kw i).cacheInit = c.cacheInit) ∧
    (∀ (c : Composer) (ns : List (Name × Composer)),
      (c.updateNamespaces ns).tests = c.tests ∧
      (c.updateNamespaces ns).sourceMap = c.sourceMap ∧
      (c.updateNamespaces ns).cacheInit = c.cacheInit) ∧
    (∀ (c : Composer) (cs : List Composer),
      (c.updateFrom cs).sourceMap = c.sourceMap ∧
      (c.updateFrom cs).cacheInit = c.cacheInit) ∧
    (∀ (c : Composer) (names : List Name),
      (c.subgraph names).tests = c.tests ∧
      (c.subgraph names).sourceMap = c.sourceMap ∧
      (c.subgraph names).cacheInit = c.cacheInit) ∧
    (∀ (c : Composer) (b : Option CacheState),
      (c.cache b).functions = c.functions ∧
      (c.cache b).parameters = c.parameters ∧
      (c.cache b).tests = c.tests ∧
      (c.cache b).sourceMap = c.sourceMap) ∧
    (∀ (c : Composer) (sm : List (Name × Name)),
      (c.setSourceMap sm).functions = c.functions ∧
      (c.setSourceMap sm).parameters = c.parameters ∧
      (c.setSourceMap sm).tests = c.tests ∧
      (c.setSourceMap sm).cacheInit = c.cacheInit) := by
  refine ⟨?_, ?_, ?_, ?_, ?_, ?_, ?_, ?_, ?_, ?_, ?_⟩
  · exact fun c args => ⟨rfl, rfl, rfl, rfl, rfl⟩
  · intro c pre fns kwargs c' h
    unfold Composer.updateWithoutPrefixOf at h
    cases hmap : fns.mapM
        (fun kv => (stripRequiredPrefixOf kv.1 pre).map (fun n => (n, kv.2))) with
    | error e =>
      rw [hmap] at h
      exact Except.noConfusion h
    | ok stripped =>
      rw [hmap] at h
      injection h with h2
      rw [← h2]
      exact ⟨rfl, rfl, rfl, rfl⟩
  · intro c suf fns kwargs c' h
    unfold Composer.updateWithoutSuffixOf at h
    cases hmap : fns.mapM
        (fun kv => (stripRequiredSuffixOf kv.1 suf).map (fun n => (n, kv.2))) with
    | error e =>
      rw [hmap] at h
      exact Except.noConfusion h
    | ok stripped =>
      rw [hmap] at h
      injection h with h2
      rw [← h2]
      exact ⟨rfl, rfl, rfl, rfl⟩
  · exact fun c ps => ⟨rfl, rfl, rfl, rfl⟩
  · exact fun c ts => ⟨rfl, rfl, rfl, rfl⟩
  · exact fun c kw i => ⟨rfl, rfl, rfl, rfl⟩
  · exact fun c ns => ⟨rfl, rfl, rfl⟩
  · intro c cs
    induction cs generalizing c with
    | nil => exact ⟨rfl, rfl⟩
    | cons y rest ih =>
      show ((((c.update y.functions).updateParameters y.parameters).updateTests
        y.tests).updateFrom rest).sourceMap = c.sourceMap ∧ _
      obtain ⟨h1, h2⟩ := ih
        (((c.update y.functions).updateParameters y.parameters).updateTests y.tests)
      exact ⟨h1, h2⟩
  · exact fun c names => ⟨rfl, rfl, rfl⟩
  · exact fun c b => ⟨rfl, rfl, rfl, rfl⟩
  · exact fun c sm => ⟨rfl, rfl, rfl, rfl⟩

/-- C9, witness at concrete inputs for the two fallible operations. -/
theorem C9_update_ops_pure_witness :
    ((s1.update [(nm "d", constFn 9 71 "d")]).parameters = s1.parameters ∧
      (s1.update [(nm "d", constFn 9 71 "d")]).tests = s1.tests ∧
      (s1.update [(nm "d", constFn 9 71 "d")]).sourceMap = s1.sourceMap ∧
      (s1.update [(nm "d", constFn 9 71 "d")]).cacheInit = s1.cacheInit ∧
      (s1.update [(nm "d", constFn 9 71 "d")]).functions =
        dupdate s1.functions [(nm "d", constFn 9 71 "d")]) ∧
    ((s1.update [(nm "foo", constFn 9 72 "f")]).parameters = s1.parameters ∧
      (s1.update [(nm "foo", constFn 9 72 "f")]).tests = s1.tests ∧
      (s1.update [(nm "foo", constFn 9 72 "f")]).sourceMap = s1.sourceMap ∧
      (s1.update [(nm "foo", constFn 9 72 "f")]).cacheInit = s1.cacheInit) := by
  constructor
  · exact C9_update_ops_pure.1 s1 [(nm "d", constFn 9 71 "d")]
  · exact C9_update_ops_pure.2.1 s1 (nm "get_")
      [(nm "get_foo", constFn 9 72 "f")] [] (s1.update [(nm "foo", constFn 9 72 "f")])
      (by rfl)

/-! ### Dictionary and counter characterisations for the executor proofs -/

theorem dget?_eq_some_iff_mem {α : Type} (d : List (Name × α)) (k : Name)
    (v : α) (hnd : (dkeys d).Nodup) : dget? d k = some v ↔ (k, v) ∈ d := by
  induction d with
  | nil => simp [dget?]
  | cons kv rest ih =>
    obtain ⟨k1, v1⟩ := kv
    simp only [dkeys, List.map_cons, List.nodup_cons] at hnd
    simp only [dget?, List.mem_cons]
    by_cases hk : k1 = k
    · subst hk
      rw [if_pos rfl]
      constructor
      · intro h
        injection h with h2
        exact Or.inl (by rw [h2])
      · rintro (h | h)
        · injection h with h2 h3
          rw [h3]
        · exact absurd (mem_dkeys_of_dget?_some
            ((ih hnd.2).mpr h)) hnd.1
    · rw [if_neg hk]
      rw [ih hnd.2]
      constructor
      · exact Or.inr
      · rintro (h | h)
        · injection h with h2 h3
          exact absurd h2.symm hk
        · exact h

theorem dkeys_dinsert_of_mem {α : Type} (d : List (Name × α)) (k : Name)
    (v : α) (h : k ∈ dkeys d) : dkeys (dinsert d k v) = dkeys d := by
  induction d with
  | nil => simp [dkeys] at h
  | cons kv rest ih =>
    obtain ⟨k1, v1⟩ := kv
    by_cases hk : k1 = k
    · simp [dinsert, hk, dkeys]
    · simp only [dkeys, List.map_cons, List.mem_cons] at h
      rcases h with h | h
      · exact absurd h.symm hk
      · simp only [dinsert, if_neg hk, dkeys, List.map_cons]
        rw [show List.map Prod.fst (dinsert rest k v) = dkeys (dinsert rest k v)
          from rfl, ih h]
        rfl

theorem dget?_foldl_dremove {α : Type} (ks : List Name)
    (l : List (Name × α)) (k : Name) (hnd : (dkeys l).Nodup) :
    dget? (ks.foldl (fun d x => dremove d x) l) k =
      if k ∈ ks then none else dget? l k := by
  induction ks generalizing l with
  | nil => simp
  | cons x rest ih =>
    rw [List.foldl_cons, ih (dremove l x) (dkeys_dremove_nodup l x hnd)]
    by_cases hk : k = x
    · subst hk
      by_cases hr : k ∈ rest
      · rw [if_pos hr, if_pos (List.mem_cons_self _ _)]
      · rw [if_neg hr, if_pos (List.mem_cons_self _ _)]
        exact dget?_dremove_self l k hnd
    · by_cases hr : k ∈ rest
      · rw [if_pos hr, if_pos (List.mem_cons_of_mem _ hr)]
      · rw [if_neg hr, if_neg (by
          intro hc
          rcases List.mem_cons.mp hc with h | h
          · exact hk h
          · exact hr h)]
        exact dget?_dremove_other l x k (fun e => hk e.symm)

theorem keys_foldl_dremove_nodup {α : Type} (ks : List Name)
    (l : List (Name × α)) (hnd : (dkeys l).Nodup) :
    (dkeys (ks.foldl (fun d x => dremove d x) l)).Nodup := by
  induction ks generalizing l with
  | nil => exact hnd
  | cons x rest ih => exact ih (dremove l x) (dkeys_dremove_nodup l x hnd)

theorem dget?_counterSub (items : List Name) (cnt : List (Name × Int))
    (k : Name) (hhit : ∀ p ∈ items, (dget? cnt p).isSome = true)
    (hnd : items.Nodup) :
    dget? (counterSub cnt items) k =
      if k ∈ items then (dget? cnt k).map (fun v => v - 1) else dget? cnt k := by
  induction items generalizing cnt with
  | nil => simp [counterSub]
  | cons p rest ih =>
    simp only [List.nodup_cons] at hnd
    obtain ⟨v, hv⟩ := Option.isSome_iff_exists.mp
      (hhit p (List.mem_cons_self _ _))
    have hstep : counterSub cnt (p :: rest) =
        counterSub (dinsert cnt p (v - 1)) rest := by
      unfold counterSub
      rw [List.foldl_cons, hv]
    rw [hstep, ih (dinsert cnt p (v - 1)) ?hits hnd.2]
    case hits =>
      intro q hq
      by_cases hqp : q = p
      · rw [hqp, dget?_dinsert_self]
        rfl
      · rw [dget?_dinsert_other cnt p q (v - 1) (fun e => hqp e.symm)]
        exact hhit q (List.mem_cons_of_mem _ hq)
    by_cases hk : k = p
    · subst hk
      rw [if_neg hnd.1, if_pos (List.mem_cons_self _ _),
        dget?_dinsert_self, hv]
      rfl
    · rw [dget?_dinsert_other cnt p k (v - 1) (fun e => hk e.symm)]
      by_cases hr : k ∈ rest
      · rw [if_pos hr, if_pos (List.mem_cons_of_mem _ hr)]
      · rw [if_neg hr, if_neg (by
          intro hc
          rcases List.mem_cons.mp hc with h | h
          · exact hk h
          · exact hr h)]

theorem dkeys_counterSub_of_hit (items : List Name) (cnt : List (Name × Int))
    (hhit : ∀ p ∈ items, (dget? cnt p).isSome = true) :
    dkeys (counterSub cnt items) = dkeys cnt := by
  induction items generalizing cnt with
  | nil => rfl
  | cons p rest ih =>
    obtain ⟨v, hv⟩ := Option.isSome_iff_exists.mp
      (hhit p (List.mem_cons_self _ _))
    have hstep : counterSub cnt (p :: rest) =
        counterSub (dinsert cnt p (v - 1)) rest := by
      unfold counterSub
      rw [List.foldl_cons, hv]
    rw [hstep, ih (dinsert cnt p (v - 1)) ?hits]
    case hits =>
      intro q hq
      by_cases hqp : q = p
      · rw [hqp, dget?_dinsert_self]
        rfl
      · rw [dget?_dinsert_other cnt p q (v - 1) (fun e => hqp e.symm)]
        exact hhit q (List.mem_cons_of_mem _ hq)
    exact dkeys_dinsert_of_mem cnt p (v - 1)
      (mem_dkeys_of_dget?_some hv)

theorem mem_filter_map_fst {α : Type} (l : List (Name × α))
    (P : Name × α → Bool) (k : Name) (hnd : (dkeys l).Nodup) :
    k ∈ (l.filter P).map (fun kv => kv.1) ↔
      ∃ v, dget? l k = some v ∧ P (k, v) = true := by
  constructor
  · intro h
    rcases List.mem_map.mp h with ⟨kv, hkv, hfst⟩
    have hl := List.mem_filter.mp hkv
    obtain ⟨k1, v1⟩ := kv
    simp only at hfst
    subst hfst
    exact ⟨v1, (dget?_eq_some_iff_mem l k1 v1 hnd).mpr hl.1, hl.2⟩
  · rintro ⟨v, hv, hP⟩
    apply List.mem_map.mpr
    exact ⟨(k, v), List.mem_filter.mpr
      ⟨(dget?_eq_some_iff_mem l k v hnd).mp hv, hP⟩, rfl⟩

theorem mem_of_dget?_eq_some {α : Type} (d : List (Name × α)) (k : Name)
    (v : α) (h : dget? d k = some v) : (k, v) ∈ d := by
  induction d with
  | nil => exact Option.noConfusion h
  | cons kv rest ih =>
    obtain ⟨k1, v1⟩ := kv
    simp only [dget?] at h
    by_cases hk : k1 = k
    · rw [if_pos hk] at h
      injection h with h2
      rw [← hk, ← h2]
      exact List.mem_cons_self _ _
    · rw [if_neg hk] at h
      exact List.mem_cons_of_mem _ (ih h)

theorem dget?_append_of_none {α : Type} (d1 d2 : List (Name × α)) (k : Name)
    (h : dget? d1 k = none) : dget? (d1 ++ d2) k = dget? d2 k := by
  induction d1 with
  | nil => rfl
  | cons kv rest ih =>
    obtain ⟨k1, v1⟩ := kv
    simp only [dget?] at h ⊢
    by_cases hk : k1 = k
    · rw [if_pos hk] at h
      exact Option.noConfusion h
    · rw [if_neg hk] at h ⊢
      exact ih h

theorem dget?_append_of_some {α : Type} (d1 d2 : List (Name × α)) (k : Name)
    (v : α) (h : dget? d1 k = some v) : dget? (d1 ++ d2) k = some v := by
  induction d1 with
  | nil => exact Option.noConfusion h
  | cons kv rest ih =>
    obtain ⟨k1, v1⟩ := kv
    simp only [dget?] at h ⊢
    by_cases hk : k1 = k
    · rw [if_pos hk] at h ⊢
      exact h
    · rw [if_neg hk] at h ⊢
      exact ih h

theorem counterInit_go (edges : List (Name × Name)) (cnt : List (Name × Int))
    (k : Name) :
    dget? (edges.foldl
      (fun (cnt : List (Name × Int)) e =>
        match dget? cnt e.1 with
        | some v => dinsert cnt e.1 (v + 1)
        | none => cnt ++ [(e.1, 1)]) cnt) k =
    match dget? cnt k with
    | some v => some (v + ((edges.filter (fun e => decide (e.1 = k))).length : Int))
    | none =>
      if 0 < (edges.filter (fun e => decide (e.1 = k))).length
      then some ((edges.filter (fun e => decide (e.1 = k))).length : Int)
      else none := by
  induction edges generalizing cnt with
  | nil =>
    cases h : dget? cnt k <;> simp [h]
  | cons e rest ih =>
    simp only [List.foldl_cons]
    by_cases hek : e.1 = k
    · have hfil : (e :: rest).filter (fun e => decide (e.1 = k)) =
          e :: rest.filter (fun e => decide (e.1 = k)) := by
        rw [List.filter_cons, if_pos (by simp [hek])]
      rw [hfil]
      cases hc : dget? cnt k with
      | some v =>
        have hstep : (match dget? cnt e.1 with
            | some v => dinsert cnt e.1 (v + 1)
            | none => cnt ++ [(e.1, 1)]) = dinsert cnt k (v + 1) := by
          rw [hek, hc]
        rw [hstep, ih (dinsert cnt k (v + 1)) , dget?_dinsert_self]
        simp only [List.length_cons]
        congr 1
        push_cast
        ring
      | none =>
        have hstep : (match dget? cnt e.1 with
            | some v => dinsert cnt e.1 (v + 1)
            | none => cnt ++ [(e.1, 1)]) = cnt ++ [(k, 1)] := by
          rw [hek, hc]
        have hone : dget? (cnt ++ [(k, 1)]) k = some 1 := by
          rw [dget?_append_of_none cnt [(k, (1 : Int))] k hc]
          simp [dget?]
        rw [hstep, ih (cnt ++ [(k, 1)]), hone]
        simp only [List.length_cons]
        rw [if_pos (Nat.succ_pos _)]
        congr 1
        push_cast
        ring
    · have hfil : (e :: rest).filter (fun e => decide (e.1 = k)) =
          rest.filter (fun e => decide (e.1 = k)) := by
        rw [List.filter_cons, if_neg (by simp [hek])]
      rw [hfil]
      have hsame : dget? (match dget? cnt e.1 with
          | some v => dinsert cnt e.1 (v + 1)
          | none => cnt ++ [(e.1, 1)]) k = dget? cnt k := by
        cases hc1 : dget? cnt e.1 with
        | some v => rw [dget?_dinsert_other cnt e.1 k (v + 1) hek]
        | none =>
          cases hck : dget? cnt k with
          | some w => exact dget?_append_of_some cnt [(e.1, 1)] k w hck
          | none =>
            rw [dget?_append_of_none cnt [(e.1, 1)] k hck]
            simp [dget?, hek]
      rw [ih _, hsame]

theorem dget?_counterInit (edges : List (Name × Name)) (k : Name) :
    dget? (counterInit edges) k =
      if 0 < (edges.filter (fun e => decide (e.1 = k))).length
      then some ((edges.filter (fun e => decide (e.1 = k))).length : Int)
      else none := by
  unfold counterInit
  rw [counterInit_go edges [] k]
  rfl

theorem counterInit_go_keys_nodup (edges : List (Name × Name))
    (cnt : List (Name × Int)) (h : (dkeys cnt).Nodup) :
    (dkeys (edges.foldl
      (fun (cnt : List (Name × Int)) e =>
        match dget? cnt e.1 with
        | some v => dinsert cnt e.1 (v + 1)
        | none => cnt ++ [(e.1, 1)]) cnt)).Nodup := by
  induction edges generalizing cnt with
  | nil => exact h
  | cons e rest ih =>
    simp only [List.foldl_cons]
    apply ih
    cases hc : dget? cnt e.1 with
    | some v =>
      exact dkeys_dinsert_nodup cnt e.1 (v + 1) h
    | none =>
      have hkeys : dkeys (cnt ++ [(e.1, (1 : Int))]) = dkeys cnt ++ [e.1] := by
        simp [dkeys]
      rw [hkeys, List.nodup_append]
      refine ⟨h, List.nodup_singleton _, ?_⟩
      intro a ha hae
      rw [List.mem_singleton] at hae
      subst hae
      have hsome : (dget? cnt e.1).isSome = true :=
        (dget?_isSome_iff_mem cnt e.1).mpr ha
      rw [hc] at hsome
      exact Bool.noConfusion hsome

theorem counterInit_keys_nodup (edges : List (Name × Name)) :
    (dkeys (counterInit edges)).Nodup :=
  counterInit_go_keys_nodup edges [] List.nodup_nil

theorem filter_mem_snoc_of_not_mem (l P : List Name) (n : Name)
    (hn : n ∉ l) :
    l.filter (fun w => decide (w ∈ P ++ [n])) =
      l.filter (fun w => decide (w ∈ P)) := by
  apply List.filter_congr
  intro a ha
  have han : a ≠ n := fun h => hn (h ▸ ha)
  apply decide_eq_decide.mpr
  simp [List.mem_append, han]

theorem filter_mem_snoc_of_mem (l P : List Name) (n : Name) (hl : l.Nodup)
    (hn : n ∈ l) (hnP : n ∉ P) :
    (l.filter (fun w => decide (w ∈ P ++ [n]))).length =
      (l.filter (fun w => decide (w ∈ P))).length + 1 := by
  induction l with
  | nil => exact absurd hn (List.not_mem_nil n)
  | cons x rest ih =>
    rw [List.nodup_cons] at hl
    by_cases hxn : x = n
    · subst hxn
      rw [List.filter_cons, List.filter_cons,
        if_pos (by simp [List.mem_append]),
        if_neg (by simpa using hnP),
        filter_mem_snoc_of_not_mem rest P x hl.1]
      simp
    · have hnrest : n ∈ rest := by
        rcases List.mem_cons.mp hn with h | h
        · exact absurd h.symm hxn
        · exact h
      have hx : (decide (x ∈ P ++ [n])) = (decide (x ∈ P)) := by
        apply decide_eq_decide.mpr
        simp [List.mem_append, hxn]
      rw [List.filter_cons, List.filter_cons, hx]
      cases hxP : decide (x ∈ P) with
      | true =>
        rw [if_pos (by simp), if_pos (by simp)]
        simp only [List.length_cons]
        rw [ih hl.2 hnrest]
      | false =>
        rw [if_neg (by simp), if_neg (by simp)]
        exact ih hl.2 hnrest

theorem succOf_length (g : NxDiGraph) (n : Name) :
    (g.succOf n).length = g.outDegreeOf n := by
  simp [NxDiGraph.succOf, NxDiGraph.outDegreeOf]

theorem outDegree_pos_of_succ (g : NxDiGraph) (n w : Name)
    (h : w ∈ g.succOf n) : 0 < g.outDegreeOf n := by
  rw [← succOf_length]
  exact List.length_pos.mpr (List.ne_nil_of_mem h)

theorem specCount_nil (g : NxDiGraph) (k : Name) :
    specCount g [] k = (g.outDegreeOf k : Int) := by
  unfold specCount
  have h : (g.succOf k).filter (fun w => decide (w ∈ ([] : List Name))) = [] := by
    simp
  rw [h]
  simp

theorem specCount_snoc_mem (g : NxDiGraph) (P : List Name) (n k : Name)
    (hed : g.edges.Nodup) (hkn : (k, n) ∈ g.edges) (hnP : n ∉ P) :
    specCount g (P ++ [n]) k = specCount g P k - 1 := by
  unfold specCount
  rw [filter_mem_snoc_of_mem (g.succOf k) P n (succOf_nodup g k hed)
    ((mem_succOf g k n).mpr hkn) hnP]
  push_cast
  ring

theorem specCount_snoc_not_mem (g : NxDiGraph) (P : List Name) (n k : Name)
    (hkn : (k, n) ∉ g.edges) :
    specCount g (P ++ [n]) k = specCount g P k := by
  unfold specCount
  rw [filter_mem_snoc_of_not_mem (g.succOf k) P n
    (fun hc => hkn ((mem_succOf g k n).mp hc))]

theorem specCount_pos (g : NxDiGraph) (P : List Name) (k : Name)
    (hw : ∃ w ∈ g.succOf k, w ∉ P) : 0 < specCount g P k := by
  obtain ⟨w, hwm, hwP⟩ := hw
  have hlt : ((g.succOf k).filter (fun w => decide (w ∈ P))).length <
      (g.succOf k).length :=
    List.length_filter_lt_length_iff_exists.mpr ⟨w, hwm, by simpa using hwP⟩
  rw [succOf_length] at hlt
  unfold specCount
  omega

theorem specCount_eq_zero (g : NxDiGraph) (P : List Name) (k : Name)
    (hall : ∀ w ∈ g.succOf k, w ∈ P) : specCount g P k = 0 := by
  have hlen : ((g.succOf k).filter (fun w => decide (w ∈ P))).length =
      (g.succOf k).length :=
    List.filter_length_eq_length.mpr (fun a ha => by simpa using hall a ha)
  rw [succOf_length] at hlen
  unfold specCount
  omega

theorem mem_ancestorsOf (g : NxDiGraph) (o x : Name) :
    x ∈ ancestorsOf g o ↔ x ∈ reachBwd g o ∧ x ≠ o := by
  unfold ancestorsOf
  simp [List.mem_filter]

theorem mem_ancestorSet (c : Composer) (os : List Name) (x : Name) :
    x ∈ c.ancestorSet os ↔ x ∈ os ∨ ∃ o ∈ os, x ∈ ancestorsOf c.dag o := by
  unfold Composer.ancestorSet
  simp [List.mem_append, List.mem_flatMap]

theorem ancestorSet_closed (c : Composer) (os : List Name) (p n : Name)
    (hn : n ∈ c.ancestorSet os) (he : (p, n) ∈ c.dag.edges) :
    p ∈ c.ancestorSet os := by
  rw [mem_ancestorSet] at hn ⊢
  rcases hn with hos | ⟨o, ho, hanc⟩
  · by_cases hpe : p = n
    · exact Or.inl (hpe ▸ hos)
    · exact Or.inr ⟨n, hos, (mem_ancestorsOf _ _ _).mpr
        ⟨reachBwd_closed c.dag n (p, n) he (reachBwd_self c.dag n), hpe⟩⟩
  · rw [mem_ancestorsOf] at hanc
    have hp : p ∈ reachBwd c.dag o := reachBwd_closed c.dag o (p, n) he hanc.1
    by_cases hpo : p = o
    · exact Or.inl (hpo ▸ ho)
    · exact Or.inr ⟨o, ho, (mem_ancestorsOf _ _ _).mpr ⟨hp, hpo⟩⟩

theorem mem_dag_edges_pair (c : Composer) (p n : Name) :
    (p, n) ∈ c.dag.edges ↔ ∃ pr ∈ c.resolvePredecessors n, pr.2 = p := by
  rw [mem_dag_edges]
  constructor
  · rintro ⟨kv, hkv, h2, pr, hpr, hp⟩
    simp only at h2 hp
    rw [← h2] at hpr
    exact ⟨pr, hpr, hp⟩
  · rintro ⟨pr, hpr, hp⟩
    cases hf : dget? c.functions n with
    | none =>
      rw [Composer.resolvePredecessors, hf] at hpr
      exact absurd hpr (List.not_mem_nil pr)
    | some fn =>
      exact ⟨(n, fn), mem_of_dget?_eq_some c.functions n fn hf, rfl, pr, hpr, hp⟩

theorem ancestorDag_pred_edges (c : Composer) (os : List Name) (n : Name)
    (hn : n ∈ (c.ancestorDag os).nodes) :
    ∀ p, (p, n) ∈ (c.ancestorDag os).edges ↔
      p ∈ (c.resolvePredecessors n).map (fun pr => pr.2) := by
  intro p
  have hn2 := (mem_subgraphOf_nodes c.dag (c.ancestorSet os) n).mp hn
  constructor
  · intro h
    have h2 := (mem_subgraphOf_edges c.dag (c.ancestorSet os) (p, n)).mp h
    obtain ⟨pr, hpr, hp⟩ := (mem_dag_edges_pair c p n).mp h2.1
    exact List.mem_map.mpr ⟨pr, hpr, hp⟩
  · intro h
    obtain ⟨pr, hpr, hp⟩ := List.mem_map.mp h
    have hdag : (p, n) ∈ c.dag.edges := (mem_dag_edges_pair c p n).mpr ⟨pr, hpr, hp⟩
    exact (mem_subgraphOf_edges c.dag (c.ancestorSet os) (p, n)).mpr
      ⟨hdag, ancestorSet_closed c os p n hn2.2 hdag, hn2.2⟩

theorem ancestorDag_sink_mem (c : Composer) (os : List Name) (n : Name)
    (hn : n ∈ (c.ancestorDag os).nodes)
    (hs : (c.ancestorDag os).succOf n = []) : n ∈ os := by
  have hn2 := (mem_subgraphOf_nodes c.dag (c.ancestorSet os) n).mp hn
  rcases (mem_ancestorSet c os n).mp hn2.2 with hos | ⟨o, ho, hanc⟩
  · exact hos
  · exfalso
    rw [mem_ancestorsOf] at hanc
    rcases reachBwd_origin c.dag o n hanc.1 with heq | ⟨e, he, he1, he2⟩
    · exact hanc.2 heq
    · obtain ⟨e1, e2⟩ := e
      simp only at he1 he2
      rw [he1] at he
      have hse : e2 ∈ c.ancestorSet os := by
        rw [mem_ancestorSet]
        by_cases heo : e2 = o
        · exact Or.inl (heo ▸ ho)
        · exact Or.inr ⟨o, ho, (mem_ancestorsOf _ _ _).mpr ⟨he2, heo⟩⟩
      have hedge : (n, e2) ∈ (c.ancestorDag os).edges :=
        (mem_subgraphOf_edges c.dag (c.ancestorSet os) (n, e2)).mpr
          ⟨he, hn2.2, hse⟩
      have hsucc : e2 ∈ (c.ancestorDag os).succOf n :=
        (mem_succOf _ _ _).mpr hedge
      rw [hs] at hsucc
      exact List.not_mem_nil _ hsucc

theorem kahn_head_fresh (g : NxDiGraph) (hWF : g.WF) (P : List Name)
    (n : Name) (l2 : List Name) (hsplit : kahnList g = P ++ n :: l2) :
    n ∉ P := by
  have hnd := (kahnList_props g hWF).2.1
  rw [hsplit, List.nodup_append] at hnd
  exact fun hc => hnd.2.2 hc (List.mem_cons_self _ _)

theorem kahn_edge_from (g : NxDiGraph) (hWF : g.WF) (P : List Name)
    (n : Name) (l2 : List Name) (hsplit : kahnList g = P ++ n :: l2) :
    ∀ w, (n, w) ∈ g.edges → w ∉ P ∧ w ≠ n := by
  have hsound := (kahnList_props g hWF).2.2
  have hnP : n ∉ P := kahn_head_fresh g hWF P n l2 hsplit
  intro w hw
  have hwn : w ≠ n := by
    intro heq
    exact hnP (hsound (n, w) hw P n l2 hsplit heq)
  refine ⟨?_, hwn⟩
  intro hc
  obtain ⟨p1, p2, hP⟩ := List.append_of_mem hc
  have hsplit2 : kahnList g = p1 ++ w :: (p2 ++ n :: l2) := by
    rw [hsplit, hP]
    simp
  have hn1 : n ∈ p1 := hsound (n, w) hw p1 w _ hsplit2 rfl
  exact hnP (by
    rw [hP]
    exact List.mem_append_left _ hn1)

/-- Either body of a successful executor step only (possibly) inserts the
processed node into the results, and the eviction block always acts on the
counter by predecessor subtraction, then removal of the ready keys from
both dicts. -/
theorem execStep_ok_shape (c : Composer) (os : List Name) (st : ExecState)
    (n : Name) (instr : NodeInstruction) (st' : ExecState)
    (hstep : execStep c os st (n, instr) = Except.ok st') :
    ∃ rmid,
      (rmid = st.results ∨ ∃ v, rmid = dinsert st.results n v) ∧
      st'.results =
        (((counterSub st.counts ((c.resolvePredecessors n).map (fun pr => pr.2))).filter
          (fun kv => decide (kv.2 = 0) && decide (kv.1 ∉ os))).map (fun kv => kv.1)).foldl
            (fun r k => dremove r k) rmid ∧
      st'.counts =
        (((counterSub st.counts ((c.resolvePredecessors n).map (fun pr => pr.2))).filter
          (fun kv => decide (kv.2 = 0) && decide (kv.1 ∉ os))).map (fun kv => kv.1)).foldl
            (fun cnt k => dremove cnt k)
          (counterSub st.counts ((c.resolvePredecessors n).map (fun pr => pr.2))) := by
  unfold execStep at hstep
  dsimp only at hstep
  cases instr with
  | IGNORE =>
    injection hstep with h
    rw [← h]
    exact ⟨st.results, Or.inl rfl, rfl, rfl⟩
  | RETRIEVE =>
    cases hcg : cacheGet c st.cache n with
    | error e =>
      rw [hcg] at hstep
      exact Except.noConfusion hstep
    | ok v =>
      rw [hcg] at hstep
      injection hstep with h
      rw [← h]
      exact ⟨dinsert st.results n v, Or.inr ⟨v, rfl⟩, rfl, rfl⟩
  | CALCULATE =>
    cases hf : dget? c.functions n with
    | none =>
      rw [hf] at hstep
      exact Except.noConfusion hstep
    | some fn =>
      rw [hf] at hstep
      dsimp only at hstep
      cases hb : buildPredResults st.results (c.resolvePredecessors n) with
      | error e =>
        rw [hb] at hstep
        exact Except.noConfusion hstep
      | ok predResults =>
        rw [hb] at hstep
        dsimp only at hstep
        cases hco : coalesceArguments fn predResults with
        | error e =>
          rw [hco] at hstep
          exact Except.noConfusion hstep
        | ok quad =>
          obtain ⟨pos, args, kw, kwargs⟩ := quad
          rw [hco] at hstep
          dsimp only at hstep
          cases hi : fn.impl pos args kw kwargs with
          | error e =>
            rw [hi] at hstep
            exact Except.noConfusion hstep
          | ok result =>
            rw [hi] at hstep
            injection hstep with h
            rw [← h]
            exact ⟨dinsert st.results n result, Or.inr ⟨result, rfl⟩, rfl, rfl⟩

/-- One successful executor step preserves the loop invariant, advancing
the processed prefix by the step's node. -/
theorem execStep_WInv (c : Composer) (os : List Name) (g : NxDiGraph)
    (hWF : g.WF) (P l2 : List Name) (n : Name) (instr : NodeInstruction)
    (st st1 : ExecState)
    (hsplit : kahnList g = P ++ n :: l2)
    (hinv : WInv g os P st)
    (hpe : ∀ p, (p, n) ∈ g.edges ↔
      p ∈ (c.resolvePredecessors n).map (fun pr => pr.2))
    (hpn : ((c.resolvePredecessors n).map (fun pr => pr.2)).Nodup)
    (hsink : g.succOf n = [] → n ∈ os)
    (hstep : execStep c os st (n, instr) = Except.ok st1) :
    WInv g os (P ++ [n]) st1 := by
  obtain ⟨rmid, hrmid, hres, hcnt⟩ := execStep_ok_shape c os st n instr st1 hstep
  have hnP : n ∉ P := kahn_head_fresh g hWF P n l2 hsplit
  have hout : ∀ w, (n, w) ∈ g.edges → w ∉ P ∧ w ≠ n :=
    kahn_edge_from g hWF P n l2 hsplit
  have hnpred : n ∉ (c.resolvePredecessors n).map (fun pr => pr.2) := by
    intro hc
    exact (hout n ((hpe n).mpr hc)).2 rfl
  have hhit : ∀ p ∈ (c.resolvePredecessors n).map (fun pr => pr.2),
      (dget? st.counts p).isSome = true := by
    intro p hp
    have hedge : (p, n) ∈ g.edges := (hpe p).mpr hp
    have hsucc : n ∈ g.succOf p := (mem_succOf g p n).mpr hedge
    have : dget? st.counts p = some (specCount g P p) := by
      rw [hinv.counts_char p,
        if_pos ⟨outDegree_pos_of_succ g p n hsucc, Or.inr ⟨n, hsucc, hnP⟩⟩]
    rw [this]
    rfl
  have hc1 : ∀ k,
      dget? (counterSub st.counts ((c.resolvePredecessors n).map (fun pr => pr.2))) k =
      if k ∈ (c.resolvePredecessors n).map (fun pr => pr.2)
      then (dget? st.counts k).map (fun v => v - 1) else dget? st.counts k :=
    fun k => dget?_counterSub _ st.counts k hhit hpn
  have hc1nd : (dkeys (counterSub st.counts
      ((c.resolvePredecessors n).map (fun pr => pr.2)))).Nodup := by
    rw [dkeys_counterSub_of_hit _ st.counts hhit]
    exact hinv.counts_nodup
  have hready : ∀ k,
      (k ∈ ((counterSub st.counts ((c.resolvePredecessors n).map (fun pr => pr.2))).filter
        (fun kv => decide (kv.2 = 0) && decide (kv.1 ∉ os))).map (fun kv => kv.1)) ↔
      (dget? (counterSub st.counts ((c.resolvePredecessors n).map (fun pr => pr.2))) k =
        some 0 ∧ k ∉ os) := by
    intro k
    rw [mem_filter_map_fst _ _ k hc1nd]
    constructor
    · rintro ⟨v, hv, hp⟩
      simp only [Bool.and_eq_true, decide_eq_true_eq] at hp
      refine ⟨?_, hp.2⟩
      rw [hv]
      exact congrArg some hp.1
    · rintro ⟨hv, hos⟩
      refine ⟨0, hv, ?_⟩
      simp only [Bool.and_eq_true, decide_eq_true_eq]
      exact ⟨by simp, hos⟩
  have hrmidnd : (dkeys rmid).Nodup := by
    rcases hrmid with h | ⟨v, h⟩
    · rw [h]
      exact hinv.results_nodup
    · rw [h]
      exact dkeys_dinsert_nodup st.results n v hinv.results_nodup
  have hfc : ∀ k, dget? st1.counts k =
      if (dget? (counterSub st.counts ((c.resolvePredecessors n).map (fun pr => pr.2))) k =
        some 0 ∧ k ∉ os)
      then none
      else dget? (counterSub st.counts ((c.resolvePredecessors n).map (fun pr => pr.2))) k := by
    intro k
    rw [hcnt, dget?_foldl_dremove _ _ k hc1nd]
    by_cases hkr : (dget? (counterSub st.counts
        ((c.resolvePredecessors n).map (fun pr => pr.2))) k = some 0 ∧ k ∉ os)
    · rw [if_pos ((hready k).mpr hkr), if_pos hkr]
    · rw [if_neg (fun hc => hkr ((hready k).mp hc)), if_neg hkr]
  have hfr : ∀ k, dget? st1.results k =
      if (dget? (counterSub st.counts ((c.resolvePredecessors n).map (fun pr => pr.2))) k =
        some 0 ∧ k ∉ os)
      then none
      else dget? rmid k := by
    intro k
    rw [hres, dget?_foldl_dremove _ _ k hrmidnd]
    by_cases hkr : (dget? (counterSub st.counts
        ((c.resolvePredecessors n).map (fun pr => pr.2))) k = some 0 ∧ k ∉ os)
    · rw [if_pos ((hready k).mpr hkr), if_pos hkr]
    · rw [if_neg (fun hc => hkr ((hready k).mp hc)), if_neg hkr]
  refine ⟨?_, ?_, ?_, ?_⟩
  · -- counts_char at P ++ [n]
    intro k
    rw [hfc k]
    by_cases hkpred : k ∈ (c.resolvePredecessors n).map (fun pr => pr.2)
    · have hedge : (k, n) ∈ g.edges := (hpe k).mpr hkpred
      have hsucc : n ∈ g.succOf k := (mem_succOf g k n).mpr hedge
      have hD : 0 < g.outDegreeOf k := outDegree_pos_of_succ g k n hsucc
      have hold : dget? st.counts k = some (specCount g P k) := by
        rw [hinv.counts_char k, if_pos ⟨hD, Or.inr ⟨n, hsucc, hnP⟩⟩]
      have hcc1 : dget? (counterSub st.counts
          ((c.resolvePredecessors n).map (fun pr => pr.2))) k =
          some (specCount g P k - 1) := by
        rw [hc1 k, if_pos hkpred, hold]
        rfl
      have hspec : specCount g (P ++ [n]) k = specCount g P k - 1 :=
        specCount_snoc_mem g P n k hWF.edgesNodup hedge hnP
      by_cases hcond : k ∈ os ∨ ∃ w ∈ g.succOf k, w ∉ P ++ [n]
      · have hnotr : ¬ (dget? (counterSub st.counts
            ((c.resolvePredecessors n).map (fun pr => pr.2))) k = some 0 ∧ k ∉ os) := by
          rintro ⟨h0, hkos⟩
          rw [hcc1] at h0
          injection h0 with h0
          rcases hcond with hos | hex
          · exact hkos hos
          · have hpos := specCount_pos g (P ++ [n]) k hex
            rw [hspec] at hpos
            omega
        rw [if_neg hnotr, hcc1, if_pos ⟨hD, hcond⟩, hspec]
      · have hall : ∀ w ∈ g.succOf k, w ∈ P ++ [n] := by
          intro w hw
          by_contra hnw
          exact hcond (Or.inr ⟨w, hw, hnw⟩)
        have hkos : k ∉ os := fun hos => hcond (Or.inl hos)
        have h0 : specCount g (P ++ [n]) k = 0 := specCount_eq_zero g _ k hall
        have hkr : (dget? (counterSub st.counts
            ((c.resolvePredecessors n).map (fun pr => pr.2))) k = some 0 ∧ k ∉ os) := by
          refine ⟨?_, hkos⟩
          rw [hcc1, ← hspec, h0]
        rw [if_pos hkr, if_neg (fun hpair => hcond hpair.2)]
    · by_cases hkn : k = n
      · subst hkn
        have hsuccP : ∀ w ∈ g.succOf k, w ∉ P ∧ w ≠ k := by
          intro w hw
          exact hout w ((mem_succOf g k w).mp hw)
        have hcc1 : dget? (counterSub st.counts
            ((c.resolvePredecessors k).map (fun pr => pr.2))) k =
            dget? st.counts k := by
          rw [hc1 k, if_neg hkpred]
        have hfilP : (g.succOf k).filter (fun w => decide (w ∈ P)) = [] := by
          rw [List.filter_eq_nil_iff]
          intro w hw
          simpa using (hsuccP w hw).1
        have hfilP2 : (g.succOf k).filter (fun w => decide (w ∈ P ++ [k])) = [] := by
          rw [List.filter_eq_nil_iff]
          intro w hw
          have h2 := hsuccP w hw
          simp [List.mem_append, h2.1, h2.2]
        have hspecP : specCount g P k = (g.outDegreeOf k : Int) := by
          unfold specCount
          rw [hfilP]
          simp
        have hspecP2 : specCount g (P ++ [k]) k = (g.outDegreeOf k : Int) := by
          unfold specCount
          rw [hfilP2]
          simp
        by_cases hD : 0 < g.outDegreeOf k
        · have hne : g.succOf k ≠ [] := by
            rw [← succOf_length] at hD
            exact List.ne_nil_of_length_pos hD
          obtain ⟨w, hw⟩ := List.exists_mem_of_ne_nil _ hne
          have hex : ∃ w ∈ g.succOf k, w ∉ P ++ [k] := by
            refine ⟨w, hw, ?_⟩
            have h2 := hsuccP w hw
            simp [List.mem_append, h2.1, h2.2]
          have hold : dget? st.counts k = some (specCount g P k) := by
            rw [hinv.counts_char k,
              if_pos ⟨hD, Or.inr ⟨w, hw, (hsuccP w hw).1⟩⟩]
          have hnotr : ¬ (dget? (counterSub st.counts
              ((c.resolvePredecessors k).map (fun pr => pr.2))) k = some 0 ∧ k ∉ os) := by
            rintro ⟨h0, _⟩
            rw [hcc1, hold, hspecP] at h0
            injection h0 with h0
            omega
          rw [if_neg hnotr, hcc1, hold, if_pos ⟨hD, Or.inr hex⟩, hspecP, hspecP2]
        · have hold : dget? st.counts k = none := by
            rw [hinv.counts_char k, if_neg (fun hpair => hD hpair.1)]
          have hnotr : ¬ (dget? (counterSub st.counts
              ((c.resolvePredecessors k).map (fun pr => pr.2))) k = some 0 ∧ k ∉ os) := by
            rintro ⟨h0, _⟩
            rw [hcc1, hold] at h0
            exact Option.noConfusion h0
          rw [if_neg hnotr, hcc1, hold, if_neg (fun hpair => hD hpair.1)]
      · have hnedge : (k, n) ∉ g.edges := fun hc => hkpred ((hpe k).mp hc)
        have hnsucc : n ∉ g.succOf k := fun hc => hnedge ((mem_succOf g k n).mp hc)
        have hspec : specCount g (P ++ [n]) k = specCount g P k :=
          specCount_snoc_not_mem g P n k hnedge
        have hcondiff : (∃ w ∈ g.succOf k, w ∉ P ++ [n]) ↔
            (∃ w ∈ g.succOf k, w ∉ P) := by
          constructor
          · rintro ⟨w, hw, hnw⟩
            exact ⟨w, hw, fun hp => hnw (List.mem_append_left _ hp)⟩
          · rintro ⟨w, hw, hnw⟩
            refine ⟨w, hw, ?_⟩
            have hwn : w ≠ n := fun h => hnsucc (h ▸ hw)
            simp [List.mem_append, hnw, hwn]
        have hcc1 : dget? (counterSub st.counts
            ((c.resolvePredecessors n).map (fun pr => pr.2))) k =
            dget? st.counts k := by
          rw [hc1 k, if_neg hkpred]
        by_cases hcond : 0 < g.outDegreeOf k ∧ (k ∈ os ∨ ∃ w ∈ g.succOf k, w ∉ P)
        · have hold : dget? st.counts k = some (specCount g P k) := by
            rw [hinv.counts_char k, if_pos hcond]
          have hnotr : ¬ (dget? (counterSub st.counts
              ((c.resolvePredecessors n).map (fun pr => pr.2))) k = some 0 ∧ k ∉ os) := by
            rintro ⟨h0, hkos⟩
            rw [hcc1, hold] at h0
            injection h0 with h0
            rcases hcond.2 with hos | hex
            · exact hkos hos
            · have hpos := specCount_pos g P k hex
              omega
          have hcond2 : 0 < g.outDegreeOf k ∧
              (k ∈ os ∨ ∃ w ∈ g.succOf k, w ∉ P ++ [n]) := by
            refine ⟨hcond.1, ?_⟩
            rcases hcond.2 with hos | hex
            · exact Or.inl hos
            · exact Or.inr (hcondiff.mpr hex)
          rw [if_neg hnotr, hcc1, hold, if_pos hcond2, hspec]
        · have hold : dget? st.counts k = none := by
            rw [hinv.counts_char k, if_neg hcond]
          have hnotr : ¬ (dget? (counterSub st.counts
              ((c.resolvePredecessors n).map (fun pr => pr.2))) k = some 0 ∧ k ∉ os) := by
            rintro ⟨h0, _⟩
            rw [hcc1, hold] at h0
            exact Option.noConfusion h0
          have hcond2 : ¬ (0 < g.outDegreeOf k ∧
              (k ∈ os ∨ ∃ w ∈ g.succOf k, w ∉ P ++ [n])) := by
            rintro ⟨hD, hor⟩
            apply hcond
            refine ⟨hD, ?_⟩
            rcases hor with hos | hex
            · exact Or.inl hos
            · exact Or.inr (hcondiff.mp hex)
          rw [if_neg hnotr, hcc1, hold, if_neg hcond2]
  · rw [hcnt]
    exact keys_foldl_dremove_nodup _ _ hc1nd
  · rw [hres]
    exact keys_foldl_dremove_nodup _ _ hrmidnd
  · -- results_live at P ++ [n]
    intro k hk
    rw [hfr k] at hk
    by_cases hkr : (dget? (counterSub st.counts
        ((c.resolvePredecessors n).map (fun pr => pr.2))) k = some 0 ∧ k ∉ os)
    · rw [if_pos hkr] at hk
      exact Bool.noConfusion hk
    · rw [if_neg hkr] at hk
      by_contra hcon
      have hkos : k ∉ os := fun hos => hcon (Or.inl hos)
      have hall : ∀ w ∈ g.succOf k, w ∈ P ++ [n] := by
        intro w hw
        by_contra hnw
        exact hcon (Or.inr ⟨w, hw, hnw⟩)
      by_cases hkn : k = n
      · subst hkn
        have hempty : g.succOf k = [] := by
          rw [List.eq_nil_iff_forall_not_mem]
          intro w hw
          have h2 := hout w ((mem_succOf g k w).mp hw)
          have h3 := hall w hw
          rcases List.mem_append.mp h3 with h | h
          · exact h2.1 h
          · exact h2.2 (List.mem_singleton.mp h)
        exact hkos (hsink hempty)
      · have hmid : dget? rmid k = dget? st.results k := by
          rcases hrmid with h | ⟨v, h⟩
          · rw [h]
          · rw [h, dget?_dinsert_other st.results n k v (fun e => hkn e.symm)]
        rw [hmid] at hk
        rcases hinv.results_live k hk with hos | ⟨w, hw, hwP⟩
        · exact hkos hos
        · have hwn : w = n := by
            have h3 := hall w hw
            rcases List.mem_append.mp h3 with h | h
            · exact absurd h hwP
            · exact List.mem_singleton.mp h
          subst hwn
          have hkpred : k ∈ (c.resolvePredecessors w).map (fun pr => pr.2) :=
            (hpe k).mp ((mem_succOf g k w).mp hw)
          have hedge : (k, w) ∈ g.edges := (mem_succOf g k w).mp hw
          have hD : 0 < g.outDegreeOf k := outDegree_pos_of_succ g k w hw
          have hold : dget? st.counts k = some (specCount g P k) := by
            rw [hinv.counts_char k, if_pos ⟨hD, Or.inr ⟨w, hw, hwP⟩⟩]
          apply hkr
          refine ⟨?_, hkos⟩
          rw [hc1 k, if_pos hkpred, hold]
          have h0 : specCount g (P ++ [w]) k = 0 := specCount_eq_zero g _ k hall
          have hspec : specCount g (P ++ [w]) k = specCount g P k - 1 :=
            specCount_snoc_mem g P w k hWF.edgesNodup hedge hwP
          show some (specCount g P k - 1) = some 0
          rw [← hspec, h0]

/-- The invariant holds for the executor's initial state. -/
theorem WInv_init (g : NxDiGraph) (os : List Name) (s1 : CacheState) :
    WInv g os [] { results := [], counts := counterInit g.edges, cache := s1 } := by
  refine ⟨?_, counterInit_keys_nodup g.edges, List.nodup_nil, ?_⟩
  · intro k
    show dget? (counterInit g.edges) k = _
    rw [dget?_counterInit g.edges k]
    have houtdeg : (g.edges.filter (fun e => decide (e.1 = k))).length =
        g.outDegreeOf k := rfl
    by_cases hD : 0 < g.outDegreeOf k
    · rw [if_pos (by rw [houtdeg]; exact hD)]
      have hne : g.succOf k ≠ [] := by
        rw [← succOf_length] at hD
        exact List.ne_nil_of_length_pos hD
      obtain ⟨w, hw⟩ := List.exists_mem_of_ne_nil _ hne
      rw [if_pos ⟨hD, Or.inr ⟨w, hw, List.not_mem_nil w⟩⟩, specCount_nil,
        houtdeg]
    · rw [if_neg (by rw [houtdeg]; exact hD),
        if_neg (fun hpair => hD hpair.1)]
  · intro k hk
    simp [dget?] at hk

/-- The memory-liveness consequence of the invariant at one state. -/
theorem WInv_live (g : NxDiGraph) (os : List Name) (P : List Name)
    (st : ExecState) (hinv : WInv g os P st) :
    ∀ k, (dget? st.results k).isSome = true →
      k ∈ os ∨ ∃ v : Int, dget? st.counts k = some v ∧ 0 < v := by
  intro k hk
  rcases hinv.results_live k hk with hos | hex
  · exact Or.inl hos
  · right
    obtain ⟨w, hw, hwP⟩ := hex
    refine ⟨specCount g P k, ?_, specCount_pos g P k ⟨w, hw, hwP⟩⟩
    rw [hinv.counts_char k,
      if_pos ⟨outDegree_pos_of_succ g k w hw, Or.inr ⟨w, hw, hwP⟩⟩]

/-- Every state on the executor trace satisfies the invariant at some
processed prefix of the topological order. -/
theorem execTrace_WInv (c : Composer) (os : List Name) (g : NxDiGraph)
    (hWF : g.WF)
    (hpe : ∀ n ∈ kahnList g, ∀ p, (p, n) ∈ g.edges ↔
      p ∈ (c.resolvePredecessors n).map (fun pr => pr.2))
    (hpn : ∀ n ∈ kahnList g,
      ((c.resolvePredecessors n).map (fun pr => pr.2)).Nodup)
    (hsink : ∀ n ∈ kahnList g, g.succOf n = [] → n ∈ os) :
    ∀ (instrs : List (Name × NodeInstruction)) (P : List Name) (st : ExecState),
      kahnList g = P ++ instrs.map (fun ni => ni.1) →
      WInv g os P st →
      ∀ st' ∈ execTraceStates c os st instrs,
        ∃ P', WInv g os P' st' := by
  intro instrs
  induction instrs with
  | nil =>
    intro P st _ _ st' hst'
    simp [execTraceStates] at hst'
  | cons ni rest ih =>
    intro P st hsplit hinv st' hst'
    obtain ⟨node, instr⟩ := ni
    simp only [execTraceStates] at hst'
    simp only [List.map_cons] at hsplit
    have hnode_mem : node ∈ kahnList g := by
      rw [hsplit]
      exact List.mem_append_right _ (List.mem_cons_self _ _)
    cases hstep : execStep c os st (node, instr) with
    | error e =>
      rw [hstep] at hst'
      simp at hst'
    | ok st1 =>
      rw [hstep] at hst'
      dsimp only at hst'
      have hinv1 : WInv g os (P ++ [node]) st1 :=
        execStep_WInv c os g hWF P (rest.map (fun ni => ni.1)) node instr st st1
          hsplit hinv (hpe node hnode_mem) (hpn node hnode_mem)
          (hsink node hnode_mem) hstep
      rcases List.mem_cons.mp hst' with rfl | htail
      · exact ⟨P ++ [node], hinv1⟩
      · exact ih (P ++ [node]) st1 (by rw [hsplit]; simp) hinv1 st' htail

/-- C5, counterexample.  In `cexC5` the parameters `b` and `a__b` of
`a__f` both resolve to `a__b`, so processing `a__f` decrements the
remaining-use counter of `a__b` twice: after that step `a__b` is still
held in the live results although it is not an output and its count is
`-1` (not strictly positive) — the eviction test `count == 0` never
fires for it. -/
theorem C5_counterexample :
    ((calculateTrace cexC5 CacheState.null [nm "e", nm "d"]).get? 2).map
        (fun st => (dget? st.results (nm "a__b"), dget? st.counts (nm "a__b"))) =
      some (some (Value.vint 1), some (-1)) ∧
    (nm "a__b") ∉ [nm "e", nm "d"] := by
  exact ⟨by decide, by decide⟩

/-- C5, amended.  For every composer, cache state and output set, if no
node of the ancestor dag has two parameters resolving to the same
predecessor, then at every boundary between instruction steps of
`calculate` (`intermediates=false`) the live results mapping contains only
nodes whose remaining-use count is strictly positive or which are members
of the output set.  (Without the no-duplicate-predecessor hypothesis the
double decrement of `C5_counterexample` breaks the bound.) -/
theorem C5_memory_liveness (c : Composer) (s : CacheState) (os : List Name)
    (hnodup : ∀ n ∈ (c.ancestorDag os).nodes,
      ((c.resolvePredecessors n).map (fun pr => pr.2)).Nodup) :
    ∀ st ∈ calculateTrace c s os, ∀ k, (dget? st.results k).isSome = true →
      k ∈ os ∨ ∃ v : Int, dget? st.counts k = some v ∧ 0 < v := by
  intro st hst
  unfold calculateTrace at hst
  cases hchk : checksError c os with
  | some e =>
    rw [hchk] at hst
    exact absurd hst (List.not_mem_nil st)
  | none =>
    rw [hchk] at hst
    dsimp only at hst
    have hWF : (c.ancestorDag os).WF := ancestorDag_wf c os
    have hmem : ∀ n ∈ kahnList (c.ancestorDag os), n ∈ (c.ancestorDag os).nodes :=
      (kahnList_props _ hWF).1
    have hmap : (getExecutionInstructions c (maintainCacheConsistency c s)
        (c.ancestorDag os) os).map (fun ni => ni.1) = kahnList (c.ancestorDag os) := by
      unfold getExecutionInstructions
      dsimp only
      rw [List.map_map]
      generalize kahnList (c.ancestorDag os) = l
      induction l with
      | nil => rfl
      | cons x rest ih =>
        rw [List.map_cons, ih]
        rfl
    obtain ⟨P', hinv'⟩ := execTrace_WInv c os (c.ancestorDag os) hWF
      (fun n hn => ancestorDag_pred_edges c os n (hmem n hn))
      (fun n hn => hnodup n (hmem n hn))
      (fun n hn => ancestorDag_sink_mem c os n (hmem n hn))
      (getExecutionInstructions c (maintainCacheConsistency c s)
        (c.ancestorDag os) os)
      [] _ (by rw [hmap]; rfl)
      (WInv_init (c.ancestorDag os) os (maintainCacheConsistency c s))
      st hst
    exact WInv_live (c.ancestorDag os) os P' st hinv'

/-- C5, witness: the amended theorem applied to scenario S1 after its
first step, on the live node `a` (remaining-use count 2). -/
theorem C5_memory_liveness_witness :
    nm "a" ∈ [nm "c"] ∨ ∃ v : Int,
      dget? stC5w.counts (nm "a") = some v ∧ 0 < v :=
  C5_memory_liveness s1 CacheState.null [nm "c"] (by decide) stC5w
    (List.get?_mem
      (show (calculateTrace s1 CacheState.null [nm "c"]).get? 0 = some stC5w
        from by rfl))
    (nm "a") (by rfl)

theorem buildPredResults_go (preds : List (Name × Name))
    (results : List (Name × Value)) (env : Name → Value)
    (h : ∀ pr ∈ preds, dget? results pr.2 = some (env pr.2)) :
    ∀ d : List (Name × Value),
      preds.foldl
        (fun acc pr =>
          match acc with
          | Except.error e => Except.error e
          | Except.ok d =>
            match dget? results pr.2 with
            | some v => Except.ok (dinsert d pr.1 v)
            | none => Except.error "KeyError") (Except.ok d) =
      Except.ok (preds.foldl (fun d pr => dinsert d pr.1 (env pr.2)) d) := by
  induction preds with
  | nil => intro d; rfl
  | cons pr rest ih =>
    intro d
    rw [List.foldl_cons, List.foldl_cons]
    have hpr := h pr (List.mem_cons_self _ _)
    rw [hpr]
    exact ih (fun q hq => h q (List.mem_cons_of_mem _ hq)) (dinsert d pr.1 (env pr.2))

/-- When every predecessor's value is live in `results`, the executor's
dict comprehension equals the denotational environment assembly. -/
theorem buildPredResults_ok (results : List (Name × Value))
    (preds : List (Name × Name)) (env : Name → Value)
    (h : ∀ pr ∈ preds, dget? results pr.2 = some (env pr.2)) :
    buildPredResults results preds =
      Except.ok (preds.foldl (fun d pr => dinsert d pr.1 (env pr.2)) []) := by
  unfold buildPredResults
  exact buildPredResults_go preds results env h []

theorem foldl_dinsert_env_congr (env1 env2 : Name → Value) :
    ∀ (l : List (Name × Name)), (∀ pr ∈ l, env1 pr.2 = env2 pr.2) →
    ∀ d, l.foldl (fun d pr => dinsert d pr.1 (env1 pr.2)) d =
      l.foldl (fun d pr => dinsert d pr.1 (env2 pr.2)) d := by
  intro l
  induction l with
  | nil => intro _ d; rfl
  | cons pr rest ih =>
    intro hl d
    rw [List.foldl_cons, List.foldl_cons, hl pr (List.mem_cons_self _ _),
      ih (fun q hq => hl q (List.mem_cons_of_mem _ hq))]

/-- `nodeCall` only reads the environment at the resolved predecessors. -/
theorem nodeCall_env_congr (c : Composer) (env1 env2 : Name → Value)
    (n : Name) (h : ∀ pr ∈ c.resolvePredecessors n, env1 pr.2 = env2 pr.2) :
    nodeCall c env1 n = nodeCall c env2 n := by
  unfold nodeCall
  cases dget? c.functions n with
  | none => rfl
  | some fn =>
    rw [foldl_dinsert_env_congr env1 env2 (c.resolvePredecessors n) h []]

theorem nodeCall_ok_parts (c : Composer) (env : Name → Value) (n : Name)
    (fn : FuncDef) (hf : dget? c.functions n = some fn) (v : Value)
    (h : nodeCall c env n = Except.ok v) :
    ∃ pos args kw kwargs,
      coalesceArguments fn
        ((c.resolvePredecessors n).foldl
          (fun d pr => dinsert d pr.1 (env pr.2)) []) =
        Except.ok (pos, args, kw, kwargs) ∧
      fn.impl pos args kw kwargs = Except.ok v := by
  unfold nodeCall at h
  rw [hf] at h
  dsimp only at h
  cases hco : coalesceArguments fn
      ((c.resolvePredecessors n).foldl
        (fun d pr => dinsert d pr.1 (env pr.2)) []) with
  | error e =>
    rw [hco] at h
    exact Except.noConfusion h
  | ok quad =>
    obtain ⟨pos, args, kw, kwargs⟩ := quad
    rw [hco] at h
    exact ⟨pos, args, kw, kwargs, rfl, h⟩

/-- Writing one key into the cache backend does not change `get` at any
other key. -/
theorem cacheGet_cacheSet_other (c : Composer) (s : CacheState) (n : Name)
    (v : Value) (k : Name) (h : k ≠ n) :
    cacheGet c (cacheSet c s n v) k = cacheGet c s k := by
  cases s with
  | null => rfl
  | simple hp cache hashes =>
    simp only [cacheSet, cacheGet]
    rw [dget?_dinsert_other cache n k v (fun e => h e.symm)]

theorem getExecutionInstructions_eq (c : Composer) (s : CacheState)
    (g : NxDiGraph) (os : List Name) :
    getExecutionInstructions c s g os =
      (kahnList g).map (fun node => (node, planInstr c s g os node)) := rfl

theorem Vnode_valid (c : Composer) (s1 : CacheState) (g : NxDiGraph)
    (n : Name) (h : invalidPred c s1 g n = false) :
    Vnode c s1 g n = cacheVal c s1 n := by
  unfold Vnode
  simp [Vfuel, h]

theorem dget?_fold_dremove_some {α : Type} (ks : List Name)
    (l : List (Name × α)) (k : Name) (v : α) (hnd : (dkeys l).Nodup)
    (h : dget? (ks.foldl (fun d x => dremove d x) l) k = some v) :
    dget? l k = some v := by
  rw [dget?_foldl_dremove ks l k hnd] at h
  by_cases hk : k ∈ ks
  · rw [if_pos hk] at h
    exact Option.noConfusion h
  · rw [if_neg hk] at h
    exact h

theorem checksError_none_outputs (c : Composer) (os : List Name)
    (h : checksError c os = none) :
    ∀ o ∈ os, dcontains c.functions o = true := by
  unfold checksError at h
  cases hf : os.find? (fun name => !(dcontains c.functions name)) with
  | some x =>
    rw [hf] at h
    exact Option.noConfusion h
  | none =>
    intro o ho
    have h2 := List.find?_eq_none.mp hf o ho
    simpa using h2

/-- Common part of the rich-invariant preservation: given the step
produced an eviction state from a body that (at most) inserted the
denotational value of the processed node, the rich invariant advances. -/
theorem execStep_Rich_common (c : Composer) (os : List Name) (g : NxDiGraph)
    (s1 : CacheState) (hWF : g.WF) (P l2 : List Name) (n : Name)
    (st : ExecState) (rmid : List (Name × Value)) (cache1 : CacheState)
    (instr : NodeInstruction)
    (hsplit : kahnList g = P ++ n :: l2)
    (hrich : RichInv c os g s1 P st)
    (hpe : ∀ p, (p, n) ∈ g.edges ↔
      p ∈ (c.resolvePredecessors n).map (fun pr => pr.2))
    (hpn : ((c.resolvePredecessors n).map (fun pr => pr.2)).Nodup)
    (hsink : g.succOf n = [] → n ∈ os)
    (hstep : execStep c os st (n, instr) =
      Except.ok (evictState c os n rmid st.counts cache1))
    (hrmid : rmid = st.results ∨ rmid = dinsert st.results n (Vnode c s1 g n))
    (hrmidR : (invalidPred c s1 g n = true ∨
        (∃ e ∈ g.edges, e.1 = n ∧ invalidPred c s1 g e.2 = true) ∨ n ∈ os) →
      rmid = dinsert st.results n (Vnode c s1 g n))
    (hc1pres : ∀ k, invalidPred c s1 g k = false →
      cacheGet c cache1 k = cacheGet c s1 k) :
    RichInv c os g s1 (P ++ [n]) (evictState c os n rmid st.counts cache1) := by
  have hw : WInv g os (P ++ [n]) (evictState c os n rmid st.counts cache1) :=
    execStep_WInv c os g hWF P l2 n instr st _ hsplit hrich.w hpe hpn hsink hstep
  have hnP : n ∉ P := kahn_head_fresh g hWF P n l2 hsplit
  have hout : ∀ w, (n, w) ∈ g.edges → w ∉ P ∧ w ≠ n :=
    kahn_edge_from g hWF P n l2 hsplit
  have hnpred : n ∉ (c.resolvePredecessors n).map (fun pr => pr.2) := by
    intro hc
    exact (hout n ((hpe n).mpr hc)).2 rfl
  have hhit : ∀ p ∈ (c.resolvePredecessors n).map (fun pr => pr.2),
      (dget? st.counts p).isSome = true := by
    intro p hp
    have hedge : (p, n) ∈ g.edges := (hpe p).mpr hp
    have hsucc : n ∈ g.succOf p := (mem_succOf g p n).mpr hedge
    have h2 : dget? st.counts p = some (specCount g P p) := by
      rw [hrich.w.counts_char p,
        if_pos ⟨outDegree_pos_of_succ g p n hsucc, Or.inr ⟨n, hsucc, hnP⟩⟩]
    rw [h2]
    rfl
  have hc1 : ∀ k,
      dget? (counterSub st.counts ((c.resolvePredecessors n).map (fun pr => pr.2))) k =
      if k ∈ (c.resolvePredecessors n).map (fun pr => pr.2)
      then (dget? st.counts k).map (fun v => v - 1) else dget? st.counts k :=
    fun k => dget?_counterSub _ st.counts k hhit hpn
  have hc1nd : (dkeys (counterSub st.counts
      ((c.resolvePredecessors n).map (fun pr => pr.2)))).Nodup := by
    rw [dkeys_counterSub_of_hit _ st.counts hhit]
    exact hrich.w.counts_nodup
  have hready : ∀ k,
      (k ∈ ((counterSub st.counts ((c.resolvePredecessors n).map (fun pr => pr.2))).filter
        (fun kv => decide (kv.2 = 0) && decide (kv.1 ∉ os))).map (fun kv => kv.1)) ↔
      (dget? (counterSub st.counts ((c.resolvePredecessors n).map (fun pr => pr.2))) k =
        some 0 ∧ k ∉ os) := by
    intro k
    rw [mem_filter_map_fst _ _ k hc1nd]
    constructor
    · rintro ⟨v, hv, hp⟩
      simp only [Bool.and_eq_true, decide_eq_true_eq] at hp
      refine ⟨?_, hp.2⟩
      rw [hv]
      exact congrArg some hp.1
    · rintro ⟨hv, hos⟩
      refine ⟨0, hv, ?_⟩
      simp only [Bool.and_eq_true, decide_eq_true_eq]
      exact ⟨by simp, hos⟩
  have hrmidnd : (dkeys rmid).Nodup := by
    rcases hrmid with h | h
    · rw [h]
      exact hrich.w.results_nodup
    · rw [h]
      exact dkeys_dinsert_nodup st.results n _ hrich.w.results_nodup
  have hER : (evictState c os n rmid st.counts cache1).results =
      (((counterSub st.counts ((c.resolvePredecessors n).map (fun pr => pr.2))).filter
        (fun kv => decide (kv.2 = 0) && decide (kv.1 ∉ os))).map (fun kv => kv.1)).foldl
          (fun r k => dremove r k) rmid := rfl
  have hfr : ∀ k, dget? (evictState c os n rmid st.counts cache1).results k =
      if (dget? (counterSub st.counts ((c.resolvePredecessors n).map (fun pr => pr.2))) k =
        some 0 ∧ k ∉ os)
      then none
      else dget? rmid k := by
    intro k
    rw [hER, dget?_foldl_dremove _ _ k hrmidnd]
    by_cases hkr : (dget? (counterSub st.counts
        ((c.resolvePredecessors n).map (fun pr => pr.2))) k = some 0 ∧ k ∉ os)
    · rw [if_pos ((hready k).mpr hkr), if_pos hkr]
    · rw [if_neg (fun hc => hkr ((hready k).mp hc)), if_neg hkr]
  refine ⟨hw, ?_, ?_, ?_⟩
  · -- rvals
    intro k v hk
    rw [hER] at hk
    have hk2 : dget? rmid k = some v :=
      dget?_fold_dremove_some _ rmid k v hrmidnd hk
    rcases hrmid with h | h
    · rw [h] at hk2
      exact hrich.rvals k v hk2
    · rw [h] at hk2
      by_cases hkn : k = n
      · subst hkn
        rw [dget?_dinsert_self] at hk2
        injection hk2 with h2
        exact h2.symm
      · rw [dget?_dinsert_other st.results n k _ (fun e => hkn e.symm)] at hk2
        exact hrich.rvals k v hk2
  · -- rdom
    intro k hkP hret hcond
    rw [hfr k]
    rcases List.mem_append.mp hkP with hkP1 | hkn
    · -- k ∈ P (hence k ≠ n)
      have hknn : k ≠ n := fun heq => hnP (heq ▸ hkP1)
      have hcondP : k ∈ os ∨ ∃ w ∈ g.succOf k, w ∉ P := by
        rcases hcond with hos | ⟨w, hw, hwP⟩
        · exact Or.inl hos
        · exact Or.inr ⟨w, hw, fun hp => hwP (List.mem_append_left _ hp)⟩
      have hold : dget? st.results k = some (Vnode c s1 g k) :=
        hrich.rdom k hkP1 hret hcondP
      have hmid : dget? rmid k = some (Vnode c s1 g k) := by
        rcases hrmid with h | h
        · rw [h]
          exact hold
        · rw [h, dget?_dinsert_other st.results n k _ (fun e => hknn e.symm)]
          exact hold
      have hnotej : ¬ (dget? (counterSub st.counts
          ((c.resolvePredecessors n).map (fun pr => pr.2))) k = some 0 ∧ k ∉ os) := by
        rintro ⟨h0, hkos⟩
        rcases hcond with hos | ⟨w, hw, hwP2⟩
        · exact hkos hos
        · have hD : 0 < g.outDegreeOf k := outDegree_pos_of_succ g k w hw
          have holdc : dget? st.counts k = some (specCount g P k) := by
            rw [hrich.w.counts_char k,
              if_pos ⟨hD, Or.inr ⟨w, hw,
                fun hp => hwP2 (List.mem_append_left _ hp)⟩⟩]
          have hpos : 0 < specCount g (P ++ [n]) k :=
            specCount_pos g (P ++ [n]) k ⟨w, hw, hwP2⟩
          by_cases hkpred : k ∈ (c.resolvePredecessors n).map (fun pr => pr.2)
          · have hedge : (k, n) ∈ g.edges := (hpe k).mpr hkpred
            have hspec : specCount g (P ++ [n]) k = specCount g P k - 1 :=
              specCount_snoc_mem g P n k hWF.edgesNodup hedge hnP
            rw [hc1 k, if_pos hkpred, holdc] at h0
            injection h0 with h0
            dsimp only at h0
            omega
          · have hnedge : (k, n) ∉ g.edges := fun hc => hkpred ((hpe k).mp hc)
            have hspec : specCount g (P ++ [n]) k = specCount g P k :=
              specCount_snoc_not_mem g P n k hnedge
            rw [hc1 k, if_neg hkpred, holdc] at h0
            injection h0 with h0
            omega
      rw [if_neg hnotej]
      exact hmid
    · -- k = n
      have hkn2 : k = n := List.mem_singleton.mp hkn
      subst hkn2
      have hmid : dget? rmid k = some (Vnode c s1 g k) := by
        rw [hrmidR hret, dget?_dinsert_self]
      have hnotej : ¬ (dget? (counterSub st.counts
          ((c.resolvePredecessors k).map (fun pr => pr.2))) k = some 0 ∧ k ∉ os) := by
        rintro ⟨h0, _⟩
        rw [hc1 k, if_neg hnpred] at h0
        by_cases hD : 0 < g.outDegreeOf k
        · have hne : g.succOf k ≠ [] := by
            rw [← succOf_length] at hD
            exact List.ne_nil_of_length_pos hD
          obtain ⟨w, hw⟩ := List.exists_mem_of_ne_nil _ hne
          have hsw := hout w ((mem_succOf g k w).mp hw)
          have holdc : dget? st.counts k = some (specCount g P k) := by
            rw [hrich.w.counts_char k, if_pos ⟨hD, Or.inr ⟨w, hw, hsw.1⟩⟩]
          have hfilP : (g.succOf k).filter (fun w => decide (w ∈ P)) = [] := by
            rw [List.filter_eq_nil_iff]
            intro x hx
            simpa using (hout x ((mem_succOf g k x).mp hx)).1
          have hspecP : specCount g P k = (g.outDegreeOf k : Int) := by
            unfold specCount
            rw [hfilP]
            simp
          rw [holdc, hspecP] at h0
          injection h0 with h0
          omega
        · have holdc : dget? st.counts k = none := by
            rw [hrich.w.counts_char k, if_neg (fun hpair => hD hpair.1)]
          rw [holdc] at h0
          exact Option.noConfusion h0
      rw [if_neg hnotej]
      exact hmid
  · -- cpres
    intro k hkinv
    exact hc1pres k hkinv

/-- One step of the executor under the planner's instruction succeeds and
preserves the rich invariant. -/
theorem execStep_Rich (c : Composer) (os : List Name) (g : NxDiGraph)
    (s1 : CacheState) (hWF : g.WF) (P l2 : List Name) (n : Name)
    (st : ExecState)
    (hsplit : kahnList g = P ++ n :: l2)
    (hrich : RichInv c os g s1 P st)
    (hpe : ∀ p, (p, n) ∈ g.edges ↔
      p ∈ (c.resolvePredecessors n).map (fun pr => pr.2))
    (hpn : ((c.resolvePredecessors n).map (fun pr => pr.2)).Nodup)
    (hsink : g.succOf n = [] → n ∈ os)
    (hreg : dcontains c.functions n = true)
    (hcach : invalidPred c s1 g n = false →
      cacheGet c s1 n = Except.ok (cacheVal c s1 n))
    (himpl : invalidPred c s1 g n = true →
      nodeCall c (fun p => Vnode c s1 g p) n =
        Except.ok (Vnode c s1 g n)) :
    ∃ st1, execStep c os st (n, planInstr c s1 g os n) = Except.ok st1 ∧
      RichInv c os g s1 (P ++ [n]) st1 := by
  by_cases hiv : invalidPred c s1 g n = true
  · -- CALCULATE
    have hinstr : planInstr c s1 g os n = NodeInstruction.CALCULATE := by
      unfold planInstr
      rw [if_pos hiv]
    obtain ⟨fn, hf⟩ : ∃ fn, dget? c.functions n = some fn := by
      unfold dcontains at hreg
      exact Option.isSome_iff_exists.mp hreg
    have hnPl : n ∉ P := kahn_head_fresh g hWF P n l2 hsplit
    have hpredvals : ∀ pr ∈ c.resolvePredecessors n,
        dget? st.results pr.2 = some (Vnode c s1 g pr.2) := by
      intro pr hpr
      have hmem : pr.2 ∈ (c.resolvePredecessors n).map (fun q => q.2) :=
        List.mem_map.mpr ⟨pr, hpr, rfl⟩
      have hedge : (pr.2, n) ∈ g.edges := (hpe pr.2).mpr hmem
      have hsound := (kahnList_props g hWF).2.2 (pr.2, n) hedge P n l2 hsplit rfl
      exact hrich.rdom pr.2 hsound
        (Or.inr (Or.inl ⟨(pr.2, n), hedge, rfl, hiv⟩))
        (Or.inr ⟨n, (mem_succOf g pr.2 n).mpr hedge, hnPl⟩)
    have hbuild := buildPredResults_ok st.results (c.resolvePredecessors n)
      (fun p => Vnode c s1 g p) hpredvals
    obtain ⟨pos, args, kw, kwargs, hco, himplok⟩ :=
      nodeCall_ok_parts c (fun p => Vnode c s1 g p) n fn hf _ (himpl hiv)
    have hstep : execStep c os st (n, planInstr c s1 g os n) =
        Except.ok (evictState c os n (dinsert st.results n (Vnode c s1 g n))
          st.counts (cacheSet c st.cache n (Vnode c s1 g n))) := by
      rw [hinstr]
      unfold execStep
      dsimp only
      rw [hf]
      dsimp only
      rw [hbuild]
      dsimp only
      rw [hco]
      dsimp only
      rw [himplok]
      rfl
    refine ⟨_, hstep, ?_⟩
    rw [hinstr] at hstep
    refine execStep_Rich_common c os g s1 hWF P l2 n st _ _
      NodeInstruction.CALCULATE hsplit hrich hpe hpn hsink hstep
      (Or.inr rfl) (fun _ => rfl) ?_
    intro k hkinv
    have hkn : k ≠ n := by
      intro heq
      rw [heq, hiv] at hkinv
      exact Bool.noConfusion hkinv
    rw [cacheGet_cacheSet_other c st.cache n (Vnode c s1 g n) k hkn]
    exact hrich.cpres k hkinv
  · have hiv2 : invalidPred c s1 g n = false := by
      revert hiv
      cases invalidPred c s1 g n <;> simp
    by_cases hmust : ((decide (∃ e ∈ g.edges, e.1 = n ∧
        invalidPred c s1 g e.2 = true) ||
        decide (n ∈ os)) && !(invalidPred c s1 g n)) = true
    · -- RETRIEVE
      have hinstr : planInstr c s1 g os n = NodeInstruction.RETRIEVE := by
        unfold planInstr
        rw [if_neg (by rw [hiv2]; exact fun h => Bool.noConfusion h),
          if_pos hmust]
      have hv : cacheGet c st.cache n = Except.ok (Vnode c s1 g n) := by
        rw [hrich.cpres n hiv2, hcach hiv2, Vnode_valid c s1 g n hiv2]
      have hstep : execStep c os st (n, planInstr c s1 g os n) =
          Except.ok (evictState c os n (dinsert st.results n (Vnode c s1 g n))
            st.counts st.cache) := by
        rw [hinstr]
        unfold execStep
        dsimp only
        rw [hv]
        rfl
      refine ⟨_, hstep, ?_⟩
      rw [hinstr] at hstep
      exact execStep_Rich_common c os g s1 hWF P l2 n st _ _
        NodeInstruction.RETRIEVE hsplit hrich hpe hpn hsink hstep
        (Or.inr rfl) (fun _ => rfl) (fun k hk => hrich.cpres k hk)
    · -- IGNORE
      have hinstr : planInstr c s1 g os n = NodeInstruction.IGNORE := by
        unfold planInstr
        rw [if_neg (by rw [hiv2]; exact fun h => Bool.noConfusion h),
          if_neg hmust]
      have hstep : execStep c os st (n, planInstr c s1 g os n) =
          Except.ok (evictState c os n st.results st.counts st.cache) := by
        rw [hinstr]
        rfl
      refine ⟨_, hstep, ?_⟩
      rw [hinstr] at hstep
      refine execStep_Rich_common c os g s1 hWF P l2 n st _ _
        NodeInstruction.IGNORE hsplit hrich hpe hpn hsink hstep
        (Or.inl rfl) ?_ (fun k hk => hrich.cpres k hk)
      intro hret
      exfalso
      have hor : (decide (∃ e ∈ g.edges, e.1 = n ∧
          invalidPred c s1 g e.2 = true) || decide (n ∈ os)) = false := by
        revert hmust
        rw [hiv2]
        cases hdec : (decide (∃ e ∈ g.edges, e.1 = n ∧
            invalidPred c s1 g e.2 = true) || decide (n ∈ os)) <;> simp
      rw [Bool.or_eq_false_iff] at hor
      rcases hret with h | h | h
      · rw [h] at hiv2
        exact Bool.noConfusion hiv2
      · have := hor.1
        rw [decide_eq_false_iff_not] at this
        exact this h
      · have := hor.2
        rw [decide_eq_false_iff_not] at this
        exact this h

/-- The executor loop over the planner's instruction list never raises and
ends in a state satisfying the rich invariant for the whole order. -/
theorem execLoop_Rich (c : Composer) (os : List Name) (g : NxDiGraph)
    (s1 : CacheState) (hWF : g.WF)
    (hpe : ∀ n ∈ kahnList g, ∀ p, (p, n) ∈ g.edges ↔
      p ∈ (c.resolvePredecessors n).map (fun pr => pr.2))
    (hpn : ∀ n ∈ kahnList g,
      ((c.resolvePredecessors n).map (fun pr => pr.2)).Nodup)
    (hsink : ∀ n ∈ kahnList g, g.succOf n = [] → n ∈ os)
    (hreg : ∀ n ∈ kahnList g, dcontains c.functions n = true)
    (hcach : ∀ n ∈ kahnList g, invalidPred c s1 g n = false →
      cacheGet c s1 n = Except.ok (cacheVal c s1 n))
    (himpl : ∀ n ∈ kahnList g, invalidPred c s1 g n = true →
      nodeCall c (fun p => Vnode c s1 g p) n =
        Except.ok (Vnode c s1 g n)) :
    ∀ (rest P : List Name) (st : ExecState),
      kahnList g = P ++ rest → RichInv c os g s1 P st →
      ∃ stF, execLoop c os st
          (rest.map (fun node => (node, planInstr c s1 g os node))) =
          Except.ok stF ∧
        RichInv c os g s1 (kahnList g) stF := by
  intro rest
  induction rest with
  | nil =>
    intro P st hsplit hinv
    rw [List.append_nil] at hsplit
    refine ⟨st, rfl, ?_⟩
    rw [hsplit]
    exact hinv
  | cons node rest2 ih =>
    intro P st hsplit hinv
    have hmem : node ∈ kahnList g := by
      rw [hsplit]
      exact List.mem_append_right _ (List.mem_cons_self _ _)
    obtain ⟨st1, hstep, hinv1⟩ := execStep_Rich c os g s1 hWF P rest2 node st
      hsplit hinv (hpe node hmem) (hpn node hmem) (hsink node hmem)
      (hreg node hmem) (hcach node hmem) (himpl node hmem)
    obtain ⟨stF, hloop, hinvF⟩ := ih (P ++ [node]) st1
      (by rw [hsplit]; simp) hinv1
    refine ⟨stF, ?_, hinvF⟩
    rw [List.map_cons]
    simp only [execLoop]
    rw [hstep]
    exact hloop

/-- Master correctness of `calculate` with the source's default flags:
under the pipeline's side conditions the call succeeds and returns
exactly the denotational value of every requested output. -/
theorem calculate_spec (c : Composer) (s : CacheState) (os : List Name)
    (hchk : checksError c os = none)
    (hacyc : (kahnList (c.ancestorDag os)).length =
      (c.ancestorDag os).nodes.length)
    (hreg : ∀ n ∈ (c.ancestorDag os).nodes, dcontains c.functions n = true)
    (hpn : ∀ n ∈ (c.ancestorDag os).nodes,
      ((c.resolvePredecessors n).map (fun pr => pr.2)).Nodup)
    (hcach : ∀ n ∈ (c.ancestorDag os).nodes,
      invalidPred c (maintainCacheConsistency c s) (c.ancestorDag os) n = false →
      cacheGet c (maintainCacheConsistency c s) n =
        Except.ok (cacheVal c (maintainCacheConsistency c s) n))
    (himpl : ∀ n ∈ (c.ancestorDag os).nodes,
      invalidPred c (maintainCacheConsistency c s) (c.ancestorDag os) n = true →
      nodeCall c
          (fun p => Vnode c (maintainCacheConsistency c s) (c.ancestorDag os) p) n =
        Except.ok (Vnode c (maintainCacheConsistency c s) (c.ancestorDag os) n)) :
    ∃ r s2, calculate c s os true false = Except.ok (r, s2) ∧
      ∀ k, dget? r k =
        if k ∈ os
        then some (Vnode c (maintainCacheConsistency c s) (c.ancestorDag os) k)
        else none := by
  have hWF := ancestorDag_wf c os
  have hmem : ∀ n ∈ kahnList (c.ancestorDag os), n ∈ (c.ancestorDag os).nodes :=
    (kahnList_props _ hWF).1
  have hinit : RichInv c os (c.ancestorDag os) (maintainCacheConsistency c s) []
      { results := [], counts := counterInit (c.ancestorDag os).edges,
        cache := maintainCacheConsistency c s } := by
    refine ⟨WInv_init _ os _, ?_, ?_, ?_⟩
    · intro k v hk
      exact absurd hk (by simp [dget?])
    · intro k hk
      exact absurd hk (List.not_mem_nil k)
    · intro k _
      rfl
  obtain ⟨stF, hloop, hinvF⟩ := execLoop_Rich c os (c.ancestorDag os)
    (maintainCacheConsistency c s) hWF
    (fun n hn => ancestorDag_pred_edges c os n (hmem n hn))
    (fun n hn => hpn n (hmem n hn))
    (fun n hn => ancestorDag_sink_mem c os n (hmem n hn))
    (fun n hn => hreg n (hmem n hn))
    (fun n hn => hcach n (hmem n hn))
    (fun n hn => himpl n (hmem n hn))
    (kahnList (c.ancestorDag os)) [] _ rfl hinit
  have hcalc : calculate c s os true false =
      Except.ok (stF.results, stF.cache) := by
    unfold calculate
    simp only [calculateCollectExceptions, hchk]
    simp only [if_true, Bool.false_eq_true, if_false]
    rw [getExecutionInstructions_eq, hloop]
  refine ⟨stF.results, stF.cache, hcalc, ?_⟩
  intro k
  by_cases hk : k ∈ os
  · rw [if_pos hk]
    have hkfn : dcontains c.functions k = true :=
      checksError_none_outputs c os hchk k hk
    have hknode : k ∈ (c.ancestorDag os).nodes := by
      rw [Composer.ancestorDag, mem_subgraphOf_nodes]
      refine ⟨dkeys_sub_dag_nodes c k ?_, (mem_ancestorSet c os k).mpr (Or.inl hk)⟩
      unfold dcontains at hkfn
      exact (dget?_isSome_iff_mem c.functions k).mp hkfn
    have hkkahn : k ∈ kahnList (c.ancestorDag os) :=
      kahnList_complete _ hWF hacyc k hknode
    exact hinvF.rdom k hkkahn (Or.inr (Or.inr hk)) (Or.inl hk)
  · rw [if_neg hk]
    cases ho : dget? stF.results k with
    | none => rfl
    | some v =>
      exfalso
      have hsome : (dget? stF.results k).isSome = true := by
        rw [ho]
        rfl
      rcases hinvF.w.results_live k hsome with hos | ⟨w, hw, hwP⟩
      · exact hk hos
      · have hwnode : w ∈ (c.ancestorDag os).nodes :=
          hWF.tgtMem (k, w) ((mem_succOf _ _ _).mp hw)
        exact hwP (kahnList_complete _ hWF hacyc w hwnode)

theorem kahnList_length_le (g : NxDiGraph) (hWF : g.WF) :
    (kahnList g).length ≤ g.nodes.length := by
  obtain ⟨hsub, hnd, _⟩ := kahnList_props g hWF
  exact List.Subperm.length_le (List.subperm_of_subset hnd hsub)

/-- The denotational value is independent of the fuel once the fuel
exceeds the node's position in the topological order. -/
theorem Vfuel_stable (c : Composer) (isInv : Name → Bool)
    (cval : Name → Value) (g : NxDiGraph) (hWF : g.WF)
    (hpe : ∀ n ∈ kahnList g, ∀ pr ∈ c.resolvePredecessors n,
      (pr.2, n) ∈ g.edges) :
    ∀ (N : Nat) (P : List Name) (n : Name) (l2 : List Name),
      P.length = N → kahnList g = P ++ n :: l2 →
      ∀ f1 f2 : Nat, N < f1 → N < f2 →
        Vfuel c isInv cval f1 n = Vfuel c isInv cval f2 n := by
  intro N
  induction N using Nat.strong_induction_on with
  | _ N ih =>
    intro P n l2 hlen hsplit f1 f2 hf1 hf2
    cases f1 with
    | zero => omega
    | succ f1p =>
      cases f2 with
      | zero => omega
      | succ f2p =>
        simp only [Vfuel]
        by_cases hi : isInv n = true
        · rw [if_pos hi, if_pos hi,
            nodeCall_env_congr c (Vfuel c isInv cval f1p)
              (Vfuel c isInv cval f2p) n ?henv]
          case henv =>
            intro pr hpr
            have hn_mem : n ∈ kahnList g := by
              rw [hsplit]
              exact List.mem_append_right _ (List.mem_cons_self _ _)
            have hedge := hpe n hn_mem pr hpr
            have hsound := (kahnList_props g hWF).2.2 (pr.2, n) hedge
              P n l2 hsplit rfl
            obtain ⟨p1, p2, hP⟩ := List.append_of_mem hsound
            have hsplit2 : kahnList g = p1 ++ pr.2 :: (p2 ++ n :: l2) := by
              rw [hsplit, hP]
              simp
            have hlt : p1.length < N := by
              have h2 : P.length = p1.length + (p2.length + 1) := by
                rw [hP]
                simp [List.length_append]
              omega
            exact ih p1.length hlt p1 pr.2 _ rfl hsplit2 f1p f2p
              (by omega) (by omega)
        · rw [if_neg hi, if_neg hi]

/-- `nodeCall` congruence across composers that agree at the node and on
the environment at its predecessors. -/
theorem nodeCall_congr (c1 c2 : Composer) (env1 env2 : Name → Value)
    (n : Name) (hfn : dget? c2.functions n = dget? c1.functions n)
    (hres : c2.resolvePredecessors n = c1.resolvePredecessors n)
    (henv : ∀ pr ∈ c1.resolvePredecessors n, env2 pr.2 = env1 pr.2) :
    nodeCall c2 env2 n = nodeCall c1 env1 n := by
  unfold nodeCall
  rw [hfn, hres]
  cases dget? c1.functions n with
  | none => rfl
  | some fn =>
    rw [foldl_dinsert_env_congr env2 env1 (c1.resolvePredecessors n) henv []]

/-- `Vfuel` congruence (at a fixed fuel) across composers that agree on a
set of nodes closed under predecessors. -/
theorem Vfuel_congr (c1 c2 : Composer) (inv1 inv2 : Name → Bool)
    (cv1 cv2 : Name → Value) (R : List Name)
    (hRclosed : ∀ n ∈ R, ∀ pr ∈ c1.resolvePredecessors n, pr.2 ∈ R)
    (hres : ∀ n ∈ R, c2.resolvePredecessors n = c1.resolvePredecessors n)
    (hfn : ∀ n ∈ R, dget? c2.functions n = dget? c1.functions n)
    (hinv : ∀ n ∈ R, inv2 n = inv1 n)
    (hcv : ∀ n ∈ R, inv1 n = false → cv2 n = cv1 n) :
    ∀ fuel, ∀ n ∈ R, Vfuel c2 inv2 cv2 fuel n = Vfuel c1 inv1 cv1 fuel n := by
  intro fuel
  induction fuel with
  | zero => intro n _; rfl
  | succ f ih =>
    intro n hn
    simp only [Vfuel]
    rw [hinv n hn]
    by_cases hi : inv1 n = true
    · rw [if_pos hi, if_pos hi,
        nodeCall_congr c1 c2 (Vfuel c1 inv1 cv1 f) (Vfuel c2 inv2 cv2 f) n
          (hfn n hn) (hres n hn)
          (fun pr hpr => ih pr.2 (hRclosed n hn pr hpr))]
    · have hi2 : inv1 n = false := by
        revert hi
        cases inv1 n <;> simp
      rw [if_neg hi, if_neg hi]
      exact hcv n hn hi2

theorem cacheVal_congr (c1 c2 : Composer) (s1 s2 : CacheState) (n : Name)
    (h : cacheGet c2 s2 n = cacheGet c1 s1 n) :
    cacheVal c2 s2 n = cacheVal c1 s1 n := by
  unfold cacheVal
  rw [h]

/-- Agreement of the denotational values of two pipelines on a
predecessor-closed set of common nodes. -/
theorem Vnode_agree (c1 c2 : Composer) (s1 s2 : CacheState)
    (g1 g2 : NxDiGraph) (hWF1 : g1.WF) (hWF2 : g2.WF) (R : List Name)
    (hRsub1 : ∀ n ∈ R, n ∈ kahnList g1)
    (hRsub2 : ∀ n ∈ R, n ∈ kahnList g2)
    (hRclosed : ∀ n ∈ R, ∀ pr ∈ c1.resolvePredecessors n, pr.2 ∈ R)
    (hpe1 : ∀ n ∈ kahnList g1, ∀ pr ∈ c1.resolvePredecessors n,
      (pr.2, n) ∈ g1.edges)
    (hpe2 : ∀ n ∈ kahnList g2, ∀ pr ∈ c2.resolvePredecessors n,
      (pr.2, n) ∈ g2.edges)
    (hres : ∀ n ∈ R, c2.resolvePredecessors n = c1.resolvePredecessors n)
    (hfn : ∀ n ∈ R, dget? c2.functions n = dget? c1.functions n)
    (hinv : ∀ n ∈ R, invalidPred c2 s2 g2 n = invalidPred c1 s1 g1 n)
    (hcv : ∀ n ∈ R, invalidPred c1 s1 g1 n = false →
      cacheVal c2 s2 n = cacheVal c1 s1 n) :
    ∀ n ∈ R, Vnode c2 s2 g2 n = Vnode c1 s1 g1 n := by
  intro n hn
  obtain ⟨q1, q2, hsp1⟩ := List.append_of_mem (hRsub1 n hn)
  obtain ⟨p1, p2, hsp2⟩ := List.append_of_mem (hRsub2 n hn)
  have hlen1 : q1.length < g1.nodes.length + 1 := by
    have h2 : (kahnList g1).length = q1.length + (q2.length + 1) := by
      rw [hsp1]
      simp [List.length_append]
    have h3 := kahnList_length_le g1 hWF1
    omega
  have hlen2 : p1.length < g2.nodes.length + 1 := by
    have h2 : (kahnList g2).length = p1.length + (p2.length + 1) := by
      rw [hsp2]
      simp [List.length_append]
    have h3 := kahnList_length_le g2 hWF2
    omega
  have hs2 : Vnode c2 s2 g2 n =
      Vfuel c2 (fun m => invalidPred c2 s2 g2 m) (cacheVal c2 s2)
        (g1.nodes.length + g2.nodes.length + 2) n :=
    Vfuel_stable c2 _ _ g2 hWF2 hpe2 p1.length p1 n p2 rfl hsp2
      (g2.nodes.length + 1) (g1.nodes.length + g2.nodes.length + 2)
      hlen2 (by omega)
  have hs1 : Vnode c1 s1 g1 n =
      Vfuel c1 (fun m => invalidPred c1 s1 g1 m) (cacheVal c1 s1)
        (g1.nodes.length + g2.nodes.length + 2) n :=
    Vfuel_stable c1 _ _ g1 hWF1 hpe1 q1.length q1 n q2 rfl hsp1
      (g1.nodes.length + 1) (g1.nodes.length + g2.nodes.length + 2)
      hlen1 (by omega)
  rw [hs1, hs2]
  exact Vfuel_congr c1 c2 _ _ _ _ R hRclosed hres hfn hinv hcv
    (g1.nodes.length + g2.nodes.length + 2) n hn

theorem dget?_subgraph_functions (c : Composer) (S : List Name) (n : Name) :
    dget? (c.subgraph S).functions n =
      if n ∈ S then dget? c.functions n else none := by
  show dget? (S.filterMap
    (fun k => (dget? c.functions k).map (fun fd => (k, fd)))) n = _
  induction S with
  | nil => simp [dget?]
  | cons x rest ih =>
    cases hx : dget? c.functions x with
    | none =>
      rw [List.filterMap_cons_none (by rw [hx]; rfl), ih]
      by_cases hnx : n = x
      · subst hnx
        by_cases hnr : n ∈ rest
        · rw [if_pos hnr, if_pos (List.mem_cons_self _ _)]
        · rw [if_neg hnr, if_pos (List.mem_cons_self _ _), hx]
      · by_cases hnr : n ∈ rest
        · rw [if_pos hnr, if_pos (List.mem_cons_of_mem _ hnr)]
        · rw [if_neg hnr, if_neg (by
            intro hc
            rcases List.mem_cons.mp hc with h | h
            · exact hnx h
            · exact hnr h)]
    | some fd =>
      rw [List.filterMap_cons_some (by rw [hx]; rfl)]
      by_cases hnx : x = n
      · subst hnx
        rw [if_pos (List.mem_cons_self _ _), hx]
        simp [dget?]
      · have hstep : dget? ((x, fd) :: rest.filterMap
            (fun k => (dget? c.functions k).map (fun fd => (k, fd)))) n =
            dget? (rest.filterMap
              (fun k => (dget? c.functions k).map (fun fd => (k, fd)))) n := by
          simp [dget?, hnx]
        rw [hstep, ih]
        by_cases hnr : n ∈ rest
        · rw [if_pos hnr, if_pos (List.mem_cons_of_mem _ hnr)]
        · rw [if_neg hnr, if_neg (by
            intro hc
            rcases List.mem_cons.mp hc with h | h
            · exact hnx h.symm
            · exact hnr h)]

/-- C8, counterexample.  `cexC8` registers `b_2` before `b_1`; the
variadic consumer `g(*b_)` receives `(2, 1)` and returns `1`.  Restricting
to the same node set `{b_1, b_2, g}` handed over in sorted iteration
order re-registers `b_1` first, so the restricted composer computes
`g = 1 - 2 = -1 ≠ 1`: the subgraph round trip changes the result. -/
theorem C8_counterexample :
    (cexC8.ancestorSet [nm "g"]).all
      (fun x => decide (x ∈ [nm "b_1", nm "b_2", nm "g"])) = true ∧
    ([nm "b_1", nm "b_2", nm "g"].all
      (fun x => decide (x ∈ cexC8.ancestorSet [nm "g"]))) = true ∧
    (calculate cexC8 CacheState.null [nm "g"] true false).toOption.map
      (fun r => dget? r.1 (nm "g")) = some (some (Value.vint 1)) ∧
    (calculate (cexC8.subgraph [nm "b_1", nm "b_2", nm "g"])
        CacheState.null [nm "g"] true false).toOption.map
      (fun r => dget? r.1 (nm "g")) = some (some (Value.vint (-1))) := by
  exact ⟨by decide, by decide, by decide, by decide⟩

/-- C8, amended.  Restricting a composer to a name set `S` with the same
members as `ancestors(O) ∪ O` and then calculating `O` yields the same
result mapping as calculating `O` on the full composer, provided the
restriction changes no resolution on the ancestor dag (in particular no
variadic parameter collects producers in a different registration order —
`C8_counterexample` shows the law fails otherwise), the two plan dags
cover the same nodes with equal per-node cache validity and backend
reads (true in particular under the default `NullCache`), and both runs
satisfy the pipeline side conditions (checks pass, the dag is acyclic,
every plan node is registered with duplicate-free predecessors, valid
nodes can be read back, invalid nodes compute without raising). -/
theorem C8_subgraph_calculate (c : Composer) (s : CacheState)
    (os S : List Name)
    (hS1 : ∀ x ∈ c.ancestorSet os, x ∈ S)
    (hchk1 : checksError c os = none)
    (hchk2 : checksError (c.subgraph S) os = none)
    (hacyc1 : (kahnList (c.ancestorDag os)).length =
      (c.ancestorDag os).nodes.length)
    (hacyc2 : (kahnList ((c.subgraph S).ancestorDag os)).length =
      ((c.subgraph S).ancestorDag os).nodes.length)
    (hreg1 : ∀ n ∈ (c.ancestorDag os).nodes, dcontains c.functions n = true)
    (hpn1 : ∀ n ∈ (c.ancestorDag os).nodes,
      ((c.resolvePredecessors n).map (fun pr => pr.2)).Nodup)
    (hcach1 : ∀ n ∈ (c.ancestorDag os).nodes,
      invalidPred c (maintainCacheConsistency c s) (c.ancestorDag os) n = false →
      cacheGet c (maintainCacheConsistency c s) n =
        Except.ok (cacheVal c (maintainCacheConsistency c s) n))
    (himpl1 : ∀ n ∈ (c.ancestorDag os).nodes,
      invalidPred c (maintainCacheConsistency c s) (c.ancestorDag os) n = true →
      nodeCall c
          (fun p => Vnode c (maintainCacheConsistency c s) (c.ancestorDag os) p) n =
        Except.ok (Vnode c (maintainCacheConsistency c s) (c.ancestorDag os) n))
    (hres : ∀ n ∈ (c.ancestorDag os).nodes,
      (c.subgraph S).resolvePredecessors n = c.resolvePredecessors n)
    (hinva : ∀ n ∈ (c.ancestorDag os).nodes,
      invalidPred (c.subgraph S) (maintainCacheConsistency (c.subgraph S) s)
        ((c.subgraph S).ancestorDag os) n =
      invalidPred c (maintainCacheConsistency c s) (c.ancestorDag os) n)
    (hcga : ∀ n ∈ (c.ancestorDag os).nodes,
      cacheGet (c.subgraph S) (maintainCacheConsistency (c.subgraph S) s) n =
      cacheGet c (maintainCacheConsistency c s) n)
    (hnodes21 : ∀ n ∈ (c.ancestorDag os).nodes,
      n ∈ ((c.subgraph S).ancestorDag os).nodes)
    (hnodes12 : ∀ n ∈ ((c.subgraph S).ancestorDag os).nodes,
      n ∈ (c.ancestorDag os).nodes) :
    ∃ r1 s1x r2 s2x,
      calculate c s os true false = Except.ok (r1, s1x) ∧
      calculate (c.subgraph S) s os true false = Except.ok (r2, s2x) ∧
      ∀ k, dget? r2 k = dget? r1 k := by
  have hWF1 := ancestorDag_wf c os
  have hWF2 := ancestorDag_wf (c.subgraph S) os
  have hfna : ∀ n ∈ (c.ancestorDag os).nodes,
      dget? (c.subgraph S).functions n = dget? c.functions n := by
    intro n hn
    have hnS : n ∈ S :=
      hS1 n ((mem_subgraphOf_nodes c.dag (c.ancestorSet os) n).mp hn).2
    rw [dget?_subgraph_functions c S n, if_pos hnS]
  have hclosed : ∀ n ∈ (c.ancestorDag os).nodes,
      ∀ pr ∈ c.resolvePredecessors n, pr.2 ∈ (c.ancestorDag os).nodes := by
    intro n hn pr hpr
    have hedge : (pr.2, n) ∈ (c.ancestorDag os).edges :=
      (ancestorDag_pred_edges c os n hn pr.2).mpr
        (List.mem_map.mpr ⟨pr, hpr, rfl⟩)
    exact hWF1.srcMem _ hedge
  have hsub1 : ∀ n ∈ (c.ancestorDag os).nodes,
      n ∈ kahnList (c.ancestorDag os) :=
    fun n hn => kahnList_complete _ hWF1 hacyc1 n hn
  have hsub2 : ∀ n ∈ (c.ancestorDag os).nodes,
      n ∈ kahnList ((c.subgraph S).ancestorDag os) :=
    fun n hn => kahnList_complete _ hWF2 hacyc2 n (hnodes21 n hn)
  have hpe1 : ∀ n ∈ kahnList (c.ancestorDag os),
      ∀ pr ∈ c.resolvePredecessors n, (pr.2, n) ∈ (c.ancestorDag os).edges := by
    intro n hn pr hpr
    exact (ancestorDag_pred_edges c os n
      ((kahnList_props _ hWF1).1 n hn) pr.2).mpr
      (List.mem_map.mpr ⟨pr, hpr, rfl⟩)
  have hpe2 : ∀ n ∈ kahnList ((c.subgraph S).ancestorDag os),
      ∀ pr ∈ (c.subgraph S).resolvePredecessors n,
        (pr.2, n) ∈ ((c.subgraph S).ancestorDag os).edges := by
    intro n hn pr hpr
    exact (ancestorDag_pred_edges (c.subgraph S) os n
      ((kahnList_props _ hWF2).1 n hn) pr.2).mpr
      (List.mem_map.mpr ⟨pr, hpr, rfl⟩)
  have hVagree : ∀ n ∈ (c.ancestorDag os).nodes,
      Vnode (c.subgraph S) (maintainCacheConsistency (c.subgraph S) s)
        ((c.subgraph S).ancestorDag os) n =
      Vnode c (maintainCacheConsistency c s) (c.ancestorDag os) n :=
    Vnode_agree c (c.subgraph S) (maintainCacheConsistency c s)
      (maintainCacheConsistency (c.subgraph S) s)
      (c.ancestorDag os) ((c.subgraph S).ancestorDag os) hWF1 hWF2
      (c.ancestorDag os).nodes hsub1 hsub2 hclosed hpe1 hpe2 hres hfna hinva
      (fun n hn _ => cacheVal_congr c (c.subgraph S)
        (maintainCacheConsistency c s)
        (maintainCacheConsistency (c.subgraph S) s) n (hcga n hn))
  have hreg2 : ∀ n ∈ ((c.subgraph S).ancestorDag os).nodes,
      dcontains (c.subgraph S).functions n = true := by
    intro n hn
    have hn1 := hnodes12 n hn
    unfold dcontains
    rw [hfna n hn1]
    exact hreg1 n hn1
  have hpn2 : ∀ n ∈ ((c.subgraph S).ancestorDag os).nodes,
      (((c.subgraph S).resolvePredecessors n).map (fun pr => pr.2)).Nodup := by
    intro n hn
    rw [hres n (hnodes12 n hn)]
    exact hpn1 n (hnodes12 n hn)
  have hcach2 : ∀ n ∈ ((c.subgraph S).ancestorDag os).nodes,
      invalidPred (c.subgraph S) (maintainCacheConsistency (c.subgraph S) s)
        ((c.subgraph S).ancestorDag os) n = false →
      cacheGet (c.subgraph S) (maintainCacheConsistency (c.subgraph S) s) n =
        Except.ok (cacheVal (c.subgraph S)
          (maintainCacheConsistency (c.subgraph S) s) n) := by
    intro n hn hinvf
    have hn1 := hnodes12 n hn
    rw [hcga n hn1, cacheVal_congr c (c.subgraph S)
      (maintainCacheConsistency c s)
      (maintainCacheConsistency (c.subgraph S) s) n (hcga n hn1)]
    refine hcach1 n hn1 ?_
    rw [← hinva n hn1]
    exact hinvf
  have himpl2 : ∀ n ∈ ((c.subgraph S).ancestorDag os).nodes,
      invalidPred (c.subgraph S) (maintainCacheConsistency (c.subgraph S) s)
        ((c.subgraph S).ancestorDag os) n = true →
      nodeCall (c.subgraph S)
          (fun p => Vnode (c.subgraph S)
            (maintainCacheConsistency (c.subgraph S) s)
            ((c.subgraph S).ancestorDag os) p) n =
        Except.ok (Vnode (c.subgraph S)
          (maintainCacheConsistency (c.subgraph S) s)
          ((c.subgraph S).ancestorDag os) n) := by
    intro n hn hinvt
    have hn1 := hnodes12 n hn
    rw [nodeCall_congr c (c.subgraph S)
      (fun p => Vnode c (maintainCacheConsistency c s) (c.ancestorDag os) p)
      (fun p => Vnode (c.subgraph S)
        (maintainCacheConsistency (c.subgraph S) s)
        ((c.subgraph S).ancestorDag os) p) n
      (hfna n hn1) (hres n hn1)
      (fun pr hpr => hVagree pr.2 (hclosed n hn1 pr hpr)), hVagree n hn1]
    refine himpl1 n hn1 ?_
    rw [← hinva n hn1]
    exact hinvt
  obtain ⟨r1, s1x, hc1, hr1⟩ :=
    calculate_spec c s os hchk1 hacyc1 hreg1 hpn1 hcach1 himpl1
  obtain ⟨r2, s2x, hc2, hr2⟩ :=
    calculate_spec (c.subgraph S) s os hchk2 hacyc2 hreg2 hpn2 hcach2 himpl2
  refine ⟨r1, s1x, r2, s2x, hc1, hc2, ?_⟩
  intro k
  rw [hr1 k, hr2 k]
  by_cases hk : k ∈ os
  · rw [if_pos hk, if_pos hk]
    have hkfn : dcontains c.functions k = true :=
      checksError_none_outputs c os hchk1 k hk
    have hknode : k ∈ (c.ancestorDag os).nodes := by
      rw [Composer.ancestorDag, mem_subgraphOf_nodes]
      refine ⟨dkeys_sub_dag_nodes c k ?_,
        (mem_ancestorSet c os k).mpr (Or.inl hk)⟩
      unfold dcontains at hkfn
      exact (dget?_isSome_iff_mem c.functions k).mp hkfn
    rw [hVagree k hknode]
  · rw [if_neg hk, if_neg hk]

/-- C8, witness: the amended theorem applied to scenario S1 with
`O = [c]` and `S = [a, b, c]` (the sorted ancestor set). -/
theorem C8_subgraph_calculate_witness :
    ∃ r1 s1x r2 s2x,
      calculate s1 CacheState.null [nm "c"] true false = Except.ok (r1, s1x) ∧
      calculate (s1.subgraph [nm "a", nm "b", nm "c"]) CacheState.null
        [nm "c"] true false = Except.ok (r2, s2x) ∧
      ∀ k, dget? r2 k = dget? r1 k :=
  C8_subgraph_calculate s1 CacheState.null [nm "c"] [nm "a", nm "b", nm "c"]
    (by decide) (by decide) (by decide) (by decide) (by decide) (by decide)
    (by decide) (by decide) (by decide) (by decide) (by decide) (by decide)
    (by decide) (by decide)

/-- Unfolding the denotational value of an invalid node whose call
succeeds. -/
theorem Vnode_calc_ok (c : Composer) (s1 : CacheState) (g : NxDiGraph)
    (hWF : g.WF)
    (hpe : ∀ n ∈ kahnList g, ∀ pr ∈ c.resolvePredecessors n,
      (pr.2, n) ∈ g.edges)
    (n : Name) (hn : n ∈ kahnList g)
    (hinv : invalidPred c s1 g n = true) (v : Value)
    (hcall : nodeCall c (fun p => Vnode c s1 g p) n = Except.ok v) :
    Vnode c s1 g n = v := by
  obtain ⟨P, l2, hsplit⟩ := List.append_of_mem hn
  have hlenP : P.length + 1 ≤ (kahnList g).length := by
    rw [hsplit]
    simp [List.length_append]
  have hlenK := kahnList_length_le g hWF
  show Vfuel c (fun m => invalidPred c s1 g m) (cacheVal c s1)
    (g.nodes.length + 1) n = v
  simp only [Vfuel]
  rw [if_pos hinv]
  have henv : ∀ pr ∈ c.resolvePredecessors n,
      Vfuel c (fun m => invalidPred c s1 g m) (cacheVal c s1)
        g.nodes.length pr.2 = Vnode c s1 g pr.2 := by
    intro pr hpr
    have hedge := hpe n hn pr hpr
    have hsound := (kahnList_props g hWF).2.2 (pr.2, n) hedge P n l2 hsplit rfl
    obtain ⟨p1, p2, hP⟩ := List.append_of_mem hsound
    have hsplit2 : kahnList g = p1 ++ pr.2 :: (p2 ++ n :: l2) := by
      rw [hsplit, hP]
      simp
    have hlt : p1.length + 1 ≤ P.length := by
      have h2 : P.length = p1.length + (p2.length + 1) := by
        rw [hP]
        simp [List.length_append]
      omega
    exact Vfuel_stable c _ _ g hWF hpe p1.length p1 pr.2 _ rfl hsplit2
      g.nodes.length (g.nodes.length + 1) (by omega) (by omega)
  rw [nodeCall_env_congr c _ (fun p => Vnode c s1 g p) n henv, hcall]

/-- A link function's node call returns the environment's value of the
resolved source. -/
theorem nodeCall_link (c2 : Composer) (env : Name → Value)
    (a b rb : Name) (ident : Nat)
    (hfn : dget? c2.functions a = some (makeLinkFn b ident))
    (hres : c2.resolvePredecessors a = [(b, rb)]) :
    nodeCall c2 env a = Except.ok (env rb) := by
  unfold nodeCall
  rw [hfn, hres]
  have hfold : List.foldl (fun d pr => dinsert d pr.1 (env pr.2)) []
      [(b, rb)] = [(b, env rb)] := rfl
  rw [hfold]
  have hco : coalesceArguments (makeLinkFn b ident) [(b, env rb)] =
      Except.ok ([env rb], [], [], []) := by
    unfold coalesceArguments coalesceArgumentNames makeLinkFn
    simp [popAll, popStarting, popAllKw, popStartingKw, dget?, dremove,
      dcontains]
  dsimp only
  rw [hco]
  rfl

/-- C7, counterexample.  With `b = () → 5`, the linked composer returns
`{a: 5}` for `calculate(["a"])` while the base composer returns `{b: 5}`
for `calculate(["b"])`: equal values, but as dicts they differ (the key
`a` is absent on the right), so `==` is false. -/
theorem C7_counterexample :
    (calculate cexC7L CacheState.null [nm "a"] true false).toOption.map
      (fun r => dget? r.1 (nm "a")) = some (some (Value.vint 5)) ∧
    (calculate cexC7 CacheState.null [nm "b"] true false).toOption.map
      (fun r => dget? r.1 (nm "a")) = some none ∧
    (calculate cexC7 CacheState.null [nm "b"] true false).toOption.map
      (fun r => dget? r.1 (nm "b")) = some (some (Value.vint 5)) := by
  exact ⟨by decide, by decide, by decide⟩

/-- C7, amended.  Linking `a` to a registered node `b` makes the VALUES
agree — `link(a="b").calculate(["a"])[a] == calculate(["b"])[b]` — but
not the result dicts, whose keys differ (`C7_counterexample`).  The value
law holds provided the link's parameter resolves to `b` itself, the link
node is classified invalid (always so under the default `NullCache`),
adding the link changes no resolution, node, cache validity or backend
read on the ancestor dag of `b`, and both runs satisfy the pipeline side
conditions.  Scenario S3 is confirmed as stated: `{c: 10}`. -/
theorem C7_link_calculate (c : Composer) (s : CacheState) (a b : Name)
    (ident : Nat)
    (hchk1 : checksError (c.link [(a, b)] ident) [a] = none)
    (hchk2 : checksError c [b] = none)
    (hacyc1 : (kahnList ((c.link [(a, b)] ident).ancestorDag [a])).length =
      ((c.link [(a, b)] ident).ancestorDag [a]).nodes.length)
    (hacyc2 : (kahnList (c.ancestorDag [b])).length =
      (c.ancestorDag [b]).nodes.length)
    (hreg1 : ∀ n ∈ ((c.link [(a, b)] ident).ancestorDag [a]).nodes,
      dcontains (c.link [(a, b)] ident).functions n = true)
    (hpn1 : ∀ n ∈ ((c.link [(a, b)] ident).ancestorDag [a]).nodes,
      (((c.link [(a, b)] ident).resolvePredecessors n).map (fun pr => pr.2)).Nodup)
    (hcach1 : ∀ n ∈ ((c.link [(a, b)] ident).ancestorDag [a]).nodes,
      invalidPred (c.link [(a, b)] ident)
        (maintainCacheConsistency (c.link [(a, b)] ident) s)
        ((c.link [(a, b)] ident).ancestorDag [a]) n = false →
      cacheGet (c.link [(a, b)] ident)
          (maintainCacheConsistency (c.link [(a, b)] ident) s) n =
        Except.ok (cacheVal (c.link [(a, b)] ident)
          (maintainCacheConsistency (c.link [(a, b)] ident) s) n))
    (himpl1 : ∀ n ∈ ((c.link [(a, b)] ident).ancestorDag [a]).nodes,
      invalidPred (c.link [(a, b)] ident)
        (maintainCacheConsistency (c.link [(a, b)] ident) s)
        ((c.link [(a, b)] ident).ancestorDag [a]) n = true →
      nodeCall (c.link [(a, b)] ident)
          (fun p => Vnode (c.link [(a, b)] ident)
            (maintainCacheConsistency (c.link [(a, b)] ident) s)
            ((c.link [(a, b)] ident).ancestorDag [a]) p) n =
        Except.ok (Vnode (c.link [(a, b)] ident)
          (maintainCacheConsistency (c.link [(a, b)] ident) s)
          ((c.link [(a, b)] ident).ancestorDag [a]) n))
    (hreg2 : ∀ n ∈ (c.ancestorDag [b]).nodes, dcontains c.functions n = true)
    (hpn2 : ∀ n ∈ (c.ancestorDag [b]).nodes,
      ((c.resolvePredecessors n).map (fun pr => pr.2)).Nodup)
    (hcach2 : ∀ n ∈ (c.ancestorDag [b]).nodes,
      invalidPred c (maintainCacheConsistency c s) (c.ancestorDag [b]) n = false →
      cacheGet c (maintainCacheConsistency c s) n =
        Except.ok (cacheVal c (maintainCacheConsistency c s) n))
    (himpl2 : ∀ n ∈ (c.ancestorDag [b]).nodes,
      invalidPred c (maintainCacheConsistency c s) (c.ancestorDag [b]) n = true →
      nodeCall c
          (fun p => Vnode c (maintainCacheConsistency c s) (c.ancestorDag [b]) p) n =
        Except.ok (Vnode c (maintainCacheConsistency c s) (c.ancestorDag [b]) n))
    (hlinkres : (c.link [(a, b)] ident).resolvePredecessors a = [(b, b)])
    (hinvA : invalidPred (c.link [(a, b)] ident)
      (maintainCacheConsistency (c.link [(a, b)] ident) s)
      ((c.link [(a, b)] ident).ancestorDag [a]) a = true)
    (hres : ∀ n ∈ (c.ancestorDag [b]).nodes,
      (c.link [(a, b)] ident).resolvePredecessors n = c.resolvePredecessors n)
    (hfna : ∀ n ∈ (c.ancestorDag [b]).nodes,
      dget? (c.link [(a, b)] ident).functions n = dget? c.functions n)
    (hinva : ∀ n ∈ (c.ancestorDag [b]).nodes,
      invalidPred (c.link [(a, b)] ident)
        (maintainCacheConsistency (c.link [(a, b)] ident) s)
        ((c.link [(a, b)] ident).ancestorDag [a]) n =
      invalidPred c (maintainCacheConsistency c s) (c.ancestorDag [b]) n)
    (hcga : ∀ n ∈ (c.ancestorDag [b]).nodes,
      cacheGet (c.link [(a, b)] ident)
        (maintainCacheConsistency (c.link [(a, b)] ident) s) n =
      cacheGet c (maintainCacheConsistency c s) n)
    (hnodes21 : ∀ n ∈ (c.ancestorDag [b]).nodes,
      n ∈ ((c.link [(a, b)] ident).ancestorDag [a]).nodes) :
    (∃ r1 s1x r2 s2x,
      calculate (c.link [(a, b)] ident) s [a] true false =
        Except.ok (r1, s1x) ∧
      calculate c s [b] true false = Except.ok (r2, s2x) ∧
      dget? r1 a = dget? r2 b) ∧
    (calculate s3 CacheState.null [nm "c"] true false).toOption.map
      (fun r => r.1) = some [(nm "c", Value.vint 10)] := by
  refine ⟨?_, by decide⟩
  have hWF1 := ancestorDag_wf (c.link [(a, b)] ident) [a]
  have hWF2 := ancestorDag_wf c [b]
  have hpe1 : ∀ n ∈ kahnList ((c.link [(a, b)] ident).ancestorDag [a]),
      ∀ pr ∈ (c.link [(a, b)] ident).resolvePredecessors n,
        (pr.2, n) ∈ ((c.link [(a, b)] ident).ancestorDag [a]).edges := by
    intro n hn pr hpr
    exact (ancestorDag_pred_edges (c.link [(a, b)] ident) [a] n
      ((kahnList_props _ hWF1).1 n hn) pr.2).mpr
      (List.mem_map.mpr ⟨pr, hpr, rfl⟩)
  have hpe2 : ∀ n ∈ kahnList (c.ancestorDag [b]),
      ∀ pr ∈ c.resolvePredecessors n, (pr.2, n) ∈ (c.ancestorDag [b]).edges := by
    intro n hn pr hpr
    exact (ancestorDag_pred_edges c [b] n
      ((kahnList_props _ hWF2).1 n hn) pr.2).mpr
      (List.mem_map.mpr ⟨pr, hpr, rfl⟩)
  have hclosed : ∀ n ∈ (c.ancestorDag [b]).nodes,
      ∀ pr ∈ c.resolvePredecessors n, pr.2 ∈ (c.ancestorDag [b]).nodes := by
    intro n hn pr hpr
    have hedge : (pr.2, n) ∈ (c.ancestorDag [b]).edges :=
      (ancestorDag_pred_edges c [b] n hn pr.2).mpr
        (List.mem_map.mpr ⟨pr, hpr, rfl⟩)
    exact hWF2.srcMem _ hedge
  have hsub2 : ∀ n ∈ (c.ancestorDag [b]).nodes, n ∈ kahnList (c.ancestorDag [b]) :=
    fun n hn => kahnList_complete _ hWF2 hacyc2 n hn
  have hsub1 : ∀ n ∈ (c.ancestorDag [b]).nodes,
      n ∈ kahnList ((c.link [(a, b)] ident).ancestorDag [a]) :=
    fun n hn => kahnList_complete _ hWF1 hacyc1 n (hnodes21 n hn)
  have hVagree : ∀ n ∈ (c.ancestorDag [b]).nodes,
      Vnode (c.link [(a, b)] ident)
        (maintainCacheConsistency (c.link [(a, b)] ident) s)
        ((c.link [(a, b)] ident).ancestorDag [a]) n =
      Vnode c (maintainCacheConsistency c s) (c.ancestorDag [b]) n :=
    Vnode_agree c (c.link [(a, b)] ident) (maintainCacheConsistency c s)
      (maintainCacheConsistency (c.link [(a, b)] ident) s)
      (c.ancestorDag [b]) ((c.link [(a, b)] ident).ancestorDag [a])
      hWF2 hWF1 (c.ancestorDag [b]).nodes hsub2 hsub1 hclosed hpe2 hpe1
      hres hfna hinva
      (fun n hn _ => cacheVal_congr c (c.link [(a, b)] ident)
        (maintainCacheConsistency c s)
        (maintainCacheConsistency (c.link [(a, b)] ident) s) n (hcga n hn))
  have hbfn : dcontains c.functions b = true :=
    checksError_none_outputs c [b] hchk2 b (List.mem_singleton.mpr rfl)
  have hbnode : b ∈ (c.ancestorDag [b]).nodes := by
    rw [Composer.ancestorDag, mem_subgraphOf_nodes]
    refine ⟨dkeys_sub_dag_nodes c b ?_,
      (mem_ancestorSet c [b] b).mpr (Or.inl (List.mem_singleton.mpr rfl))⟩
    unfold dcontains at hbfn
    exact (dget?_isSome_iff_mem c.functions b).mp hbfn
  have hafn : dcontains (c.link [(a, b)] ident).functions a = true :=
    checksError_none_outputs (c.link [(a, b)] ident) [a] hchk1 a
      (List.mem_singleton.mpr rfl)
  have hanode : a ∈ ((c.link [(a, b)] ident).ancestorDag [a]).nodes := by
    rw [Composer.ancestorDag, mem_subgraphOf_nodes]
    refine ⟨dkeys_sub_dag_nodes (c.link [(a, b)] ident) a ?_,
      (mem_ancestorSet (c.link [(a, b)] ident) [a] a).mpr
        (Or.inl (List.mem_singleton.mpr rfl))⟩
    unfold dcontains at hafn
    exact (dget?_isSome_iff_mem (c.link [(a, b)] ident).functions a).mp hafn
  have hlinkfn : dget? (c.link [(a, b)] ident).functions a =
      some (makeLinkFn b ident) := by
    show dget? (dinsert c.functions a (makeLinkFn b ident)) a = _
    exact dget?_dinsert_self c.functions a (makeLinkFn b ident)
  have hcall : nodeCall (c.link [(a, b)] ident)
      (fun p => Vnode (c.link [(a, b)] ident)
        (maintainCacheConsistency (c.link [(a, b)] ident) s)
        ((c.link [(a, b)] ident).ancestorDag [a]) p) a =
      Except.ok (Vnode (c.link [(a, b)] ident)
        (maintainCacheConsistency (c.link [(a, b)] ident) s)
        ((c.link [(a, b)] ident).ancestorDag [a]) b) :=
    nodeCall_link (c.link [(a, b)] ident) _ a b b ident hlinkfn hlinkres
  have hVa : Vnode (c.link [(a, b)] ident)
      (maintainCacheConsistency (c.link [(a, b)] ident) s)
      ((c.link [(a, b)] ident).ancestorDag [a]) a =
      Vnode c (maintainCacheConsistency c s) (c.ancestorDag [b]) b := by
    rw [Vnode_calc_ok (c.link [(a, b)] ident)
      (maintainCacheConsistency (c.link [(a, b)] ident) s)
      ((c.link [(a, b)] ident).ancestorDag [a]) hWF1 hpe1 a
      (kahnList_complete _ hWF1 hacyc1 a hanode) hinvA _ hcall]
    exact hVagree b hbnode
  obtain ⟨r1, s1x, hc1, hr1⟩ := calculate_spec (c.link [(a, b)] ident) s [a]
    hchk1 hacyc1 hreg1 hpn1 hcach1 himpl1
  obtain ⟨r2, s2x, hc2, hr2⟩ := calculate_spec c s [b]
    hchk2 hacyc2 hreg2 hpn2 hcach2 himpl2
  refine ⟨r1, s1x, r2, s2x, hc1, hc2, ?_⟩
  rw [hr1 a, hr2 b, if_pos (List.mem_singleton.mpr rfl),
    if_pos (List.mem_singleton.mpr rfl), hVa]

/-- C7, witness: the amended theorem applied to `cexC7` (`b = 5`),
linking `a` to `b` under the null cache. -/
theorem C7_link_calculate_witness :
    ((∃ r1 s1x r2 s2x,
      calculate (cexC7.link [(nm "a", nm "b")] 92) CacheState.null [nm "a"]
        true false = Except.ok (r1, s1x) ∧
      calculate cexC7 CacheState.null [nm "b"] true false =
        Except.ok (r2, s2x) ∧
      dget? r1 (nm "a") = dget? r2 (nm "b")) ∧
    (calculate s3 CacheState.null [nm "c"] true false).toOption.map
      (fun r => r.1) = some [(nm "c", Value.vint 10)]) :=
  C7_link_calculate cexC7 CacheState.null (nm "a") (nm "b") 92
    (by decide) (by decide) (by decide) (by decide) (by decide) (by decide)
    (by decide) (by decide) (by decide) (by decide) (by decide) (by decide)
    (by decide) (by decide) (by decide)
    (by
      intro n hn
      have hx : (cexC7.ancestorDag [nm "b"]).nodes = [nm "b"] := by decide
      rw [hx] at hn
      rw [List.mem_singleton.mp hn]
      rfl)
    (by decide) (by decide) (by decide)
